import Mathlib

/-! # yaob: overlay codec and proxy client

A shallow embedding of `src/overlay.js` (`makeOverlay`, `stripValue`) and
`src/client.js` (`applyOverlay`, `makeMethod`, `handleMessage`), followed by
theorems about them.

Modelling conventions:

* JavaScript values are the inductive `Value`.  Numbers are integers (the code
  never does arithmetic on transported values; only truthiness is observed).
* An object is its list of own enumerable properties, in enumeration order.
  Keys of one object are pairwise distinct.
* The tables of the code (`proxies`, an overlay) are plain objects, so a read
  `table[k]` with no own property `k` yields the member of `Object.prototype`
  named `k` when there is one (`objectPrototypeKeys`).  The model follows the
  code where the outcome is a `Value` (the truthiness tests, the loops over a
  primitive or an array) and returns `Err.outOfModel` where the built-in
  itself would become data or its own properties would be read.  Assignments
  to the key `__proto__` are not modelled.
* `Value.api id props` is an object whose `value[PROXY_OBJECT_KEY]` is an info
  record with `proxyId = id` (a bridgeable object).  A plain `Value.obj` has no
  truthy `PROXY_OBJECT_KEY` property.
* `Value.proxy a` is a reference to the client-side proxy object stored at heap
  address `a`; two references are the same object iff the addresses are equal.
* `src/protocol.js` is not part of the sources at hand.  Its three string
  constants are the fields of `Protocol`, a parameter of every function that
  reads one of them.
* Where JavaScript behaviour falls outside this model (string indexing in
  UTF-16 units, function objects used as data, engine-specific enumerability)
  the functions return `Err.outOfModel` instead of guessing.
-/

namespace Yaob

/-! ## Data model -/

/-- Function values met on the client: the closures built by `makeMethod`,
the `on` closure of a proxy, and callbacks supplied by the application. -/
inductive Fn where
  | method (proxyId method type : String)
  | on (addr : Nat)
  | app (tag : Nat)
  deriving DecidableEq, Repr

/-- JavaScript values. -/
inductive Value where
  | undefined
  | null
  | bool (b : Bool)
  | num (n : Int)
  | str (s : String)
  | arr (xs : List Value)
  | obj (fs : List (String × Value))
  | error (name message stack : Value) (extra : List (String × Value))
  | api (proxyId : String) (props : List (String × Value))
  | proxy (addr : Nat)
  | func (f : Fn)
  | symbol
  deriving Repr

/-- The type `ProxyOverlay`: `null`, a string, an array or a keyed structure. -/
inductive Overlay where
  | null
  | str (s : String)
  | arr (xs : List Overlay)
  | obj (fs : List (String × Overlay))
  deriving Repr

/-- The constants exported by `protocol.js`. -/
structure Protocol where
  OVERLAY_ERROR : String
  OVERLAY_UNDEFINED : String
  DELETED_PROXY_ID : String
  deriving DecidableEq, Repr

/-- Failures: the `TypeError` thrown by `makeOverlay`, a `TypeError` raised by
the engine (property access on `null`/`undefined`, call of a non-function), and
behaviour outside the model. -/
inductive Err where
  | unsupported (type : String)
  | typeError
  | outOfModel
  deriving DecidableEq, Repr

def PROXY_OBJECT_KEY : String := "proxy key"

/-- Property assignment `o[k] = v` on a property list. -/
def setProp {κ α : Type} [DecidableEq κ] : List (κ × α) → κ → α → List (κ × α)
  | [], k, v => [(k, v)]
  | (k', v') :: rest, k, v =>
    if k' = k then (k, v) :: rest else (k', v') :: setProp rest k v

/-- Property read `o[k]`; `none` stands for an absent property. -/
def getProp {κ α : Type} [DecidableEq κ] : List (κ × α) → κ → Option α
  | [], _ => none
  | (k', v') :: rest, k => if k' = k then some v' else getProp rest k

/-- Property removal `delete o[k]`. -/
def delProp {κ α : Type} [DecidableEq κ] : List (κ × α) → κ → List (κ × α)
  | [], _ => []
  | (k', v') :: rest, k => if k' = k then delProp rest k else (k', v') :: delProp rest k

/-- JavaScript truthiness of a value. -/
def Value.truthy : Value → Bool
  | .undefined => false
  | .null => false
  | .bool b => b
  | .num n => n != 0
  | .str s => s != ""
  | _ => true

def Overlay.isNull : Overlay → Bool
  | .null => true
  | _ => false

/-- JavaScript truthiness of an overlay: `null` and `''` are falsy. -/
def Overlay.truthy : Overlay → Bool
  | .null => false
  | .str s => s != ""
  | _ => true

/-- The test `overlay[i] ? ... : ...`: the entry when it is present and truthy. -/
def usable : Option Overlay → Option Overlay
  | some o => if o.truthy then some o else none
  | none => none

/-- The properties `"0"`, `"1"`, ... of an array, as `for ... in` and object
spread enumerate them, starting at index `i`. -/
def indexProps : Nat → List Value → List (String × Value)
  | _, [] => []
  | i, x :: xs => (toString i, x) :: indexProps (i + 1) xs

/-- The names of the properties of `Object.prototype` (the standard ones and
those of Annex B).  Each of these members is truthy: a built-in function, or
`Object.prototype` itself under `__proto__`. -/
def objectPrototypeKeys : List String :=
  ["constructor", "hasOwnProperty", "isPrototypeOf", "propertyIsEnumerable",
    "toLocaleString", "toString", "valueOf", "__proto__", "__defineGetter__",
    "__defineSetter__", "__lookupGetter__", "__lookupSetter__"]

/-- A read `table[name]` on a plain object without own property `name` finds a
member of `Object.prototype`. -/
def inherits (name : String) : Bool :=
  objectPrototypeKeys.contains name

/-- What `stripValue(value, overlay)` and the client's `applyOverlay(value,
overlay)` return when `overlay` is a member inherited from `Object.prototype`:
it is not `null`, not a string and not an array, so the loop
`for (const name in value)` fills a new object; the built-in has no property
named by an array index, so the elements of an array are copied as they are.
For an object with properties the loop reads the built-in under their names
(`length`, `name`, ...), which is outside the model. -/
def underInherited : Value → Except Err Value
  | .undefined => .ok (.obj [])
  | .null => .ok (.obj [])
  | .bool _ => .ok (.obj [])
  | .num _ => .ok (.obj [])
  | .symbol => .ok (.obj [])
  | .str s => if s = "" then .ok (.obj []) else .error .outOfModel
  | .arr xs => .ok (.obj (indexProps 0 xs))
  | .obj [] => .ok (.obj [])
  | _ => .error .outOfModel

/-- Reading `value.name`, `value.message` or `value.stack` (a property that the
built-in prototypes of primitives, arrays and plain objects do not define). -/
def readField : Value → String → Except Err Value
  | .undefined, _ => .error .typeError
  | .null, _ => .error .typeError
  | .bool _, _ => .ok .undefined
  | .num _, _ => .ok .undefined
  | .str _, _ => .ok .undefined
  | .symbol, _ => .ok .undefined
  | .arr _, _ => .ok .undefined
  | .obj fs, k => .ok ((getProp fs k).getD .undefined)
  | .api _ props, k => .ok ((getProp props k).getD .undefined)
  | .error n m s extra, k =>
    match getProp extra k with
    | some x => .ok x
    | none =>
      .ok (if k = "name" then n else if k = "message" then m
           else if k = "stack" then s else .undefined)
  | .proxy _, _ => .error .outOfModel
  | .func _, _ => .error .outOfModel

/-- The own enumerable properties copied by the object spread `{...value}`. -/
def spreadProps : Value → Except Err (List (String × Value))
  | .undefined => .ok []
  | .null => .ok []
  | .bool _ => .ok []
  | .num _ => .ok []
  | .symbol => .ok []
  | .str s => if s = "" then .ok [] else .error .outOfModel
  | .arr xs => .ok (indexProps 0 xs)
  | .obj fs => .ok fs
  | .api _ props => .ok props
  | .error _ _ _ extra => .ok extra
  | .proxy _ => .error .outOfModel
  | .func _ => .error .outOfModel

/-! ## `overlay.js` -/

mutual
/-- The function `makeOverlay(value, visitor)`: the first component lists the arguments of
the calls to `visitor`, in order; the second is the returned overlay or the
exception thrown. -/
def makeOverlay (P : Protocol) : Value → List Value × Except Err Overlay
  | .bool _ => ([], .ok .null)
  | .num _ => ([], .ok .null)
  | .str _ => ([], .ok .null)
  | .undefined => ([], .ok (.str P.OVERLAY_UNDEFINED))
  | .null => ([], .ok .null)
  | .error _ _ _ _ => ([], .ok (.str P.OVERLAY_ERROR))
  | .api proxyId props => ([.api proxyId props], .ok (.str proxyId))
  | .arr xs =>
    match makeOverlayArr P xs 0 none with
    | (log, .error e) => (log, .error e)
    | (log, .ok none) => (log, .ok .null)
    | (log, .ok (some out)) => (log, .ok (.arr out))
  | .obj fs =>
    if ((getProp fs PROXY_OBJECT_KEY).getD .undefined).truthy then ([], .error .outOfModel)
    else
      match makeOverlayObj P fs none with
      | (log, .error e) => (log, .error e)
      | (log, .ok none) => (log, .ok .null)
      | (log, .ok (some out)) => (log, .ok (.obj out))
  | .proxy _ => ([], .error .outOfModel)
  | .func _ => ([], .error (.unsupported "function"))
  | .symbol => ([], .error (.unsupported "symbol"))
/-- The array loop of `makeOverlay`, from index `i` with the current `out`
(`none` is `out === null`).  When `out` is an array its length is `i`, so
`out[i] = overlay` appends. -/
def makeOverlayArr (P : Protocol) :
    List Value → Nat → Option (List Overlay) → List Value × Except Err (Option (List Overlay))
  | [], _, out => ([], .ok out)
  | x :: rest, i, out =>
    match makeOverlay P x with
    | (log, .error e) => (log, .error e)
    | (log, .ok overlay) =>
      let out1 :=
        if !overlay.isNull && out.isNone then some (List.replicate i Overlay.null) else out
      let out2 := out1.map (fun o => o ++ [overlay])
      match makeOverlayArr P rest (i + 1) out2 with
      | (log2, r) => (log ++ log2, r)
/-- The `for (const name in value)` loop of `makeOverlay` with the current
`out` (`none` is `out === null`). -/
def makeOverlayObj (P : Protocol) :
    List (String × Value) → Option (List (String × Overlay)) →
      List Value × Except Err (Option (List (String × Overlay)))
  | [], out => ([], .ok out)
  | (name, x) :: rest, out =>
    match makeOverlay P x with
    | (log, .error e) => (log, .error e)
    | (log, .ok overlay) =>
      let out1 := if overlay.isNull then out else some (setProp (out.getD []) name overlay)
      match makeOverlayObj P rest out1 with
      | (log2, r) => (log ++ log2, r)
end

/-- The `OVERLAY_ERROR` branch of `stripValue`:
`const { name, message, stack } = value; return { name, message, stack, ...value }`. -/
def stripError (value : Value) : Except Err Value :=
  match readField value "name", readField value "message", readField value "stack",
      spreadProps value with
  | .ok n, .ok m, .ok s, .ok props =>
    .ok (.obj (props.foldl (fun acc p => setProp acc p.1 p.2)
      [("name", n), ("message", m), ("stack", s)]))
  | .error e, _, _, _ => .error e
  | _, .error e, _, _ => .error e
  | _, _, .error e, _ => .error e
  | _, _, _, .error e => .error e

mutual
/-- The function `stripValue(value, overlay)`. -/
def stripValue (P : Protocol) : Value → Overlay → Except Err Value
  | value, .null => .ok value
  | value, .str s => if s = P.OVERLAY_ERROR then stripError value else .ok .null
  | .arr xs, .arr ov =>
    match stripArr P xs ov with
    | .ok out => .ok (.arr out)
    | .error e => .error e
  | .arr xs, .obj ov =>
    match stripIdx P xs 0 ov with
    | .ok out => .ok (.obj out)
    | .error e => .error e
  | .obj fs, .obj ov =>
    match stripObj P fs ov with
    | .ok out => .ok (.obj out)
    | .error e => .error e
  | .api _ props, .obj ov =>
    match stripObj P props ov with
    | .ok out => .ok (.obj out)
    | .error e => .error e
  | .undefined, .arr _ => .error .typeError
  | .null, .arr _ => .error .typeError
  | .bool _, .arr _ => .ok (.arr [])
  | .num _, .arr _ => .ok (.arr [])
  | .symbol, .arr _ => .ok (.arr [])
  | .str s, .arr _ => if s = "" then .ok (.arr []) else .error .outOfModel
  | .obj fs, .arr _ =>
    if (getProp fs "length").isNone then .ok (.arr []) else .error .outOfModel
  | .api _ props, .arr _ =>
    if (getProp props "length").isNone then .ok (.arr []) else .error .outOfModel
  | .error _ _ _ extra, .arr _ =>
    if (getProp extra "length").isNone then .ok (.arr []) else .error .outOfModel
  | .proxy _, .arr _ => .error .outOfModel
  | .func _, .arr _ => .error .outOfModel
  | .undefined, .obj _ => .ok (.obj [])
  | .null, .obj _ => .ok (.obj [])
  | .bool _, .obj _ => .ok (.obj [])
  | .num _, .obj _ => .ok (.obj [])
  | .symbol, .obj _ => .ok (.obj [])
  | .str s, .obj _ => if s = "" then .ok (.obj []) else .error .outOfModel
  | .error _ _ _ _, .obj _ => .error .outOfModel
  | .proxy _, .obj _ => .error .outOfModel
  | .func _, .obj _ => .error .outOfModel
/-- The array loop of `stripValue`; `ov` is the part of the overlay array from
the current index on, so `overlay[i]` is its head. -/
def stripArr (P : Protocol) : List Value → List Overlay → Except Err (List Value)
  | [], _ => .ok []
  | x :: rest, ov =>
    match (match usable ov.head? with
           | some o => stripValue P x o
           | none => .ok x) with
    | .error e => .error e
    | .ok y =>
      match stripArr P rest ov.tail with
      | .error e => .error e
      | .ok ys => .ok (y :: ys)
/-- The `for ... in` loop of `stripValue` over the properties of an object.
The overlay is a plain object: without an own entry `name`, `overlay[name]` is
the member of `Object.prototype` of that name, if there is one. -/
def stripObj (P : Protocol) :
    List (String × Value) → List (String × Overlay) → Except Err (List (String × Value))
  | [], _ => .ok []
  | (name, x) :: rest, ov =>
    match (match usable (getProp ov name) with
           | some o => stripValue P x o
           | none =>
             if (getProp ov name).isNone && inherits name then underInherited x
             else .ok x) with
    | .error e => .error e
    | .ok y =>
      match stripObj P rest ov with
      | .error e => .error e
      | .ok ys => .ok ((name, y) :: ys)
/-- The `for ... in` loop of `stripValue` over the indices of an array. -/
def stripIdx (P : Protocol) :
    List Value → Nat → List (String × Overlay) → Except Err (List (String × Value))
  | [], _, _ => .ok []
  | x :: rest, i, ov =>
    match (match usable (getProp ov (toString i)) with
           | some o => stripValue P x o
           | none => .ok x) with
    | .error e => .error e
    | .ok y =>
      match stripIdx P rest (i + 1) ov with
      | .error e => .error e
      | .ok ys => .ok ((toString i, y) :: ys)
end

/-! ## `client.js` -/

/-- The call record handed to `sendMessage`. -/
structure CallMessage where
  proxyId : String
  callId : Nat
  method : String
  params : List Value

/-- An entry of `message.creates`. -/
structure CreateRecord where
  proxyId : String
  methods : List String
  type : String
  value : Value
  overlay : Overlay

/-- An entry of `message.updates`. -/
structure UpdateRecord where
  proxyId : String
  name : String
  value : Value
  overlay : Overlay

/-- The record `message.return`. -/
structure ReturnRecord where
  callId : Nat
  fail : Bool
  overlay : Overlay
  value : Value

/-- The record `message.root`. -/
structure RootRecord where
  overlay : Overlay
  value : Value

/-- The message handled by `handleMessage`; an absent field is `none`.  The
field `ret` is `message.return`. -/
structure Message where
  creates : Option (List CreateRecord)
  deletes : Option (List String)
  updates : Option (List UpdateRecord)
  ret : Option ReturnRecord
  root : Option RootRecord

/-- The state of a promise. -/
inductive Promise where
  | pending
  | resolved (v : Value)
  | rejected (v : Value)

/-- The state closed over by `makeProxyClient`, together with what the client
has done to the outside world.

* `heap`: the proxy objects, by address (allocation order);
* `promises`: the promises returned by method calls, by allocation order;
* `pendingCalls`: call id to the promise whose `resolve`/`reject` is stored;
* `root`: the value the root promise was resolved with, if it was;
* `sent`: the arguments of the calls to `sendMessage`, in order;
* `fired`: the calls made to application callbacks (tag and arguments). -/
structure Client where
  lastCallId : Nat
  proxies : List (String × Nat)
  pendingCalls : List (Nat × Nat)
  heap : List (List (String × Value))
  promises : List Promise
  root : Option Value
  sent : List CallMessage
  fired : List (Nat × List Value)

/-- The state right after `makeProxyClient(sendMessage)`. -/
def Client.init : Client :=
  { lastCallId := 0, proxies := [], pendingCalls := [], heap := [], promises := [],
    root := none, sent := [], fired := [] }

/-- The expression `proxies[overlay]` when `proxies` has an own entry under the
id, or the id names no member of `Object.prototype`: the proxy stored under
the id, or `undefined`. -/
def lookupProxy (proxies : List (String × Nat)) (id : String) : Value :=
  match getProp proxies id with
  | some a => .proxy a
  | none => .undefined

/-- The `'e'` branch of `applyOverlay`: a new `Error` whose `name`, `stack` and
`message` are read from `value`. -/
def applyError (value : Value) : Except Err Value :=
  match readField value "name", readField value "stack", readField value "message" with
  | .ok n, .ok s, .ok m => .ok (.error n m s [])
  | .error e, _, _ => .error e
  | _, .error e, _ => .error e
  | _, _, .error e => .error e

mutual
/-- The function `applyOverlay(value, overlay)` of the client, reading the table
`proxies`.  For an id without own entry that names a member of
`Object.prototype`, `proxies[overlay]` is that built-in, which has no
counterpart in `Value`. -/
def applyOverlay (P : Protocol) (proxies : List (String × Nat)) :
    Value → Overlay → Except Err Value
  | value, .null => .ok value
  | value, .str s =>
    if s = P.DELETED_PROXY_ID then .ok .null
    else if s = "e" then applyError value
    else if (getProp proxies s).isNone && inherits s then .error .outOfModel
    else .ok (lookupProxy proxies s)
  | .arr xs, .arr ov =>
    match applyArr P proxies xs ov with
    | .ok out => .ok (.arr out)
    | .error e => .error e
  | .arr xs, .obj ov =>
    match applyIdx P proxies xs 0 ov with
    | .ok out => .ok (.obj out)
    | .error e => .error e
  | .obj fs, .obj ov =>
    match applyObj P proxies fs ov with
    | .ok out => .ok (.obj out)
    | .error e => .error e
  | .api _ props, .obj ov =>
    match applyObj P proxies props ov with
    | .ok out => .ok (.obj out)
    | .error e => .error e
  | .undefined, .arr _ => .error .typeError
  | .null, .arr _ => .error .typeError
  | .bool _, .arr _ => .ok (.arr [])
  | .num _, .arr _ => .ok (.arr [])
  | .symbol, .arr _ => .ok (.arr [])
  | .str s, .arr _ => if s = "" then .ok (.arr []) else .error .outOfModel
  | .obj fs, .arr _ =>
    if (getProp fs "length").isNone then .ok (.arr []) else .error .outOfModel
  | .api _ props, .arr _ =>
    if (getProp props "length").isNone then .ok (.arr []) else .error .outOfModel
  | .error _ _ _ extra, .arr _ =>
    if (getProp extra "length").isNone then .ok (.arr []) else .error .outOfModel
  | .proxy _, .arr _ => .error .outOfModel
  | .func _, .arr _ => .error .outOfModel
  | .undefined, .obj _ => .ok (.obj [])
  | .null, .obj _ => .ok (.obj [])
  | .bool _, .obj _ => .ok (.obj [])
  | .num _, .obj _ => .ok (.obj [])
  | .symbol, .obj _ => .ok (.obj [])
  | .str s, .obj _ => if s = "" then .ok (.obj []) else .error .outOfModel
  | .error _ _ _ _, .obj _ => .error .outOfModel
  | .proxy _, .obj _ => .error .outOfModel
  | .func _, .obj _ => .error .outOfModel
/-- The array loop of `applyOverlay`; `ov` is the part of the overlay array
from the current index on. -/
def applyArr (P : Protocol) (proxies : List (String × Nat)) :
    List Value → List Overlay → Except Err (List Value)
  | [], _ => .ok []
  | x :: rest, ov =>
    match (match usable ov.head? with
           | some o => applyOverlay P proxies x o
           | none => .ok x) with
    | .error e => .error e
    | .ok y =>
      match applyArr P proxies rest ov.tail with
      | .error e => .error e
      | .ok ys => .ok (y :: ys)
/-- The `for ... in` loop of `applyOverlay` over the properties of an object.
The overlay is a plain object: without an own entry `name`, `overlay[name]` is
the member of `Object.prototype` of that name, if there is one. -/
def applyObj (P : Protocol) (proxies : List (String × Nat)) :
    List (String × Value) → List (String × Overlay) → Except Err (List (String × Value))
  | [], _ => .ok []
  | (name, x) :: rest, ov =>
    match (match usable (getProp ov name) with
           | some o => applyOverlay P proxies x o
           | none =>
             if (getProp ov name).isNone && inherits name then underInherited x
             else .ok x) with
    | .error e => .error e
    | .ok y =>
      match applyObj P proxies rest ov with
      | .error e => .error e
      | .ok ys => .ok ((name, y) :: ys)
/-- The `for ... in` loop of `applyOverlay` over the indices of an array. -/
def applyIdx (P : Protocol) (proxies : List (String × Nat)) :
    List Value → Nat → List (String × Overlay) → Except Err (List (String × Value))
  | [], _, _ => .ok []
  | x :: rest, i, ov =>
    match (match usable (getProp ov (toString i)) with
           | some o => applyOverlay P proxies x o
           | none => .ok x) with
    | .error e => .error e
    | .ok y =>
      match applyIdx P proxies rest (i + 1) ov with
      | .error e => .error e
      | .ok ys => .ok ((toString i, y) :: ys)
end

/-- The result of calling a proxy method: `Promise.reject(new Error(message))`,
or the new promise (by its index in `Client.promises`). -/
inductive CallResult where
  | rejected (message : String)
  | promise (id : Nat)

/-- The closure returned by `makeMethod(proxyId, method, type)`, called with
`params` in state `st`.  The test `!proxies[proxyId]` fails when the table has
an own entry under the id and also when the id names a member of
`Object.prototype`. -/
def makeMethod (st : Client) (proxyId method type : String) (params : List Value) :
    Client × CallResult :=
  match getProp st.proxies proxyId, inherits proxyId with
  | none, false =>
    (st, .rejected ("Calling method '" ++ method ++ "' on deleted object '" ++ type ++ "'"))
  | _, _ =>
    let callId := st.lastCallId + 1
    ({ st with
        lastCallId := callId
        sent := st.sent ++ [{ proxyId := proxyId, callId := callId, method := method,
                              params := params }]
        promises := st.promises ++ [Promise.pending]
        pendingCalls := setProp st.pendingCalls callId st.promises.length },
      .promise st.promises.length)

/-- The expression `name[0].toUpperCase() + name.slice(1)` for a string `name`
whose first character is ASCII; it throws on the empty string. -/
def capitalize (name : String) : Except Err String :=
  match name.data with
  | [] => .error .typeError
  | c :: rest => if c.val < 128 then .ok (String.mk (c.toUpper :: rest)) else .error .outOfModel

/-- Reads the own property `proxy[name]` of the proxy object at address `a`
(the code reads the slots `'on' + Name + 'Changed'` and properties it has just
assigned). -/
def heapGet (heap : List (List (String × Value))) (a : Nat) (name : String) : Value :=
  match heap[a]? with
  | some props => (getProp props name).getD .undefined
  | none => .undefined

/-- Writes `proxy[name] = v` on the proxy object at address `a`. -/
def heapSet (heap : List (List (String × Value))) (a : Nat) (name : String) (v : Value) :
    List (List (String × Value)) :=
  match heap[a]? with
  | some props => heap.set a (setProp props name v)
  | none => heap

/-- The `on` closure of the proxy at address `a`:
`(name, callback) => (proxy['on' + name[0].toUpperCase() + name.slice(1)] = callback)`. -/
def proxyOn (st : Client) (a : Nat) (name : Value) (callback : Value) : Client × Except Err Unit :=
  match name with
  | .str s =>
    match capitalize s with
    | .ok c => ({ st with heap := heapSet st.heap a ("on" ++ c) callback }, .ok ())
    | .error e => (st, .error e)
  | .undefined => (st, .error .typeError)
  | .null => (st, .error .typeError)
  | .bool _ => (st, .error .typeError)
  | .num _ => (st, .error .typeError)
  | .symbol => (st, .error .typeError)
  | _ => (st, .error .outOfModel)

/-- The call `f(...args)` of a value; the returned value is dropped.  A callback
of the application is recorded in `fired` and returns normally. -/
def invoke (st : Client) (f : Value) (args : List Value) : Client × Except Err Unit :=
  match f with
  | .func (.app tag) => ({ st with fired := st.fired ++ [(tag, args)] }, .ok ())
  | .func (.method proxyId method type) => ((makeMethod st proxyId method type args).1, .ok ())
  | .func (.on a) => proxyOn st a (args.headD .undefined) ((args.drop 1).headD .undefined)
  | _ => (st, .error .typeError)

/-- Pass 1 of the creation group: a new empty proxy per record, stored under
its id, with one method closure per method name and the `on` closure. -/
def createProxies (st : Client) : List CreateRecord → Client
  | [] => st
  | r :: rest =>
    let a := st.heap.length
    let proxy : List (String × Value) :=
      r.methods.foldl (fun o m => setProp o m (.func (.method r.proxyId m r.type))) []
    createProxies
      { st with
        proxies := setProp st.proxies r.proxyId a
        heap := st.heap ++ [setProp proxy "on" (.func (.on a))] }
      rest

/-- The properties enumerated by `for (const name in values)` in pass 2. -/
def forInProps (heap : List (List (String × Value))) : Value → Except Err (List (String × Value))
  | .undefined => .ok []
  | .null => .ok []
  | .bool _ => .ok []
  | .num _ => .ok []
  | .symbol => .ok []
  | .str s => if s = "" then .ok [] else .error .outOfModel
  | .arr xs => .ok (indexProps 0 xs)
  | .obj fs => .ok fs
  | .api _ props => .ok props
  | .proxy a =>
    match heap[a]? with
    | some props => .ok props
    | none => .error .outOfModel
  | .error _ _ _ _ => .error .outOfModel
  | .func _ => .error .outOfModel

/-- The inner loop of pass 2: `proxies[proxyId][name] = values[name]`. -/
def assignProps (st : Client) (proxyId : String) : List (String × Value) → Client × Except Err Unit
  | [] => (st, .ok ())
  | (name, v) :: rest =>
    match getProp st.proxies proxyId with
    | none => (st, .error .typeError)
    | some a => assignProps { st with heap := heapSet st.heap a name v } proxyId rest

/-- Pass 2 of the creation group: fill in the values. -/
def fillProxies (P : Protocol) (st : Client) : List CreateRecord → Client × Except Err Unit
  | [] => (st, .ok ())
  | r :: rest =>
    match applyOverlay P st.proxies r.value r.overlay with
    | .error e => (st, .error e)
    | .ok values =>
      match forInProps st.heap values with
      | .error e => (st, .error e)
      | .ok props =>
        match assignProps st r.proxyId props with
        | (st1, .error e) => (st1, .error e)
        | (st1, .ok ()) => fillProxies P st1 rest

/-- The group `if (message.creates) { ... }` of `handleMessage`. -/
def handleCreates (P : Protocol) (st : Client) : Option (List CreateRecord) → Client × Except Err Unit
  | none => (st, .ok ())
  | some creates => fillProxies P (createProxies st creates) creates

/-- The group `if (message.deletes) { ... }` of `handleMessage`. -/
def handleDeletes (st : Client) : Option (List String) → Client
  | none => st
  | some deletes => { st with proxies := deletes.foldl delProp st.proxies }

/-- One iteration of the loop over `message.updates`.  Without a proxy under
the id, `proxy[name] = ...` throws a `TypeError`, unless the id names a member
of `Object.prototype`: then the assignment lands on that built-in. -/
def handleUpdate (P : Protocol) (st : Client) (u : UpdateRecord) : Client × Except Err Unit :=
  match applyOverlay P st.proxies u.value u.overlay with
  | .error e => (st, .error e)
  | .ok v =>
    match getProp st.proxies u.proxyId with
    | none =>
      if inherits u.proxyId then (st, .error .outOfModel) else (st, .error .typeError)
    | some a =>
      let st1 := { st with heap := heapSet st.heap a u.name v }
      match capitalize u.name with
      | .error e => (st1, .error e)
      | .ok c =>
        let callback := heapGet st1.heap a ("on" ++ c ++ "Changed")
        if callback.truthy then invoke st1 callback [heapGet st1.heap a u.name]
        else (st1, .ok ())

/-- The loop over `message.updates`. -/
def handleUpdateList (P : Protocol) (st : Client) : List UpdateRecord → Client × Except Err Unit
  | [] => (st, .ok ())
  | u :: rest =>
    match handleUpdate P st u with
    | (st1, .error e) => (st1, .error e)
    | (st1, .ok ()) => handleUpdateList P st1 rest

/-- The group `if (message.updates) { ... }` of `handleMessage`. -/
def handleUpdates (P : Protocol) (st : Client) : Option (List UpdateRecord) → Client × Except Err Unit
  | none => (st, .ok ())
  | some updates => handleUpdateList P st updates

/-- Settles the promise `id` if it is still pending. -/
def settle (promises : List Promise) (id : Nat) (p : Promise) : List Promise :=
  match promises[id]? with
  | some .pending => promises.set id p
  | _ => promises

/-- The group `if (message.return) { ... }` of `handleMessage`. -/
def handleReturn (P : Protocol) (st : Client) : Option ReturnRecord → Client × Except Err Unit
  | none => (st, .ok ())
  | some r =>
    match applyOverlay P st.proxies r.value r.overlay with
    | .error e => (st, .error e)
    | .ok result =>
      match getProp st.pendingCalls r.callId with
      | none => (st, .error .typeError)
      | some id =>
        ({ st with
            promises := settle st.promises id
              (if r.fail then Promise.rejected result else Promise.resolved result)
            pendingCalls := delProp st.pendingCalls r.callId },
          .ok ())

/-- The group `if (message.root) { ... }` of `handleMessage`; resolving the
root promise again has no effect. -/
def handleRoot (P : Protocol) (st : Client) : Option RootRecord → Client × Except Err Unit
  | none => (st, .ok ())
  | some r =>
    match applyOverlay P st.proxies r.value r.overlay with
    | .error e => (st, .error e)
    | .ok v =>
      ({ st with root := match st.root with
                         | some old => some old
                         | none => some v },
        .ok ())

/-- The method `handleMessage(message)`: the state it leaves and whether it returned or
threw. -/
def handleMessage (P : Protocol) (st : Client) (message : Message) : Client × Except Err Unit :=
  match handleCreates P st message.creates with
  | (st1, .error e) => (st1, .error e)
  | (st1, .ok ()) =>
    match handleUpdates P (handleDeletes st1 message.deletes) message.updates with
    | (st2, .error e) => (st2, .error e)
    | (st2, .ok ()) =>
      match handleReturn P st2 message.ret with
      | (st3, .error e) => (st3, .error e)
      | (st3, .ok ()) => handleRoot P st3 message.root

/-! ## Reference notions used in the statements -/

mutual
/-- The bridgeable objects met by a traversal that enters arrays and plain
objects only, in order of occurrence. -/
def bridgeables : Value → List Value
  | .api proxyId props => [.api proxyId props]
  | .arr xs => bridgeablesList xs
  | .obj fs => bridgeablesFields fs
  | _ => []
/-- The bridgeable objects met in the elements of an array, in order. -/
def bridgeablesList : List Value → List Value
  | [] => []
  | x :: xs => bridgeables x ++ bridgeablesList xs
/-- The bridgeable objects met in the fields of an object, in order. -/
def bridgeablesFields : List (String × Value) → List Value
  | [] => []
  | (_, x) :: fs => bridgeables x ++ bridgeablesFields fs
end

/-- The proxy ids of the bridgeable objects met by the traversal, in order. -/
def apiIds (v : Value) : List String :=
  (bridgeables v).filterMap fun b =>
    match b with
    | .api proxyId _ => some proxyId
    | _ => none

mutual
/-- Every plain object met by the traversal has pairwise distinct keys. -/
def Value.distinctKeys : Value → Bool
  | .arr xs => Value.distinctKeysList xs
  | .obj fs => decide ((fs.map Prod.fst).Nodup) && Value.distinctKeysFields fs
  | _ => true
/-- All elements of an array satisfy `Value.distinctKeys`. -/
def Value.distinctKeysList : List Value → Bool
  | [] => true
  | x :: xs => x.distinctKeys && Value.distinctKeysList xs
/-- All fields of an object satisfy `Value.distinctKeys`. -/
def Value.distinctKeysFields : List (String × Value) → Bool
  | [] => true
  | (_, x) :: fs => x.distinctKeys && Value.distinctKeysFields fs
end

mutual
/-- A value built from booleans, numbers, strings, `null`, arrays, plain
objects and bridgeable objects. -/
def Value.plain : Value → Bool
  | .null => true
  | .bool _ => true
  | .num _ => true
  | .str _ => true
  | .api _ _ => true
  | .arr xs => Value.plainList xs
  | .obj fs =>
    !((getProp fs PROXY_OBJECT_KEY).getD .undefined).truthy && Value.plainFields fs
  | _ => false
/-- All elements of an array are plain. -/
def Value.plainList : List Value → Bool
  | [] => true
  | x :: xs => x.plain && Value.plainList xs
/-- All fields of an object are plain. -/
def Value.plainFields : List (String × Value) → Bool
  | [] => true
  | (_, x) :: fs => x.plain && Value.plainFields fs
end

mutual
/-- No `Error` instance is met by the traversal of arrays and plain objects. -/
def Value.errorFree : Value → Bool
  | .error _ _ _ _ => false
  | .arr xs => Value.errorFreeList xs
  | .obj fs => Value.errorFreeFields fs
  | _ => true
/-- No element of an array contains an `Error`. -/
def Value.errorFreeList : List Value → Bool
  | [] => true
  | x :: xs => x.errorFree && Value.errorFreeList xs
/-- No field of an object contains an `Error`. -/
def Value.errorFreeFields : List (String × Value) → Bool
  | [] => true
  | (_, x) :: fs => x.errorFree && Value.errorFreeFields fs
end

mutual
/-- A bridgeable object occurs somewhere in the value. -/
def Value.hasApi : Value → Bool
  | .api _ _ => true
  | .arr xs => Value.hasApiList xs
  | .obj fs => Value.hasApiFields fs
  | .error n m s extra => n.hasApi || m.hasApi || s.hasApi || Value.hasApiFields extra
  | _ => false
/-- A bridgeable object occurs in an element of the array. -/
def Value.hasApiList : List Value → Bool
  | [] => false
  | x :: xs => x.hasApi || Value.hasApiList xs
/-- A bridgeable object occurs in a field of the object. -/
def Value.hasApiFields : List (String × Value) → Bool
  | [] => false
  | (_, x) :: fs => x.hasApi || Value.hasApiFields fs
end

mutual
/-- The overlay as the documentation describes it: `null` where nothing
deviates, the marker or proxy id at a deviating leaf, and for arrays and
objects the overlays of the elements or of the deviating fields. -/
def overlayOf (P : Protocol) : Value → Overlay
  | .undefined => .str P.OVERLAY_UNDEFINED
  | .error _ _ _ _ => .str P.OVERLAY_ERROR
  | .api proxyId _ => .str proxyId
  | .arr xs =>
    if (overlayOfList P xs).all Overlay.isNull then .null else .arr (overlayOfList P xs)
  | .obj fs =>
    if ((overlayOfFields P fs).filter fun p => !p.2.isNull).isEmpty then .null
    else .obj ((overlayOfFields P fs).filter fun p => !p.2.isNull)
  | _ => .null
/-- The overlays of the elements of an array. -/
def overlayOfList (P : Protocol) : List Value → List Overlay
  | [] => []
  | x :: xs => overlayOf P x :: overlayOfList P xs
/-- The overlays of the fields of an object. -/
def overlayOfFields (P : Protocol) : List (String × Value) → List (String × Overlay)
  | [] => []
  | (k, x) :: fs => (k, overlayOf P x) :: overlayOfFields P fs
end

mutual
/-- The value with `null` in place of every bridgeable object and of every
`undefined` met by the traversal. -/
def stripped : Value → Value
  | .api _ _ => .null
  | .undefined => .null
  | .arr xs => .arr (strippedList xs)
  | .obj fs => .obj (strippedFields fs)
  | v => v
/-- The elements of an array, stripped. -/
def strippedList : List Value → List Value
  | [] => []
  | x :: xs => stripped x :: strippedList xs
/-- The fields of an object, stripped. -/
def strippedFields : List (String × Value) → List (String × Value)
  | [] => []
  | (k, x) :: fs => (k, stripped x) :: strippedFields fs
end

mutual
/-- The value with every bridgeable object replaced by the entry of the proxy
table under its id. -/
def reconstructed (proxies : List (String × Nat)) : Value → Value
  | .api proxyId _ => lookupProxy proxies proxyId
  | .arr xs => .arr (reconstructedList proxies xs)
  | .obj fs => .obj (reconstructedFields proxies fs)
  | v => v
/-- The elements of an array, reconstructed. -/
def reconstructedList (proxies : List (String × Nat)) : List Value → List Value
  | [] => []
  | x :: xs => reconstructed proxies x :: reconstructedList proxies xs
/-- The fields of an object, reconstructed. -/
def reconstructedFields (proxies : List (String × Nat)) :
    List (String × Value) → List (String × Value)
  | [] => []
  | (k, x) :: fs => (k, reconstructed proxies x) :: reconstructedFields proxies fs
end

/-- A step from a value or overlay to one of its children. -/
inductive Step where
  | idx (i : Nat)
  | key (k : String)

/-- The entry `overlay[i]` or `overlay[name]`. -/
def Overlay.child : Overlay → Step → Option Overlay
  | .arr os, .idx i => os[i]?
  | .obj fs, .key k => getProp fs k
  | _, _ => none

/-- The overlay at a position, given as the steps leading to it. -/
def Overlay.atPath (o : Overlay) : List Step → Option Overlay
  | [] => some o
  | s :: p =>
    match o.child s with
    | some c => c.atPath p
    | none => none

/-- The element `value[i]` of an array or the field `value[name]` of a plain
object. -/
def Value.child : Value → Step → Option Value
  | .arr xs, .idx i => xs[i]?
  | .obj fs, .key k => getProp fs k
  | _, _ => none

/-- The value at a position, given as the steps leading to it. -/
def Value.atPath (v : Value) : List Step → Option Value
  | [] => some v
  | s :: p =>
    match v.child s with
    | some c => c.atPath p
    | none => none

/-- What the array loop of `makeOverlay` returns when it starts at index `i`
with `out` and meets the element overlays `os`. -/
def joinArr (i : Nat) (out : Option (List Overlay)) (os : List Overlay) :
    Option (List Overlay) :=
  match out with
  | some acc => some (acc ++ os)
  | none => if os.all Overlay.isNull then none else some (List.replicate i Overlay.null ++ os)

/-- What the object loop of `makeOverlay` returns when it starts with `out`
and meets the field overlays `ofs`. -/
def joinObj : Option (List (String × Overlay)) → List (String × Overlay) →
    Option (List (String × Overlay))
  | out, [] => out
  | out, (k, o) :: rest =>
    joinObj (if o.isNull then out else some (setProp (out.getD []) k o)) rest

mutual
/-- No `undefined` is met by the traversal of arrays and plain objects. -/
def Value.undefinedFree : Value → Bool
  | .undefined => false
  | .arr xs => Value.undefinedFreeList xs
  | .obj fs => Value.undefinedFreeFields fs
  | _ => true
/-- No element of an array contains `undefined`. -/
def Value.undefinedFreeList : List Value → Bool
  | [] => true
  | x :: xs => x.undefinedFree && Value.undefinedFreeList xs
/-- No field of an object contains `undefined`. -/
def Value.undefinedFreeFields : List (String × Value) → Bool
  | [] => true
  | (_, x) :: fs => x.undefinedFree && Value.undefinedFreeFields fs
end

mutual
/-- No key of a plain object met by the traversal of arrays and plain objects
names a member of `Object.prototype`. -/
def Value.safeKeys : Value → Bool
  | .arr xs => Value.safeKeysList xs
  | .obj fs => (fs.all fun p => !inherits p.1) && Value.safeKeysFields fs
  | _ => true
/-- All elements of an array satisfy `Value.safeKeys`. -/
def Value.safeKeysList : List Value → Bool
  | [] => true
  | x :: xs => x.safeKeys && Value.safeKeysList xs
/-- All fields of an object satisfy `Value.safeKeys`. -/
def Value.safeKeysFields : List (String × Value) → Bool
  | [] => true
  | (_, x) :: fs => x.safeKeys && Value.safeKeysFields fs
end

/-- The marker for `undefined` can be told from the error marker and is a
truthy string. -/
def Protocol.undefinedMarkerOk (P : Protocol) : Prop :=
  P.OVERLAY_UNDEFINED ≠ P.OVERLAY_ERROR ∧ P.OVERLAY_UNDEFINED ≠ ""

/-- The statement that `stripValue`, given the overlay of `v`, returns `v`
with `null` in place of its references, for a value without `Error` whose keys
name no member of `Object.prototype`. -/
def StripOk (P : Protocol) (v : Value) : Prop :=
  v.distinctKeys = true → v.safeKeys = true → v.errorFree = true →
    (v.undefinedFree = true ∨ P.undefinedMarkerOk) →
    (∀ proxyId props, Value.api proxyId props ∈ bridgeables v →
      proxyId ≠ "" ∧ proxyId ≠ P.OVERLAY_ERROR) →
    stripValue P v (overlayOf P v) = .ok (stripped v)

/-- The statement that the client's `applyOverlay` rebuilds `v` from its
stripped form and its overlay, for a plain value whose keys name no member of
`Object.prototype` and whose proxy ids have an entry in the table or name no
such member. -/
def ApplyOk (P : Protocol) (proxies : List (String × Nat)) (v : Value) : Prop :=
  v.distinctKeys = true → v.safeKeys = true → v.plain = true →
    (∀ proxyId props, Value.api proxyId props ∈ bridgeables v →
      proxyId ≠ "" ∧ proxyId ≠ P.DELETED_PROXY_ID ∧ proxyId ≠ "e" ∧
        ((getProp proxies proxyId).isSome = true ∨ inherits proxyId = false)) →
    applyOverlay P proxies (stripped v) (overlayOf P v) = .ok (reconstructed proxies v)

/-- The statement that `stripValue` returns a value when given the overlay of
`v`. -/
def StripReturns (P : Protocol) (v : Value) : Prop :=
  v.distinctKeys = true → v.safeKeys = true →
    (v.undefinedFree = true ∨ P.OVERLAY_UNDEFINED ≠ P.OVERLAY_ERROR) →
    ∃ w, stripValue P v (overlayOf P v) = .ok w

/-- A choice of the three constants of `protocol.js`, used to evaluate the
functions on concrete inputs. -/
def sampleProtocol : Protocol :=
  { OVERLAY_ERROR := "e", OVERLAY_UNDEFINED := "u", DELETED_PROXY_ID := "x" }

/-! ## Runs of the client -/

/-- What the transport and the application can do to a client: deliver a
message, call a method closure of a proxy, call the `on` closure of a proxy. -/
inductive Op where
  | message (m : Message)
  | call (proxyId method type : String) (params : List Value)
  | on (addr : Nat) (name callback : Value)

/-- The state after one operation. -/
def step (P : Protocol) (st : Client) : Op → Client
  | .message m => (handleMessage P st m).1
  | .call proxyId method type params => (makeMethod st proxyId method type params).1
  | .on a name callback => (proxyOn st a name callback).1

/-- The state after a sequence of operations. -/
def run (P : Protocol) (st : Client) (ops : List Op) : Client :=
  ops.foldl (step P) st

/-- Two states agree on the call counter, the messages sent, the pending calls
and the promises. -/
def SameCalls (st st2 : Client) : Prop :=
  st2.lastCallId = st.lastCallId ∧ st2.sent = st.sent ∧
    st2.pendingCalls = st.pendingCalls ∧ st2.promises = st.promises

/-- The bookkeeping of calls is consistent: the call ids sent so far are
`1, ..., lastCallId` in this order, every pending call id is at most
`lastCallId`, and the pending calls hold pairwise different promises that are
still pending. -/
structure CallsOk (st : Client) : Prop where
  sent_ids : st.sent.map (fun r => r.callId) = List.range' 1 st.lastCallId
  pending_le : ∀ c id, getProp st.pendingCalls c = some id → c ≤ st.lastCallId
  pending_promise : ∀ c id, getProp st.pendingCalls c = some id →
    st.promises[id]? = some Promise.pending
  pending_inj : ∀ c c2 id, getProp st.pendingCalls c = some id →
    getProp st.pendingCalls c2 = some id → c = c2

/-- A property of the state that only depends on the bookkeeping of calls and
is kept by a method call and by the settlement of a pending call. -/
structure CallStable (Q : Client → Prop) : Prop where
  same : ∀ st st2, SameCalls st st2 → Q st → Q st2
  call : ∀ st proxyId method type params, Q st →
    Q (makeMethod st proxyId method type params).1
  ret : ∀ (st : Client) c id val, getProp st.pendingCalls c = some id → Q st →
    Q { st with promises := settle st.promises id val
                pendingCalls := delProp st.pendingCalls c }

/-- The call `c` has been settled: it is no longer pending, its id will not be
issued again, and its promise `id` holds the settled state `val`. -/
def Settled (c id : Nat) (val : Promise) (st : Client) : Prop :=
  c ≤ st.lastCallId ∧ getProp st.pendingCalls c = none ∧ st.promises[id]? = some val ∧
    val ≠ Promise.pending

/-! ## Sample traffic, used to evaluate the client on concrete inputs -/

/-- A creation record for the proxy `p1` of type `MethodApi`, with the method
`simple` and a property `self` that refers back to `p1`. -/
def sampleRecord : CreateRecord :=
  { proxyId := "p1", methods := ["simple"], type := "MethodApi",
    value := .obj [("self", .null)], overlay := .obj [("self", .str "p1")] }

/-- A message that creates `p1` and announces it as the root. -/
def sampleCreate : Message :=
  { creates := some [sampleRecord], deletes := none, updates := none, ret := none,
    root := some { overlay := .str "p1", value := .null } }

/-- A message that deletes `p1`. -/
def sampleDelete : Message :=
  { creates := none, deletes := some ["p1"], updates := none, ret := none, root := none }

/-- The return record `{ callId: 1, fail: false, overlay: null, value: 42 }`. -/
def sampleReturn : ReturnRecord :=
  { callId := 1, fail := false, overlay := .null, value := .num 42 }

/-- A message that creates `p1` and, in the same message, updates its property
`self` to `1`. -/
def sampleCreateUpdate : Message :=
  { creates := some [sampleRecord], deletes := none,
    updates := some [{ proxyId := "p1", name := "self", value := .num 1, overlay := .null }],
    ret := none, root := none }

/-- A message that creates `p1` and, in the same message, deletes it. -/
def sampleCreateDelete : Message :=
  { creates := some [sampleRecord], deletes := some ["p1"], updates := none, ret := none,
    root := none }

/-- A message with two creation records for the same id `p1`; the second sets
the property `self` to `7`. -/
def sampleCreateTwice : Message :=
  { creates := some [sampleRecord,
      { proxyId := "p1", methods := [], type := "MethodApi",
        value := .obj [("self", .num 7)], overlay := .null }],
    deletes := none, updates := none, ret := none, root := none }

/-! ## Notions used for the failures of `makeOverlay` and for message groups -/

/-- The message of the `TypeError` thrown by `makeOverlay`; engine errors have
no fixed message. -/
def Err.message : Err → Option String
  | .unsupported type => some ("Unsupported proxy value of type " ++ type)
  | _ => none

mutual
/-- The `typeof` of the first value of unsupported type (a function or a
symbol) met by the traversal of arrays and plain objects, if there is one. -/
def firstUnsupported : Value → Option String
  | .func _ => some "function"
  | .symbol => some "symbol"
  | .arr xs => firstUnsupportedList xs
  | .obj fs => firstUnsupportedFields fs
  | _ => none
/-- The first value of unsupported type met in the elements of an array. -/
def firstUnsupportedList : List Value → Option String
  | [] => none
  | x :: xs =>
    match firstUnsupported x with
    | some t => some t
    | none => firstUnsupportedList xs
/-- The first value of unsupported type met in the fields of an object. -/
def firstUnsupportedFields : List (String × Value) → Option String
  | [] => none
  | (_, x) :: fs =>
    match firstUnsupported x with
    | some t => some t
    | none => firstUnsupportedFields fs
end

mutual
/-- The traversal of arrays and plain objects meets no client-side proxy and
no plain object with a truthy `PROXY_OBJECT_KEY` property (a bridgeable object
is a `Value.api`). -/
def Value.serverSide : Value → Bool
  | .proxy _ => false
  | .arr xs => Value.serverSideList xs
  | .obj fs =>
    !((getProp fs PROXY_OBJECT_KEY).getD .undefined).truthy && Value.serverSideFields fs
  | _ => true
/-- All elements of an array satisfy `Value.serverSide`. -/
def Value.serverSideList : List Value → Bool
  | [] => true
  | x :: xs => x.serverSide && Value.serverSideList xs
/-- All fields of an object satisfy `Value.serverSide`. -/
def Value.serverSideFields : List (String × Value) → Bool
  | [] => true
  | (_, x) :: fs => x.serverSide && Value.serverSideFields fs
end

/-- The statement that `makeOverlay` throws exactly when the traversal meets a
value of unsupported type, naming the first one. -/
def FailsFast (P : Protocol) (v : Value) : Prop :=
  v.serverSide = true →
    (firstUnsupported v = none → ∃ o, (makeOverlay P v).2 = .ok o) ∧
    (∀ t, firstUnsupported v = some t → (makeOverlay P v).2 = .error (.unsupported t))

/-- The message that carries only the creation records of `m`. -/
def onlyCreates (m : Message) : Message :=
  { creates := m.creates, deletes := none, updates := none, ret := none, root := none }

/-- The message that carries only the deletion records of `m`. -/
def onlyDeletes (m : Message) : Message :=
  { creates := none, deletes := m.deletes, updates := none, ret := none, root := none }

/-- The message that carries only the update records of `m`. -/
def onlyUpdates (m : Message) : Message :=
  { creates := none, deletes := none, updates := m.updates, ret := none, root := none }

/-- The message that carries only the return record of `m`. -/
def onlyReturn (m : Message) : Message :=
  { creates := none, deletes := none, updates := none, ret := m.ret, root := none }

/-- The message that carries only the root record of `m`. -/
def onlyRoot (m : Message) : Message :=
  { creates := none, deletes := none, updates := none, ret := none, root := m.root }

/-- Handling messages one after the other, up to the first one on which
`handleMessage` throws. -/
def handleSeq (P : Protocol) (st : Client) : List Message → Client × Except Err Unit
  | [] => (st, .ok ())
  | m :: rest =>
    match handleMessage P st m with
    | (st1, .error e) => (st1, .error e)
    | (st1, .ok ()) => handleSeq P st1 rest

/-- A message that deletes `p1` and updates its property `flag`. -/
def sampleDeleteUpdate : Message :=
  { creates := none, deletes := some ["p1"],
    updates := some [{ proxyId := "p1", name := "flag", value := .bool true, overlay := .null }],
    ret := none, root := none }

/-- A message that creates the proxy `p1` with the method `onFlagChanged` and
the property `flag`. -/
def sampleCreateWatched : Message :=
  { creates := some [{ proxyId := "p1", methods := ["onFlagChanged"], type := "Watched",
                       value := .obj [("flag", .bool false)], overlay := .null }],
    deletes := none, updates := none, ret := none, root := none }

/-- A message that creates the proxy `p1` with the properties `flag` and
`onFlagChanged`, the latter holding a number. -/
def sampleCreateNumber : Message :=
  { creates := some [{ proxyId := "p1", methods := [], type := "Watched",
                       value := .obj [("flag", .bool false), ("onFlagChanged", .num 5)],
                       overlay := .null }],
    deletes := none, updates := none, ret := none, root := none }

/-- A message that updates the property `flag` of `p1` to `true`. -/
def sampleFlagUpdate : Message :=
  { creates := none, deletes := none,
    updates := some [{ proxyId := "p1", name := "flag", value := .bool true, overlay := .null }],
    ret := none, root := none }

/-- A message that announces the number 2 as the root. -/
def sampleRootAgain : Message :=
  { creates := none, deletes := none, updates := none, ret := none,
    root := some { overlay := .null, value := .num 2 } }

/-- A message that creates a proxy under the id `constructor`, of type
`MethodApi`, with the method `simple`. -/
def sampleCreateBuiltinId : Message :=
  { creates := some [{ proxyId := "constructor", methods := ["simple"], type := "MethodApi",
                       value := .obj [], overlay := .null }],
    deletes := none, updates := none, ret := none, root := none }

/-- A message that deletes the proxy stored under the id `constructor`. -/
def sampleDeleteBuiltinId : Message :=
  { creates := none, deletes := some ["constructor"], updates := none, ret := none,
    root := none }

/-! ## Lemmas on the traversal of `makeOverlay` -/

mutual
theorem makeOverlay_visits (P : Protocol) : ∀ v : Value,
    (makeOverlay P v).1 <+: bridgeables v ∧
      (∀ o, (makeOverlay P v).2 = .ok o → (makeOverlay P v).1 = bridgeables v)
  | .undefined => by simp [makeOverlay, bridgeables]
  | .null => by simp [makeOverlay, bridgeables]
  | .bool _ => by simp [makeOverlay, bridgeables]
  | .num _ => by simp [makeOverlay, bridgeables]
  | .str _ => by simp [makeOverlay, bridgeables]
  | .error _ _ _ _ => by simp [makeOverlay, bridgeables]
  | .api _ _ => by simp [makeOverlay, bridgeables]
  | .proxy _ => by simp [makeOverlay, bridgeables]
  | .func _ => by simp [makeOverlay, bridgeables]
  | .symbol => by simp [makeOverlay, bridgeables]
  | .arr xs => by
    have h := makeOverlayArr_visits P xs 0 none
    simp only [makeOverlay, bridgeables]
    rcases hr : makeOverlayArr P xs 0 none with ⟨log, r⟩
    rw [hr] at h
    rcases r with e | (_ | out)
    · exact ⟨h.1, by simp⟩
    · exact ⟨h.1, fun _ _ => h.2 _ rfl⟩
    · exact ⟨h.1, fun _ _ => h.2 _ rfl⟩
  | .obj fs => by
    have h := makeOverlayObj_visits P fs none
    simp only [makeOverlay, bridgeables]
    split
    · simp
    · rcases hr : makeOverlayObj P fs none with ⟨log, r⟩
      rw [hr] at h
      rcases r with e | (_ | out)
      · exact ⟨h.1, by simp⟩
      · exact ⟨h.1, fun _ _ => h.2 _ rfl⟩
      · exact ⟨h.1, fun _ _ => h.2 _ rfl⟩
theorem makeOverlayArr_visits (P : Protocol) : ∀ (xs : List Value) (i : Nat)
    (out : Option (List Overlay)),
    (makeOverlayArr P xs i out).1 <+: bridgeablesList xs ∧
      (∀ r, (makeOverlayArr P xs i out).2 = .ok r →
        (makeOverlayArr P xs i out).1 = bridgeablesList xs)
  | [], _, _ => by simp [makeOverlayArr, bridgeablesList]
  | x :: rest, i, out => by
    have hx := makeOverlay_visits P x
    simp only [makeOverlayArr, bridgeablesList]
    rcases hm : makeOverlay P x with ⟨log, r⟩
    rw [hm] at hx
    rcases r with e | o
    · exact ⟨hx.1.trans (List.prefix_append _ _), by simp⟩
    · have hlog : log = bridgeables x := hx.2 o rfl
      have hr := makeOverlayArr_visits P rest (i + 1)
        (Option.map (fun a => a ++ [o])
          (if (!o.isNull && out.isNone) = true then some (List.replicate i Overlay.null) else out))
      subst hlog
      simp only
      exact ⟨(List.prefix_append_right_inj _).2 hr.1, fun r h => by rw [hr.2 r h]⟩
theorem makeOverlayObj_visits (P : Protocol) : ∀ (fs : List (String × Value))
    (out : Option (List (String × Overlay))),
    (makeOverlayObj P fs out).1 <+: bridgeablesFields fs ∧
      (∀ r, (makeOverlayObj P fs out).2 = .ok r →
        (makeOverlayObj P fs out).1 = bridgeablesFields fs)
  | [], _ => by simp [makeOverlayObj, bridgeablesFields]
  | (name, x) :: rest, out => by
    have hx := makeOverlay_visits P x
    simp only [makeOverlayObj, bridgeablesFields]
    rcases hm : makeOverlay P x with ⟨log, r⟩
    rw [hm] at hx
    rcases r with e | o
    · exact ⟨hx.1.trans (List.prefix_append _ _), by simp⟩
    · have hlog : log = bridgeables x := hx.2 o rfl
      have hr := makeOverlayObj_visits P rest
        (if o.isNull = true then out else some (setProp (out.getD []) name o))
      subst hlog
      simp only
      exact ⟨(List.prefix_append_right_inj _).2 hr.1, fun r h => by rw [hr.2 r h]⟩
end

theorem setProp_of_not_mem {α : Type} (fs : List (String × α)) (k : String) (v : α)
    (h : k ∉ fs.map Prod.fst) : setProp fs k v = fs ++ [(k, v)] := by
  induction fs with
  | nil => rfl
  | cons p rest ih =>
    obtain ⟨k2, v2⟩ := p
    simp only [List.map_cons, List.mem_cons, not_or] at h
    have hne : ¬ k2 = k := fun e => h.1 e.symm
    simp [setProp, hne, ih h.2]

theorem getProp_of_not_mem {α : Type} (fs : List (String × α)) (k : String)
    (h : k ∉ fs.map Prod.fst) : getProp fs k = none := by
  induction fs with
  | nil => rfl
  | cons p rest ih =>
    obtain ⟨k2, v2⟩ := p
    simp only [List.map_cons, List.mem_cons, not_or] at h
    have hne : ¬ k2 = k := fun e => h.1 e.symm
    simp [getProp, hne, ih h.2]

theorem overlayOfFields_keys (P : Protocol) (fs : List (String × Value)) :
    (overlayOfFields P fs).map Prod.fst = fs.map Prod.fst := by
  induction fs with
  | nil => rfl
  | cons p rest ih => obtain ⟨k, x⟩ := p; simp [overlayOfFields, ih]

theorem joinObj_eq (ofs : List (String × Overlay)) (hnd : (ofs.map Prod.fst).Nodup) :
    ∀ out : Option (List (String × Overlay)),
      (∀ acc, out = some acc → ∀ k ∈ ofs.map Prod.fst, k ∉ acc.map Prod.fst) →
      joinObj out ofs =
        match out with
        | some acc => some (acc ++ ofs.filter fun p => !p.2.isNull)
        | none =>
          if (ofs.filter fun p => !p.2.isNull).isEmpty then none
          else some (ofs.filter fun p => !p.2.isNull) := by
  induction ofs with
  | nil => intro out _; cases out <;> simp [joinObj]
  | cons p rest ih =>
    obtain ⟨k, o⟩ := p
    intro out hdis
    simp only [List.map_cons, List.nodup_cons] at hnd
    simp only [joinObj]
    by_cases ho : o.isNull = true
    · simp only [ho, if_true]
      have hf : List.filter (fun p : String × Overlay => !p.2.isNull) ((k, o) :: rest) =
          List.filter (fun p => !p.2.isNull) rest := by
        rw [List.filter_cons_of_neg]; simp [ho]
      rw [ih hnd.2 out (fun acc h k2 hk2 => hdis acc h k2 (by simp [hk2])), hf]
    · have ho2 : o.isNull = false := by simpa using ho
      simp only [ho2, Bool.false_eq_true, if_false]
      cases out with
      | none =>
        rw [ih hnd.2]
        · simp [setProp, ho2, List.filter_cons]
        · intro acc h k2 hk2
          simp only [Option.getD_none, setProp, Option.some.injEq] at h
          subst h
          simp only [List.map_cons, List.map_nil, List.mem_singleton]
          rintro rfl
          exact hnd.1 hk2
      | some acc =>
        have hk : k ∉ acc.map Prod.fst := hdis acc rfl k (by simp)
        rw [ih hnd.2]
        · simp [setProp_of_not_mem _ _ _ hk, ho2, List.filter_cons]
        · intro acc2 h k2 hk2
          simp only [Option.getD_some, Option.some.injEq] at h
          subst h
          rw [setProp_of_not_mem _ _ _ hk]
          simp only [List.map_append, List.map_cons, List.map_nil, List.mem_append,
            List.mem_singleton, not_or]
          refine ⟨hdis acc rfl k2 (by simp [hk2]), ?_⟩
          rintro rfl
          exact hnd.1 hk2

mutual
theorem makeOverlay_eq (P : Protocol) : ∀ v : Value, v.distinctKeys = true →
    ∀ o, (makeOverlay P v).2 = .ok o → o = overlayOf P v
  | .undefined, _ => by simp [makeOverlay, overlayOf]
  | .null, _ => by simp [makeOverlay, overlayOf]
  | .bool _, _ => by simp [makeOverlay, overlayOf]
  | .num _, _ => by simp [makeOverlay, overlayOf]
  | .str _, _ => by simp [makeOverlay, overlayOf]
  | .error _ _ _ _, _ => by simp [makeOverlay, overlayOf]
  | .api _ _, _ => by simp [makeOverlay, overlayOf]
  | .proxy _, _ => by simp [makeOverlay]
  | .func _, _ => by simp [makeOverlay]
  | .symbol, _ => by simp [makeOverlay]
  | .arr xs, hd => by
    intro o ho
    have h := makeOverlayArr_eq P xs (by simpa [Value.distinctKeys] using hd) 0 none
    simp only [makeOverlay] at ho
    rcases hr : makeOverlayArr P xs 0 none with ⟨log, r⟩
    rw [hr] at h ho
    rcases r with e | r
    · simp at ho
    · have hj := h r rfl
      subst hj
      simp only [overlayOf]
      by_cases hall : (overlayOfList P xs).all Overlay.isNull = true
      · simp only [joinArr, hall, if_true] at ho
        simp only [hall, if_true]
        simpa using ho.symm
      · simp only [joinArr, hall, List.replicate_zero, List.nil_append] at ho
        simp only [hall]
        simpa using ho.symm
  | .obj fs, hd => by
    intro o ho
    simp only [Value.distinctKeys, Bool.and_eq_true, decide_eq_true_eq] at hd
    have h := makeOverlayObj_eq P fs hd.2 none
    simp only [makeOverlay] at ho
    split at ho
    · simp at ho
    · rcases hr : makeOverlayObj P fs none with ⟨log, r⟩
      rw [hr] at h ho
      rcases r with e | r
      · simp at ho
      · have hj := h r rfl
        rw [joinObj_eq _ (by rw [overlayOfFields_keys]; exact hd.1) none (by simp)] at hj
        subst hj
        simp only [overlayOf]
        by_cases hall :
            ((overlayOfFields P fs).filter fun p => !p.2.isNull).isEmpty = true
        · simp only [hall, if_true] at ho
          simp only [hall, if_true]
          simpa using ho.symm
        · simp only [hall] at ho
          simp only [hall]
          simpa using ho.symm
theorem makeOverlayArr_eq (P : Protocol) : ∀ xs : List Value,
    Value.distinctKeysList xs = true → ∀ (i : Nat) (out : Option (List Overlay)) r,
      (makeOverlayArr P xs i out).2 = .ok r → r = joinArr i out (overlayOfList P xs)
  | [], _ => by
    intro i out r h
    cases out <;> simp_all [makeOverlayArr, overlayOfList, joinArr]
  | x :: rest, hd => by
    intro i out r h
    simp only [Value.distinctKeysList, Bool.and_eq_true] at hd
    have hx := makeOverlay_eq P x hd.1
    simp only [makeOverlayArr] at h
    rcases hm : makeOverlay P x with ⟨log, rx⟩
    rw [hm] at hx h
    rcases rx with e | o
    · simp at h
    · have ho : o = overlayOf P x := hx o rfl
      have hr := makeOverlayArr_eq P rest hd.2 (i + 1)
        (Option.map (fun a => a ++ [o])
          (if (!o.isNull && out.isNone) = true then some (List.replicate i Overlay.null) else out))
        r h
      rw [hr, overlayOfList, ← ho]
      cases out with
      | some acc => simp [joinArr]
      | none =>
        by_cases hn : o.isNull = true
        · have : o = Overlay.null := by cases o <;> simp_all [Overlay.isNull]
          subst this
          simp [joinArr, Overlay.isNull, List.replicate_succ', List.append_assoc]
        · simp [joinArr, hn]
theorem makeOverlayObj_eq (P : Protocol) : ∀ fs : List (String × Value),
    Value.distinctKeysFields fs = true → ∀ (out : Option (List (String × Overlay))) r,
      (makeOverlayObj P fs out).2 = .ok r → r = joinObj out (overlayOfFields P fs)
  | [], _ => by
    intro out r h
    simp_all [makeOverlayObj, overlayOfFields, joinObj]
  | (name, x) :: rest, hd => by
    intro out r h
    simp only [Value.distinctKeysFields, Bool.and_eq_true] at hd
    have hx := makeOverlay_eq P x hd.1
    simp only [makeOverlayObj] at h
    rcases hm : makeOverlay P x with ⟨log, rx⟩
    rw [hm] at hx h
    rcases rx with e | o
    · simp at h
    · have ho : o = overlayOf P x := hx o rfl
      have hr := makeOverlayObj_eq P rest hd.2
        (if o.isNull = true then out else some (setProp (out.getD []) name o)) r h
      rw [hr, overlayOfFields, joinObj, ← ho]
end

theorem Overlay.isNull_iff (o : Overlay) : o.isNull = true ↔ o = .null := by
  cases o <;> simp [Overlay.isNull]

theorem makeOverlayArr_elems (P : Protocol) (xs : List Value) :
    ∀ (i : Nat) (out : Option (List Overlay)) r, (makeOverlayArr P xs i out).2 = .ok r →
      ∃ os, List.Forall₂ (fun x ox => (makeOverlay P x).2 = .ok ox) xs os ∧
        r = joinArr i out os := by
  induction xs with
  | nil =>
    intro i out r h
    refine ⟨[], List.Forall₂.nil, ?_⟩
    cases out <;> simp_all [makeOverlayArr, joinArr]
  | cons x rest ih =>
    intro i out r h
    simp only [makeOverlayArr] at h
    rcases hm : makeOverlay P x with ⟨log, rx⟩
    rw [hm] at h
    rcases rx with e | o
    · simp at h
    · obtain ⟨os, hos, hr⟩ := ih (i + 1) _ r h
      refine ⟨o :: os, List.Forall₂.cons (by rw [hm]) hos, ?_⟩
      rw [hr]
      cases out with
      | some acc => simp [joinArr]
      | none =>
        by_cases hn : o.isNull = true
        · have : o = Overlay.null := (Overlay.isNull_iff o).1 hn
          subst this
          simp [joinArr, Overlay.isNull, List.replicate_succ', List.append_assoc]
        · simp [joinArr, hn]

theorem makeOverlayObj_elems (P : Protocol) (fs : List (String × Value)) :
    ∀ (out : Option (List (String × Overlay))) r, (makeOverlayObj P fs out).2 = .ok r →
      ∃ ofs, List.Forall₂ (fun f g => g.1 = f.1 ∧ (makeOverlay P f.2).2 = .ok g.2) fs ofs ∧
        r = joinObj out ofs := by
  induction fs with
  | nil =>
    intro out r h
    exact ⟨[], List.Forall₂.nil, by simp_all [makeOverlayObj, joinObj]⟩
  | cons f rest ih =>
    obtain ⟨name, x⟩ := f
    intro out r h
    simp only [makeOverlayObj] at h
    rcases hm : makeOverlay P x with ⟨log, rx⟩
    rw [hm] at h
    rcases rx with e | o
    · simp at h
    · obtain ⟨ofs, hofs, hr⟩ := ih _ r h
      refine ⟨(name, o) :: ofs, List.Forall₂.cons ⟨rfl, by rw [hm]⟩ hofs, ?_⟩
      rw [hr, joinObj]

theorem forall₂_keys (P : Protocol) {fs : List (String × Value)}
    {ofs : List (String × Overlay)}
    (h : List.Forall₂ (fun f g => g.1 = f.1 ∧ (makeOverlay P f.2).2 = .ok g.2) fs ofs) :
    ofs.map Prod.fst = fs.map Prod.fst := by
  induction h with
  | nil => rfl
  | cons hab _ ih => simp [hab.1, ih]

/-- C9. Overlay sparsity: when `makeOverlay` succeeds on an array, the result
is `null` exactly when the overlay of every element is `null`, and otherwise it
is the array of the element overlays (same length, entry `i` the overlay of
element `i`); on a plain object the result is `null` exactly when the overlay
of every field is `null`, and otherwise it maps exactly the keys whose field
overlay is not `null` to that overlay. -/
theorem C9_overlay_sparsity (P : Protocol) :
    (∀ xs o, (makeOverlay P (.arr xs)).2 = .ok o →
      ∃ os, List.Forall₂ (fun x ox => (makeOverlay P x).2 = .ok ox) xs os ∧
        (o = .null ↔ ∀ ox ∈ os, ox = Overlay.null) ∧ (o ≠ .null → o = .arr os)) ∧
    (∀ fs o, (fs.map Prod.fst).Nodup → (makeOverlay P (.obj fs)).2 = .ok o →
      ∃ ofs, List.Forall₂ (fun f g => g.1 = f.1 ∧ (makeOverlay P f.2).2 = .ok g.2) fs ofs ∧
        (o = .null ↔ ∀ g ∈ ofs, g.2 = Overlay.null) ∧
        (o ≠ .null → o = .obj (ofs.filter fun g => !g.2.isNull))) := by
  constructor
  · intro xs o ho
    simp only [makeOverlay] at ho
    rcases hr : makeOverlayArr P xs 0 none with ⟨log, r⟩
    have h := makeOverlayArr_elems P xs 0 none
    rw [hr] at h ho
    rcases r with e | r
    · simp at ho
    · obtain ⟨os, hos, hj⟩ := h r rfl
      refine ⟨os, hos, ?_⟩
      subst hj
      by_cases hall : os.all Overlay.isNull = true
      · simp only [joinArr, hall, if_true] at ho
        have ho2 : o = .null := by simpa using ho.symm
        subst ho2
        simp only [ne_eq, not_true_eq_false, false_implies, and_true, true_iff]
        intro ox hox
        exact (Overlay.isNull_iff ox).1 (List.all_eq_true.1 hall ox hox)
      · simp only [joinArr, hall, List.replicate_zero, List.nil_append] at ho
        have ho2 : o = .arr os := by simpa using ho.symm
        subst ho2
        refine ⟨⟨fun h => (by cases h), fun h => ?_⟩, fun _ => rfl⟩
        exact absurd (List.all_eq_true.2 fun ox hox => (Overlay.isNull_iff ox).2 (h ox hox)) hall
  · intro fs o hnd ho
    simp only [makeOverlay] at ho
    split at ho
    · simp at ho
    · rcases hr : makeOverlayObj P fs none with ⟨log, r⟩
      have h := makeOverlayObj_elems P fs none
      rw [hr] at h ho
      rcases r with e | r
      · simp at ho
      · obtain ⟨ofs, hofs, hj⟩ := h r rfl
        refine ⟨ofs, hofs, ?_⟩
        rw [joinObj_eq _ (by rw [forall₂_keys P hofs]; exact hnd) none (by simp)] at hj
        subst hj
        by_cases hall : (ofs.filter fun p => !p.2.isNull).isEmpty = true
        · simp only [hall, if_true] at ho
          have ho2 : o = .null := by simpa using ho.symm
          subst ho2
          simp only [ne_eq, not_true_eq_false, false_implies, and_true, true_iff]
          intro g hg
          rw [List.isEmpty_iff] at hall
          have := List.filter_eq_nil_iff.1 hall g hg
          exact (Overlay.isNull_iff g.2).1 (by simpa using this)
        · simp only [hall] at ho
          have ho2 : o = .obj (ofs.filter fun p => !p.2.isNull) := by simpa using ho.symm
          subst ho2
          refine ⟨⟨fun h => (by cases h), fun h => ?_⟩, fun _ => rfl⟩
          refine absurd ?_ hall
          rw [List.isEmpty_iff, List.filter_eq_nil_iff]
          intro g hg
          simp [h g hg, Overlay.isNull]

/-- C10. Reference leaves: on a bridgeable object `makeOverlay` returns its
proxy id and calls the visitor once, with that object, without entering its
properties; on any value the visitor calls are an initial part of the
bridgeable objects met by the traversal (one call per occurrence, nothing
below a bridgeable object), and all of them when `makeOverlay` returns. -/
theorem C10_reference_leaves (P : Protocol) (v : Value) :
    (∀ proxyId props,
      makeOverlay P (.api proxyId props) = ([.api proxyId props], .ok (.str proxyId))) ∧
    (makeOverlay P v).1 <+: bridgeables v ∧
    (∀ o, (makeOverlay P v).2 = .ok o → (makeOverlay P v).1 = bridgeables v) :=
  ⟨fun _ _ => by simp [makeOverlay], (makeOverlay_visits P v).1, (makeOverlay_visits P v).2⟩

mutual
theorem overlayOf_null (P : Protocol) : ∀ v : Value, overlayOf P v = .null →
    stripped v = v ∧ ∀ t, reconstructed t v = v
  | .undefined => by simp [overlayOf]
  | .null => by simp [stripped, reconstructed]
  | .bool _ => by simp [stripped, reconstructed]
  | .num _ => by simp [stripped, reconstructed]
  | .str _ => by simp [stripped, reconstructed]
  | .error _ _ _ _ => by simp [overlayOf]
  | .api _ _ => by simp [overlayOf]
  | .proxy _ => by simp [stripped, reconstructed]
  | .func _ => by simp [stripped, reconstructed]
  | .symbol => by simp [stripped, reconstructed]
  | .arr xs => by
    intro h
    simp only [overlayOf] at h
    split at h
    · rename_i hall
      have := overlayOfList_null P xs hall
      simp [stripped, reconstructed, this.1, this.2]
    · cases h
  | .obj fs => by
    intro h
    simp only [overlayOf] at h
    split at h
    · rename_i hall
      rw [List.isEmpty_iff, List.filter_eq_nil_iff] at hall
      have := overlayOfFields_null P fs (fun p hp => by simpa using hall p hp)
      simp [stripped, reconstructed, this.1, this.2]
    · cases h
theorem overlayOfList_null (P : Protocol) : ∀ xs : List Value,
    (overlayOfList P xs).all Overlay.isNull = true →
      strippedList xs = xs ∧ ∀ t, reconstructedList t xs = xs
  | [] => by simp [strippedList, reconstructedList]
  | x :: rest => by
    intro h
    simp only [overlayOfList, List.all_cons, Bool.and_eq_true] at h
    have hx := overlayOf_null P x ((Overlay.isNull_iff _).1 h.1)
    have hr := overlayOfList_null P rest h.2
    simp [strippedList, reconstructedList, hx.1, hx.2, hr.1, hr.2]
theorem overlayOfFields_null (P : Protocol) : ∀ fs : List (String × Value),
    (∀ p ∈ overlayOfFields P fs, p.2.isNull = true) →
      strippedFields fs = fs ∧ ∀ t, reconstructedFields t fs = fs
  | [] => by simp [strippedFields, reconstructedFields]
  | (k, x) :: rest => by
    intro h
    simp only [overlayOfFields, List.mem_cons, forall_eq_or_imp] at h
    have hx := overlayOf_null P x ((Overlay.isNull_iff _).1 h.1)
    have hr := overlayOfFields_null P rest h.2
    simp [strippedFields, reconstructedFields, hx.1, hx.2, hr.1, hr.2]
end

theorem getProp_filter {α : Type} (q : String × α → Bool) (l : List (String × α))
    (hnd : (l.map Prod.fst).Nodup) :
    ∀ p ∈ l, getProp (l.filter q) p.1 = if q p then some p.2 else none := by
  induction l with
  | nil => intro p hp; cases hp
  | cons a rest ih =>
    obtain ⟨k, o⟩ := a
    simp only [List.map_cons, List.nodup_cons] at hnd
    intro p hp
    have hnone : getProp (rest.filter q) k = none := by
      apply getProp_of_not_mem
      intro hk
      apply hnd.1
      obtain ⟨a, ha, rfl⟩ := List.mem_map.1 hk
      exact List.mem_map.2 ⟨a, (List.mem_filter.1 ha).1, rfl⟩
    rcases List.mem_cons.1 hp with rfl | hp
    · by_cases hq : q (k, o) = true
      · simp [List.filter_cons, hq, getProp]
      · simp [List.filter_cons, hq, hnone]
    · have hne : ¬ k = p.1 := by
        intro e
        exact hnd.1 (e ▸ List.mem_map.2 ⟨p, hp, rfl⟩)
      by_cases hq : q (k, o) = true
      · simp [List.filter_cons, hq, getProp, hne, ih hnd.2 p hp]
      · simp [List.filter_cons, hq, ih hnd.2 p hp]

theorem mem_overlayOfFields (P : Protocol) (fs : List (String × Value)) :
    ∀ p ∈ fs, (p.1, overlayOf P p.2) ∈ overlayOfFields P fs := by
  induction fs with
  | nil => intro p hp; cases hp
  | cons a rest ih =>
    obtain ⟨k, x⟩ := a
    intro p hp
    rcases List.mem_cons.1 hp with rfl | hp
    · simp [overlayOfFields]
    · simp [overlayOfFields, ih p hp]

/-- The entry of an object's overlay under the key of one of its fields. -/
theorem getProp_overlayOfFields (P : Protocol) (fs : List (String × Value))
    (hnd : (fs.map Prod.fst).Nodup) :
    ∀ p ∈ fs, getProp ((overlayOfFields P fs).filter fun g => !g.2.isNull) p.1 =
      if (overlayOf P p.2).isNull then none else some (overlayOf P p.2) := by
  intro p hp
  have h := getProp_filter (fun g : String × Overlay => !g.2.isNull) (overlayOfFields P fs)
    (by rw [overlayOfFields_keys]; exact hnd) _ (mem_overlayOfFields P fs p hp)
  simp only at h
  rw [h]
  cases (overlayOf P p.2).isNull <;> simp

theorem overlayOf_falsy (P : Protocol) (v : Value)
    (he : v.errorFree = true) (hu : v.undefinedFree = true ∨ P.undefinedMarkerOk)
    (hid : ∀ proxyId props, Value.api proxyId props ∈ bridgeables v → proxyId ≠ "")
    (h : (overlayOf P v).truthy = false) : overlayOf P v = .null := by
  cases v with
  | undefined =>
    rcases hu with hu | hu
    · simp [Value.undefinedFree] at hu
    · simp [overlayOf, Overlay.truthy, hu.2] at h
  | error n m s e => simp [Value.errorFree] at he
  | api i ps =>
    have := hid i ps (by simp [bridgeables])
    simp [overlayOf, Overlay.truthy, this] at h
  | arr xs =>
    simp only [overlayOf] at h ⊢
    split
    · rfl
    · rename_i hall; simp [hall, Overlay.truthy] at h
  | obj fs =>
    simp only [overlayOf] at h ⊢
    split
    · rfl
    · rename_i hall; simp [hall, Overlay.truthy] at h
  | _ => simp [overlayOf]

theorem usable_some (o : Overlay) :
    usable (some o) = if o.truthy then some o else none := rfl

mutual
theorem Value.induct {motive : Value → Prop}
    (undefined : motive .undefined) (null : motive .null)
    (bool : ∀ b, motive (.bool b)) (num : ∀ n, motive (.num n))
    (str : ∀ s, motive (.str s))
    (arr : ∀ xs, (∀ x ∈ xs, motive x) → motive (.arr xs))
    (obj : ∀ fs : List (String × Value), (∀ p ∈ fs, motive p.2) → motive (.obj fs))
    (error : ∀ n m s e, motive (.error n m s e))
    (api : ∀ i ps, motive (.api i ps)) (proxy : ∀ a, motive (.proxy a))
    (func : ∀ f, motive (.func f)) (symbol : motive .symbol) : ∀ v, motive v
  | .undefined => undefined
  | .null => null
  | .bool b => bool b
  | .num n => num n
  | .str s => str s
  | .error n m s e => error n m s e
  | .api i ps => api i ps
  | .proxy a => proxy a
  | .func f => func f
  | .symbol => symbol
  | .arr xs =>
    arr xs (Value.inductList undefined null bool num str arr obj error api proxy func symbol xs)
  | .obj fs =>
    obj fs (Value.inductFields undefined null bool num str arr obj error api proxy func symbol fs)
theorem Value.inductList {motive : Value → Prop}
    (undefined : motive .undefined) (null : motive .null)
    (bool : ∀ b, motive (.bool b)) (num : ∀ n, motive (.num n))
    (str : ∀ s, motive (.str s))
    (arr : ∀ xs, (∀ x ∈ xs, motive x) → motive (.arr xs))
    (obj : ∀ fs : List (String × Value), (∀ p ∈ fs, motive p.2) → motive (.obj fs))
    (error : ∀ n m s e, motive (.error n m s e))
    (api : ∀ i ps, motive (.api i ps)) (proxy : ∀ a, motive (.proxy a))
    (func : ∀ f, motive (.func f)) (symbol : motive .symbol) :
    ∀ xs : List Value, ∀ x ∈ xs, motive x
  | [] => fun _ h => nomatch h
  | y :: rest => fun x h =>
    (List.mem_cons.1 h).elim
      (fun e => e ▸
        Value.induct undefined null bool num str arr obj error api proxy func symbol y)
      (fun h2 =>
        Value.inductList undefined null bool num str arr obj error api proxy func symbol
          rest x h2)
theorem Value.inductFields {motive : Value → Prop}
    (undefined : motive .undefined) (null : motive .null)
    (bool : ∀ b, motive (.bool b)) (num : ∀ n, motive (.num n))
    (str : ∀ s, motive (.str s))
    (arr : ∀ xs, (∀ x ∈ xs, motive x) → motive (.arr xs))
    (obj : ∀ fs : List (String × Value), (∀ p ∈ fs, motive p.2) → motive (.obj fs))
    (error : ∀ n m s e, motive (.error n m s e))
    (api : ∀ i ps, motive (.api i ps)) (proxy : ∀ a, motive (.proxy a))
    (func : ∀ f, motive (.func f)) (symbol : motive .symbol) :
    ∀ fs : List (String × Value), ∀ p ∈ fs, motive p.2
  | [] => fun _ h => nomatch h
  | (_, y) :: rest => fun p h =>
    (List.mem_cons.1 h).elim
      (fun e => e ▸
        Value.induct undefined null bool num str arr obj error api proxy func symbol y)
      (fun h2 =>
        Value.inductFields undefined null bool num str arr obj error api proxy func symbol
          rest p h2)
end

theorem stripArr_overlayOf (P : Protocol) :
    ∀ xs : List Value, (∀ x ∈ xs, StripOk P x) →
    Value.distinctKeysList xs = true → Value.safeKeysList xs = true →
    Value.errorFreeList xs = true →
    (Value.undefinedFreeList xs = true ∨ P.undefinedMarkerOk) →
    (∀ proxyId props, Value.api proxyId props ∈ bridgeablesList xs →
      proxyId ≠ "" ∧ proxyId ≠ P.OVERLAY_ERROR) →
    stripArr P xs (overlayOfList P xs) = .ok (strippedList xs) := by
  intro xs
  induction xs with
  | nil => intros; simp [stripArr, strippedList]
  | cons x rest ih =>
    intro hih hd hs he hu hid
    simp only [Value.distinctKeysList, Bool.and_eq_true] at hd
    simp only [Value.safeKeysList, Bool.and_eq_true] at hs
    simp only [Value.errorFreeList, Bool.and_eq_true] at he
    simp only [Value.undefinedFreeList, Bool.and_eq_true] at hu
    simp only [bridgeablesList, List.mem_append] at hid
    have hu1 : x.undefinedFree = true ∨ P.undefinedMarkerOk := hu.imp (fun h => h.1) id
    have hu2 : Value.undefinedFreeList rest = true ∨ P.undefinedMarkerOk :=
      hu.imp (fun h => h.2) id
    have hx := hih x (List.mem_cons_self _ _) hd.1 hs.1 he.1 hu1
      (fun i ps h => hid i ps (Or.inl h))
    have hr := ih (fun y hy => hih y (List.mem_cons_of_mem _ hy)) hd.2 hs.2 he.2 hu2
      (fun i ps h => hid i ps (Or.inr h))
    simp only [stripArr, overlayOfList, List.head?_cons, List.tail_cons, usable_some,
      strippedList, hr]
    by_cases ht : (overlayOf P x).truthy = true
    · simp [ht, hx]
    · have hf : (overlayOf P x).truthy = false := by simpa using ht
      have hn := overlayOf_falsy P x he.1 hu1 (fun i ps h => (hid i ps (Or.inl h)).1) hf
      simp [hf, (overlayOf_null P x hn).1]

theorem stripObj_overlayOf (P : Protocol) :
    ∀ fs : List (String × Value), (∀ p ∈ fs, StripOk P p.2) →
    Value.distinctKeysFields fs = true →
    (fs.all fun p => !inherits p.1) = true → Value.safeKeysFields fs = true →
    Value.errorFreeFields fs = true →
    (Value.undefinedFreeFields fs = true ∨ P.undefinedMarkerOk) →
    (∀ proxyId props, Value.api proxyId props ∈ bridgeablesFields fs →
      proxyId ≠ "" ∧ proxyId ≠ P.OVERLAY_ERROR) →
    ∀ ov : List (String × Overlay),
      (∀ p ∈ fs, getProp ov p.1 =
        if (overlayOf P p.2).isNull then none else some (overlayOf P p.2)) →
      stripObj P fs ov = .ok (strippedFields fs) := by
  intro fs
  induction fs with
  | nil => intros; simp [stripObj, strippedFields]
  | cons f rest ih =>
    obtain ⟨k, x⟩ := f
    intro hih hd hkeys hs he hu hid ov hov
    simp only [Value.distinctKeysFields, Bool.and_eq_true] at hd
    simp only [List.all_cons, Bool.and_eq_true, Bool.not_eq_true'] at hkeys
    simp only [Value.safeKeysFields, Bool.and_eq_true] at hs
    simp only [Value.errorFreeFields, Bool.and_eq_true] at he
    simp only [Value.undefinedFreeFields, Bool.and_eq_true] at hu
    simp only [bridgeablesFields, List.mem_append] at hid
    have hu1 : x.undefinedFree = true ∨ P.undefinedMarkerOk := hu.imp (fun h => h.1) id
    have hu2 : Value.undefinedFreeFields rest = true ∨ P.undefinedMarkerOk :=
      hu.imp (fun h => h.2) id
    have hx := hih (k, x) (List.mem_cons_self _ _) hd.1 hs.1 he.1 hu1
      (fun i ps h => hid i ps (Or.inl h))
    have hr := ih (fun y hy => hih y (List.mem_cons_of_mem _ hy)) hd.2 hkeys.2 hs.2 he.2 hu2
      (fun i ps h => hid i ps (Or.inr h)) ov
      (fun p hp => hov p (List.mem_cons_of_mem _ hp))
    have hk := hov (k, x) (List.mem_cons_self _ _)
    simp only at hk hx
    simp only [stripObj, strippedFields, hr, hk]
    by_cases hnull : (overlayOf P x).isNull = true
    · have hn := (Overlay.isNull_iff _).1 hnull
      simp [hnull, usable, (overlayOf_null P x hn).1, hkeys.1]
    · have ht : (overlayOf P x).truthy = true := by
        by_contra hc
        have hf : (overlayOf P x).truthy = false := by simpa using hc
        have hn := overlayOf_falsy P x he.1 hu1 (fun i ps h => (hid i ps (Or.inl h)).1) hf
        exact hnull ((Overlay.isNull_iff _).2 hn)
      simp [hnull, usable_some, ht, hx]

theorem stripValue_overlayOf (P : Protocol) (v : Value) : StripOk P v := by
  induction v using Value.induct with
  | undefined =>
    intro _ _ _ hu _
    rcases hu with hu | hu
    · simp [Value.undefinedFree] at hu
    · simp [overlayOf, stripValue, stripped, hu.1]
  | null => intro _ _ _ _ _; simp [overlayOf, stripValue, stripped]
  | bool _ => intro _ _ _ _ _; simp [overlayOf, stripValue, stripped]
  | num _ => intro _ _ _ _ _; simp [overlayOf, stripValue, stripped]
  | str _ => intro _ _ _ _ _; simp [overlayOf, stripValue, stripped]
  | proxy _ => intro _ _ _ _ _; simp [overlayOf, stripValue, stripped]
  | func _ => intro _ _ _ _ _; simp [overlayOf, stripValue, stripped]
  | symbol => intro _ _ _ _ _; simp [overlayOf, stripValue, stripped]
  | error _ _ _ _ => intro _ _ he _ _; simp [Value.errorFree] at he
  | api i ps =>
    intro _ _ _ _ hid
    have := hid i ps (by simp [bridgeables])
    simp [overlayOf, stripValue, stripped, this.2]
  | arr xs ih =>
    intro hd hs he hu hid
    have hl := stripArr_overlayOf P xs ih (by simpa [Value.distinctKeys] using hd)
      (by simpa [Value.safeKeys] using hs)
      (by simpa [Value.errorFree] using he) (by simpa [Value.undefinedFree] using hu)
      (by simpa [bridgeables] using hid)
    by_cases hall : (overlayOfList P xs).all Overlay.isNull = true
    · have hn := overlayOfList_null P xs hall
      rw [overlayOf, if_pos hall, stripValue, stripped, hn.1]
    · rw [overlayOf, if_neg hall, stripValue, hl, stripped]
  | obj fs ih =>
    intro hd hs he hu hid
    simp only [Value.distinctKeys, Bool.and_eq_true, decide_eq_true_eq] at hd
    simp only [Value.safeKeys, Bool.and_eq_true] at hs
    have hl := stripObj_overlayOf P fs ih hd.2 hs.1 hs.2
      (by simpa [Value.errorFree] using he) (by simpa [Value.undefinedFree] using hu)
      (by simpa [bridgeables] using hid)
      _ (getProp_overlayOfFields P fs hd.1)
    by_cases hall : ((overlayOfFields P fs).filter fun p => !p.2.isNull).isEmpty = true
    · have hall2 := hall
      rw [List.isEmpty_iff, List.filter_eq_nil_iff] at hall2
      have hn := overlayOfFields_null P fs (fun p hp => by simpa using hall2 p hp)
      rw [overlayOf, if_pos hall, stripValue, stripped, hn.1]
    · rw [overlayOf, if_neg hall, stripValue, hl, stripped]

theorem plain_errorFree_undefinedFree (v : Value) :
    v.plain = true → v.errorFree = true ∧ v.undefinedFree = true := by
  induction v using Value.induct with
  | arr xs ih =>
    intro h
    simp only [Value.plain, Value.errorFree, Value.undefinedFree] at h ⊢
    induction xs with
    | nil => simp [Value.errorFreeList, Value.undefinedFreeList]
    | cons x rest ihr =>
      simp only [Value.plainList, Bool.and_eq_true] at h
      have h1 := ih x (List.mem_cons_self _ _) h.1
      have h2 := ihr (fun y hy => ih y (List.mem_cons_of_mem _ hy)) h.2
      simp [Value.errorFreeList, Value.undefinedFreeList, h1, h2]
  | obj fs ih =>
    intro h
    simp only [Value.plain, Value.errorFree, Value.undefinedFree, Bool.and_eq_true] at h ⊢
    replace h := h.2
    induction fs with
    | nil => simp [Value.errorFreeFields, Value.undefinedFreeFields]
    | cons f rest ihr =>
      obtain ⟨k, x⟩ := f
      simp only [Value.plainFields, Bool.and_eq_true] at h
      have h1 := ih (k, x) (List.mem_cons_self _ _) h.1
      have h2 := ihr (fun y hy => ih y (List.mem_cons_of_mem _ hy)) h.2
      simp only at h1
      simp [Value.errorFreeFields, Value.undefinedFreeFields, h1, h2]
  | undefined => simp [Value.plain]
  | error _ _ _ _ => simp [Value.plain]
  | proxy _ => simp [Value.plain]
  | func _ => simp [Value.plain]
  | symbol => simp [Value.plain]
  | null => simp [Value.errorFree, Value.undefinedFree]
  | bool _ => simp [Value.errorFree, Value.undefinedFree]
  | num _ => simp [Value.errorFree, Value.undefinedFree]
  | str _ => simp [Value.errorFree, Value.undefinedFree]
  | api _ _ => simp [Value.errorFree, Value.undefinedFree]

theorem applyArr_overlayOf (P : Protocol) (t : List (String × Nat)) :
    ∀ xs : List Value, (∀ x ∈ xs, ApplyOk P t x) →
    Value.distinctKeysList xs = true → Value.safeKeysList xs = true →
    Value.plainList xs = true →
    (∀ proxyId props, Value.api proxyId props ∈ bridgeablesList xs →
      proxyId ≠ "" ∧ proxyId ≠ P.DELETED_PROXY_ID ∧ proxyId ≠ "e" ∧
        ((getProp t proxyId).isSome = true ∨ inherits proxyId = false)) →
    applyArr P t (strippedList xs) (overlayOfList P xs) = .ok (reconstructedList t xs) := by
  intro xs
  induction xs with
  | nil => intros; simp [applyArr, strippedList, reconstructedList]
  | cons x rest ih =>
    intro hih hd hs hp hid
    simp only [Value.distinctKeysList, Bool.and_eq_true] at hd
    simp only [Value.safeKeysList, Bool.and_eq_true] at hs
    simp only [Value.plainList, Bool.and_eq_true] at hp
    simp only [bridgeablesList, List.mem_append] at hid
    have hx := hih x (List.mem_cons_self _ _) hd.1 hs.1 hp.1
      (fun i ps h => hid i ps (Or.inl h))
    have hr := ih (fun y hy => hih y (List.mem_cons_of_mem _ hy)) hd.2 hs.2 hp.2
      (fun i ps h => hid i ps (Or.inr h))
    simp only [applyArr, overlayOfList, List.head?_cons, List.tail_cons, usable_some,
      strippedList, reconstructedList, hr]
    by_cases ht : (overlayOf P x).truthy = true
    · simp [ht, hx]
    · have hf : (overlayOf P x).truthy = false := by simpa using ht
      have hpe := plain_errorFree_undefinedFree x hp.1
      have hn := overlayOf_falsy P x hpe.1 (Or.inl hpe.2)
        (fun i ps h => (hid i ps (Or.inl h)).1) hf
      simp [hf, (overlayOf_null P x hn).1, (overlayOf_null P x hn).2]

theorem applyObj_overlayOf (P : Protocol) (t : List (String × Nat)) :
    ∀ fs : List (String × Value), (∀ p ∈ fs, ApplyOk P t p.2) →
    Value.distinctKeysFields fs = true →
    (fs.all fun p => !inherits p.1) = true → Value.safeKeysFields fs = true →
    Value.plainFields fs = true →
    (∀ proxyId props, Value.api proxyId props ∈ bridgeablesFields fs →
      proxyId ≠ "" ∧ proxyId ≠ P.DELETED_PROXY_ID ∧ proxyId ≠ "e" ∧
        ((getProp t proxyId).isSome = true ∨ inherits proxyId = false)) →
    ∀ ov : List (String × Overlay),
      (∀ p ∈ fs, getProp ov p.1 =
        if (overlayOf P p.2).isNull then none else some (overlayOf P p.2)) →
      applyObj P t (strippedFields fs) ov = .ok (reconstructedFields t fs) := by
  intro fs
  induction fs with
  | nil => intros; simp [applyObj, strippedFields, reconstructedFields]
  | cons f rest ih =>
    obtain ⟨k, x⟩ := f
    intro hih hd hkeys hs hp hid ov hov
    simp only [Value.distinctKeysFields, Bool.and_eq_true] at hd
    simp only [List.all_cons, Bool.and_eq_true, Bool.not_eq_true'] at hkeys
    simp only [Value.safeKeysFields, Bool.and_eq_true] at hs
    simp only [Value.plainFields, Bool.and_eq_true] at hp
    simp only [bridgeablesFields, List.mem_append] at hid
    have hx := hih (k, x) (List.mem_cons_self _ _) hd.1 hs.1 hp.1
      (fun i ps h => hid i ps (Or.inl h))
    have hr := ih (fun y hy => hih y (List.mem_cons_of_mem _ hy)) hd.2 hkeys.2 hs.2 hp.2
      (fun i ps h => hid i ps (Or.inr h)) ov
      (fun p hp => hov p (List.mem_cons_of_mem _ hp))
    have hk := hov (k, x) (List.mem_cons_self _ _)
    simp only at hk hx
    simp only [applyObj, strippedFields, reconstructedFields, hr, hk]
    by_cases hnull : (overlayOf P x).isNull = true
    · have hn := (Overlay.isNull_iff _).1 hnull
      simp [hnull, usable, (overlayOf_null P x hn).1, (overlayOf_null P x hn).2, hkeys.1]
    · have ht : (overlayOf P x).truthy = true := by
        by_contra hc
        have hf : (overlayOf P x).truthy = false := by simpa using hc
        have hpe := plain_errorFree_undefinedFree x hp.1
        have hn := overlayOf_falsy P x hpe.1 (Or.inl hpe.2)
          (fun i ps h => (hid i ps (Or.inl h)).1) hf
        exact hnull ((Overlay.isNull_iff _).2 hn)
      simp [hnull, usable_some, ht, hx]

theorem applyOverlay_overlayOf (P : Protocol) (t : List (String × Nat)) (v : Value) :
    ApplyOk P t v := by
  induction v using Value.induct with
  | undefined => intro _ _ hp _; simp [Value.plain] at hp
  | error _ _ _ _ => intro _ _ hp _; simp [Value.plain] at hp
  | proxy _ => intro _ _ hp _; simp [Value.plain] at hp
  | func _ => intro _ _ hp _; simp [Value.plain] at hp
  | symbol => intro _ _ hp _; simp [Value.plain] at hp
  | null => intro _ _ _ _; simp [overlayOf, applyOverlay, stripped, reconstructed]
  | bool _ => intro _ _ _ _; simp [overlayOf, applyOverlay, stripped, reconstructed]
  | num _ => intro _ _ _ _; simp [overlayOf, applyOverlay, stripped, reconstructed]
  | str _ => intro _ _ _ _; simp [overlayOf, applyOverlay, stripped, reconstructed]
  | api i ps =>
    intro _ _ _ hid
    have := hid i ps (by simp [bridgeables])
    have hg : ((getProp t i).isNone && inherits i) = false := by
      rcases this.2.2.2 with h | h
      · rcases hq : getProp t i with _ | a
        · rw [hq] at h; cases h
        · rfl
      · rw [h, Bool.and_false]
    rw [overlayOf, stripped, applyOverlay, if_neg this.2.1, if_neg this.2.2.1, hg, reconstructed]
    rfl
  | arr xs ih =>
    intro hd hs hp hid
    have hl := applyArr_overlayOf P t xs ih (by simpa [Value.distinctKeys] using hd)
      (by simpa [Value.safeKeys] using hs)
      (by simpa [Value.plain] using hp) (by simpa [bridgeables] using hid)
    by_cases hall : (overlayOfList P xs).all Overlay.isNull = true
    · have hn := overlayOfList_null P xs hall
      rw [overlayOf, if_pos hall, applyOverlay, stripped, reconstructed, hn.1, hn.2]
    · rw [overlayOf, if_neg hall, stripped, applyOverlay, hl, reconstructed]
  | obj fs ih =>
    intro hd hs hp hid
    simp only [Value.distinctKeys, Bool.and_eq_true, decide_eq_true_eq] at hd
    simp only [Value.safeKeys, Bool.and_eq_true] at hs
    have hl := applyObj_overlayOf P t fs ih hd.2 hs.1 hs.2
      (by simp only [Value.plain, Bool.and_eq_true] at hp; exact hp.2)
      (by simpa [bridgeables] using hid)
      _ (getProp_overlayOfFields P fs hd.1)
    by_cases hall : ((overlayOfFields P fs).filter fun p => !p.2.isNull).isEmpty = true
    · have hall2 := hall
      rw [List.isEmpty_iff, List.filter_eq_nil_iff] at hall2
      have hn := overlayOfFields_null P fs (fun p hp => by simpa using hall2 p hp)
      rw [overlayOf, if_pos hall, applyOverlay, stripped, reconstructed, hn.1, hn.2]
    · rw [overlayOf, if_neg hall, stripped, applyOverlay, hl, reconstructed]

theorem mem_apiIds (v : Value) (i : String) (ps : List (String × Value))
    (h : Value.api i ps ∈ bridgeables v) : i ∈ apiIds v := by
  simp only [apiIds, List.mem_filterMap]
  exact ⟨_, h, rfl⟩

theorem stripError_returns (v : Value) (h1 : v ≠ .undefined) (h2 : v ≠ .null)
    (h3 : ∀ a, v ≠ .proxy a) (h4 : ∀ f, v ≠ .func f) (h5 : ∀ s, v ≠ .str s) :
    ∃ w, stripError v = .ok w := by
  cases v with
  | undefined => exact absurd rfl h1
  | null => exact absurd rfl h2
  | proxy a => exact absurd rfl (h3 a)
  | func f => exact absurd rfl (h4 f)
  | str s => exact absurd rfl (h5 s)
  | error n m s e =>
    simp only [stripError, readField, spreadProps]
    cases getProp e "name" <;> cases getProp e "message" <;> cases getProp e "stack" <;>
      exact ⟨_, rfl⟩
  | _ => exact ⟨_, rfl⟩

theorem stripArr_returns (P : Protocol) :
    ∀ xs : List Value, (∀ x ∈ xs, StripReturns P x) →
    Value.distinctKeysList xs = true → Value.safeKeysList xs = true →
    (Value.undefinedFreeList xs = true ∨ P.OVERLAY_UNDEFINED ≠ P.OVERLAY_ERROR) →
    ∃ ys, stripArr P xs (overlayOfList P xs) = .ok ys := by
  intro xs
  induction xs with
  | nil => intros; exact ⟨[], by simp [stripArr]⟩
  | cons x rest ih =>
    intro hih hd hs hu
    simp only [Value.distinctKeysList, Bool.and_eq_true] at hd
    simp only [Value.safeKeysList, Bool.and_eq_true] at hs
    simp only [Value.undefinedFreeList, Bool.and_eq_true] at hu
    obtain ⟨w, hw⟩ := hih x (List.mem_cons_self _ _) hd.1 hs.1 (hu.imp (fun h => h.1) id)
    obtain ⟨ys, hys⟩ := ih (fun y hy => hih y (List.mem_cons_of_mem _ hy)) hd.2 hs.2
      (hu.imp (fun h => h.2) id)
    simp only [stripArr, overlayOfList, List.head?_cons, List.tail_cons, usable_some, hys]
    by_cases ht : (overlayOf P x).truthy = true
    · simp [ht, hw]
    · simp [ht]

theorem stripObj_returns (P : Protocol) :
    ∀ fs : List (String × Value), (∀ p ∈ fs, StripReturns P p.2) →
    Value.distinctKeysFields fs = true →
    (fs.all fun p => !inherits p.1) = true → Value.safeKeysFields fs = true →
    (Value.undefinedFreeFields fs = true ∨ P.OVERLAY_UNDEFINED ≠ P.OVERLAY_ERROR) →
    ∀ ov : List (String × Overlay),
      (∀ p ∈ fs, getProp ov p.1 =
        if (overlayOf P p.2).isNull then none else some (overlayOf P p.2)) →
      ∃ gs, stripObj P fs ov = .ok gs := by
  intro fs
  induction fs with
  | nil => intros; exact ⟨[], by simp [stripObj]⟩
  | cons f rest ih =>
    obtain ⟨k, x⟩ := f
    intro hih hd hkeys hs hu ov hov
    simp only [Value.distinctKeysFields, Bool.and_eq_true] at hd
    simp only [List.all_cons, Bool.and_eq_true, Bool.not_eq_true'] at hkeys
    simp only [Value.safeKeysFields, Bool.and_eq_true] at hs
    simp only [Value.undefinedFreeFields, Bool.and_eq_true] at hu
    obtain ⟨w, hw⟩ := hih (k, x) (List.mem_cons_self _ _) hd.1 hs.1
      (hu.imp (fun h => h.1) id)
    obtain ⟨gs, hgs⟩ := ih (fun y hy => hih y (List.mem_cons_of_mem _ hy)) hd.2 hkeys.2 hs.2
      (hu.imp (fun h => h.2) id) ov (fun p hp => hov p (List.mem_cons_of_mem _ hp))
    have hk := hov (k, x) (List.mem_cons_self _ _)
    simp only at hk hw
    simp only [stripObj, hgs, hk]
    by_cases hnull : (overlayOf P x).isNull = true
    · simp [hnull, usable, hkeys.1]
    · by_cases ht : (overlayOf P x).truthy = true
      · simp [hnull, usable_some, ht, hw]
      · simp [hnull, usable_some, ht]

theorem stripValue_returns (P : Protocol) (v : Value) : StripReturns P v := by
  induction v using Value.induct with
  | undefined =>
    intro _ _ hu
    rcases hu with hu | hu
    · simp [Value.undefinedFree] at hu
    · exact ⟨.null, by simp [overlayOf, stripValue, hu]⟩
  | null => intro _ _ _; exact ⟨.null, by simp [overlayOf, stripValue]⟩
  | bool a => intro _ _ _; exact ⟨.bool a, by simp [overlayOf, stripValue]⟩
  | num a => intro _ _ _; exact ⟨.num a, by simp [overlayOf, stripValue]⟩
  | str a => intro _ _ _; exact ⟨.str a, by simp [overlayOf, stripValue]⟩
  | proxy a => intro _ _ _; exact ⟨.proxy a, by simp [overlayOf, stripValue]⟩
  | func a => intro _ _ _; exact ⟨.func a, by simp [overlayOf, stripValue]⟩
  | symbol => intro _ _ _; exact ⟨.symbol, by simp [overlayOf, stripValue]⟩
  | error n m s e =>
    intro _ _ _
    obtain ⟨w, hw⟩ := stripError_returns (.error n m s e) (by simp) (by simp) (by simp)
      (by simp) (by simp)
    exact ⟨w, by simp [overlayOf, stripValue, hw]⟩
  | api i ps =>
    intro _ _ _
    obtain ⟨w, hw⟩ := stripError_returns (.api i ps) (by simp) (by simp) (by simp)
      (by simp) (by simp)
    by_cases h : i = P.OVERLAY_ERROR
    · exact ⟨w, by rw [overlayOf, stripValue, if_pos h, hw]⟩
    · exact ⟨.null, by simp [overlayOf, stripValue, h]⟩
  | arr xs ih =>
    intro hd hs hu
    obtain ⟨ys, hys⟩ := stripArr_returns P xs ih (by simpa [Value.distinctKeys] using hd)
      (by simpa [Value.safeKeys] using hs)
      (by simpa [Value.undefinedFree] using hu)
    by_cases hall : (overlayOfList P xs).all Overlay.isNull = true
    · exact ⟨_, by rw [overlayOf, if_pos hall, stripValue]⟩
    · exact ⟨_, by rw [overlayOf, if_neg hall, stripValue, hys]⟩
  | obj fs ih =>
    intro hd hs hu
    simp only [Value.distinctKeys, Bool.and_eq_true, decide_eq_true_eq] at hd
    simp only [Value.safeKeys, Bool.and_eq_true] at hs
    obtain ⟨gs, hgs⟩ := stripObj_returns P fs ih hd.2 hs.1 hs.2
      (by simpa [Value.undefinedFree] using hu) _ (getProp_overlayOfFields P fs hd.1)
    by_cases hall : ((overlayOfFields P fs).filter fun p => !p.2.isNull).isEmpty = true
    · exact ⟨_, by rw [overlayOf, if_pos hall, stripValue]⟩
    · exact ⟨_, by rw [overlayOf, if_neg hall, stripValue, hgs]⟩

theorem stripArr_shape (P : Protocol) : ∀ (xs : List Value) (ov : List Overlay)
    (ys : List Value), stripArr P xs ov = .ok ys →
    ys.length = xs.length ∧
      ∀ i : Nat, (ov[i]? = none ∨ ov[i]? = some Overlay.null) → ys[i]? = xs[i]? := by
  intro xs
  induction xs with
  | nil =>
    intro ov ys h
    simp only [stripArr, Except.ok.injEq] at h
    subst h
    simp
  | cons x rest ih =>
    intro ov ys h
    simp only [stripArr] at h
    split at h
    · cases h
    · rename_i y hy
      split at h
      · cases h
      · rename_i ys2 hys2
        simp only [Except.ok.injEq] at h
        subst h
        obtain ⟨hlen, hrest⟩ := ih _ _ hys2
        refine ⟨by simp [hlen], ?_⟩
        intro i hi
        cases i with
        | zero =>
          have hu : usable ov.head? = none := by
            cases ov with
            | nil => rfl
            | cons o os =>
              simp only [List.getElem?_cons_zero, Option.some.injEq, reduceCtorEq,
                false_or] at hi
              subst hi
              rfl
          rw [hu] at hy
          simp only [Except.ok.injEq] at hy
          simp [hy]
        | succ j =>
          simp only [List.getElem?_cons_succ]
          apply hrest
          cases ov with
          | nil => simp
          | cons o os => simpa using hi

theorem stripObj_shape (P : Protocol) : ∀ (fs : List (String × Value))
    (ov : List (String × Overlay)) gs, (fs.all fun p => !inherits p.1) = true →
    stripObj P fs ov = .ok gs →
    gs.map Prod.fst = fs.map Prod.fst ∧
      ∀ k, (getProp ov k = none ∨ getProp ov k = some Overlay.null) →
        getProp gs k = getProp fs k := by
  intro fs
  induction fs with
  | nil =>
    intro ov gs _ h
    simp only [stripObj, Except.ok.injEq] at h
    subst h
    simp
  | cons f rest ih =>
    obtain ⟨name, x⟩ := f
    intro ov gs hsafe h
    simp only [List.all_cons, Bool.and_eq_true, Bool.not_eq_true'] at hsafe
    simp only [stripObj] at h
    split at h
    · cases h
    · rename_i y hy
      split at h
      · cases h
      · rename_i gs2 hgs2
        simp only [Except.ok.injEq] at h
        subst h
        obtain ⟨hkeys, hrest⟩ := ih _ _ hsafe.2 hgs2
        refine ⟨by simp [hkeys], ?_⟩
        intro k hk
        by_cases hname : name = k
        · subst hname
          have hu : usable (getProp ov name) = none := by
            rcases hk with hk | hk <;> rw [hk] <;> rfl
          rw [hu] at hy
          simp only [hsafe.1, Bool.and_false, Bool.false_eq_true, if_false,
            Except.ok.injEq] at hy
          simp [getProp, hy]
        · simp [getProp, hname, hrest k hk]

theorem makeOverlayArr_returns (P : Protocol) (xs : List Value)
    (h : ∀ x ∈ xs, ∃ o, (makeOverlay P x).2 = .ok o) :
    ∀ (i : Nat) (out : Option (List Overlay)), ∃ r, (makeOverlayArr P xs i out).2 = .ok r := by
  induction xs with
  | nil => intro i out; exact ⟨out, by simp [makeOverlayArr]⟩
  | cons x rest ih =>
    intro i out
    obtain ⟨o, ho⟩ := h x (List.mem_cons_self _ _)
    simp only [makeOverlayArr]
    rcases hm : makeOverlay P x with ⟨log, rx⟩
    rw [hm] at ho
    simp only at ho
    subst ho
    exact ih (fun y hy => h y (List.mem_cons_of_mem _ hy)) _ _

theorem makeOverlayObj_returns (P : Protocol) (fs : List (String × Value))
    (h : ∀ p ∈ fs, ∃ o, (makeOverlay P p.2).2 = .ok o) :
    ∀ out : Option (List (String × Overlay)), ∃ r, (makeOverlayObj P fs out).2 = .ok r := by
  induction fs with
  | nil => intro out; exact ⟨out, by simp [makeOverlayObj]⟩
  | cons f rest ih =>
    obtain ⟨k, x⟩ := f
    intro out
    obtain ⟨o, ho⟩ := h (k, x) (List.mem_cons_self _ _)
    simp only [makeOverlayObj]
    rcases hm : makeOverlay P x with ⟨log, rx⟩
    rw [hm] at ho
    simp only at ho
    subst ho
    exact ih (fun y hy => h y (List.mem_cons_of_mem _ hy)) _

theorem mem_of_plainList {xs : List Value} (h : Value.plainList xs = true) :
    ∀ x ∈ xs, x.plain = true := by
  induction xs with
  | nil => intro x hx; cases hx
  | cons y rest ih =>
    simp only [Value.plainList, Bool.and_eq_true] at h
    intro x hx
    rcases List.mem_cons.1 hx with rfl | hx
    · exact h.1
    · exact ih h.2 x hx

theorem mem_of_plainFields {fs : List (String × Value)} (h : Value.plainFields fs = true) :
    ∀ p ∈ fs, p.2.plain = true := by
  induction fs with
  | nil => intro x hx; cases hx
  | cons y rest ih =>
    obtain ⟨k, y⟩ := y
    simp only [Value.plainFields, Bool.and_eq_true] at h
    intro x hx
    rcases List.mem_cons.1 hx with rfl | hx
    · exact h.1
    · exact ih h.2 x hx

theorem makeOverlay_plain_returns (P : Protocol) (v : Value) :
    v.plain = true → ∃ o, (makeOverlay P v).2 = .ok o := by
  induction v using Value.induct with
  | undefined => intro h; simp [Value.plain] at h
  | error _ _ _ _ => intro h; simp [Value.plain] at h
  | proxy _ => intro h; simp [Value.plain] at h
  | func _ => intro h; simp [Value.plain] at h
  | symbol => intro h; simp [Value.plain] at h
  | null => intro _; exact ⟨.null, rfl⟩
  | bool _ => intro _; exact ⟨.null, rfl⟩
  | num _ => intro _; exact ⟨.null, rfl⟩
  | str _ => intro _; exact ⟨.null, rfl⟩
  | api i _ => intro _; exact ⟨.str i, rfl⟩
  | arr xs ih =>
    intro h
    simp only [Value.plain] at h
    obtain ⟨r, hr⟩ := makeOverlayArr_returns P xs
      (fun x hx => ih x hx (mem_of_plainList h x hx)) 0 none
    simp only [makeOverlay]
    rcases hm : makeOverlayArr P xs 0 none with ⟨log, rx⟩
    rw [hm] at hr
    simp only at hr
    subst hr
    cases r <;> exact ⟨_, rfl⟩
  | obj fs ih =>
    intro h
    simp only [Value.plain, Bool.and_eq_true, Bool.not_eq_true'] at h
    obtain ⟨r, hr⟩ := makeOverlayObj_returns P fs
      (fun p hp => ih p hp (mem_of_plainFields h.2 p hp)) none
    simp only [makeOverlay, h.1, Bool.false_eq_true, if_false]
    rcases hm : makeOverlayObj P fs none with ⟨log, rx⟩
    rw [hm] at hr
    simp only at hr
    subst hr
    cases r <;> exact ⟨_, rfl⟩

theorem hasApi_stripped (v : Value) : v.errorFree = true → (stripped v).hasApi = false := by
  induction v using Value.induct with
  | error _ _ _ _ => intro h; simp [Value.errorFree] at h
  | arr xs ih =>
    intro h
    simp only [Value.errorFree] at h
    simp only [stripped, Value.hasApi]
    induction xs with
    | nil => rfl
    | cons x rest ihr =>
      simp only [Value.errorFreeList, Bool.and_eq_true] at h
      simp [strippedList, Value.hasApiList, ih x (List.mem_cons_self _ _) h.1,
        ihr (fun y hy => ih y (List.mem_cons_of_mem _ hy)) h.2]
  | obj fs ih =>
    intro h
    simp only [Value.errorFree] at h
    simp only [stripped, Value.hasApi]
    induction fs with
    | nil => rfl
    | cons f rest ihr =>
      obtain ⟨k, x⟩ := f
      simp only [Value.errorFreeFields, Bool.and_eq_true] at h
      have h1 := ih (k, x) (List.mem_cons_self _ _) h.1
      simp only at h1
      simp [strippedFields, Value.hasApiFields, h1,
        ihr (fun y hy => ih y (List.mem_cons_of_mem _ hy)) h.2]
  | _ => intro _; simp [stripped, Value.hasApi]

theorem underInherited_obj (x y : Value) (h : underInherited x = .ok y) :
    ∃ gs, y = .obj gs := by
  cases x with
  | str s =>
    simp only [underInherited] at h
    split at h
    · exact ⟨[], by simpa using h.symm⟩
    · cases h
  | arr xs => exact ⟨_, by simpa [underInherited] using h.symm⟩
  | obj fs =>
    cases fs with
    | nil => exact ⟨[], by simpa [underInherited] using h.symm⟩
    | cons f rest => simp [underInherited] at h
  | undefined => exact ⟨[], by simpa [underInherited] using h.symm⟩
  | null => exact ⟨[], by simpa [underInherited] using h.symm⟩
  | bool _ => exact ⟨[], by simpa [underInherited] using h.symm⟩
  | num _ => exact ⟨[], by simpa [underInherited] using h.symm⟩
  | symbol => exact ⟨[], by simpa [underInherited] using h.symm⟩
  | _ => simp [underInherited] at h

/-- A field of the value whose name is a member of `Object.prototype` and has
no own entry in the overlay is not passed through by `stripValue`: it is
replaced by a new object. -/
theorem stripObj_inherited_head (P : Protocol) (k : String) (x : Value)
    (rest out : List (String × Value)) (ov : List (String × Overlay))
    (hk : getProp ov k = none) (hin : inherits k = true)
    (h : stripObj P ((k, x) :: rest) ov = .ok out) :
    ∃ gs ys, out = (k, .obj gs) :: ys := by
  simp only [stripObj, hk, usable, Option.isNone_none, hin, Bool.and_self, if_true] at h
  revert h
  rcases hu : underInherited x with e | y
  · intro h; cases h
  · obtain ⟨gs, rfl⟩ := underInherited_obj x y hu
    simp only
    rcases stripObj P rest ov with e | ys
    · intro h; cases h
    · intro h
      simp only [Except.ok.injEq] at h
      exact ⟨gs, ys, h.symm⟩

/-- The client's `applyOverlay` treats such a field in the same way. -/
theorem applyObj_inherited_head (P : Protocol) (t : List (String × Nat)) (k : String)
    (x : Value) (rest out : List (String × Value)) (ov : List (String × Overlay))
    (hk : getProp ov k = none) (hin : inherits k = true)
    (h : applyObj P t ((k, x) :: rest) ov = .ok out) :
    ∃ gs ys, out = (k, .obj gs) :: ys := by
  simp only [applyObj, hk, usable, Option.isNone_none, hin, Bool.and_self, if_true] at h
  revert h
  rcases hu : underInherited x with e | y
  · intro h; cases h
  · obtain ⟨gs, rfl⟩ := underInherited_obj x y hu
    simp only
    rcases applyObj P t rest ov with e | ys
    · intro h; cases h
    · intro h
      simp only [Except.ok.injEq] at h
      exact ⟨gs, ys, h.symm⟩

/-- C1 (amended). Codec round trip: for every value `v` built from booleans,
numbers, strings, `null`, arrays, plain objects and bridgeable objects, whose
object keys name no member of `Object.prototype` and whose proxy ids are
non-empty, are none of the reserved strings (the error marker of either side
and `DELETED_PROXY_ID`) and either have an entry in the proxy table or name no
member of `Object.prototype`, `makeOverlay` returns an overlay `o`,
`stripValue(v, o)` returns a value `w`, and the client's `applyOverlay(w, o)`
returns `v` with every bridgeable object replaced by the entry of the proxy
table under its id and every other position unchanged. -/
theorem C1_round_trip (P : Protocol) (proxies : List (String × Nat)) (v : Value)
    (hplain : v.plain = true) (hkeys : v.distinctKeys = true) (hsafe : v.safeKeys = true)
    (hids : ∀ id ∈ apiIds v,
      id ≠ "" ∧ id ≠ P.OVERLAY_ERROR ∧ id ≠ P.DELETED_PROXY_ID ∧ id ≠ "e" ∧
        ((getProp proxies id).isSome = true ∨ inherits id = false)) :
    ∃ o w, (makeOverlay P v).2 = .ok o ∧ stripValue P v o = .ok w ∧
      applyOverlay P proxies w o = .ok (reconstructed proxies v) := by
  obtain ⟨o, ho⟩ := makeOverlay_plain_returns P v hplain
  have hov := makeOverlay_eq P v hkeys o ho
  have hpe := plain_errorFree_undefinedFree v hplain
  subst hov
  refine ⟨_, stripped v, ho, ?_, ?_⟩
  · exact stripValue_overlayOf P v hkeys hsafe hpe.1 (Or.inl hpe.2)
      (fun i ps h => ⟨(hids i (mem_apiIds v i ps h)).1, (hids i (mem_apiIds v i ps h)).2.1⟩)
  · exact applyOverlay_overlayOf P proxies v hkeys hsafe hplain
      (fun i ps h => ⟨(hids i (mem_apiIds v i ps h)).1, (hids i (mem_apiIds v i ps h)).2.2⟩)

/-- C7 (amended). References never reach the wire: for every value `v` that
contains no `Error`, whose object keys name no member of `Object.prototype`,
whose proxy ids are non-empty and differ from the error marker, and on which
`makeOverlay` returns `o` (the marker for `undefined` being a non-empty string
other than the error marker when `v` contains `undefined`), `stripValue(v, o)`
returns `v` with `null` at every position that held a bridgeable object or
`undefined`, and the result contains no bridgeable object. -/
theorem C7_no_reference_on_wire (P : Protocol) (v : Value) (o : Overlay)
    (hkeys : v.distinctKeys = true) (hsafe : v.safeKeys = true)
    (herr : v.errorFree = true)
    (hundef : v.undefinedFree = true ∨ P.undefinedMarkerOk)
    (hids : ∀ id ∈ apiIds v, id ≠ "" ∧ id ≠ P.OVERLAY_ERROR)
    (ho : (makeOverlay P v).2 = .ok o) :
    stripValue P v o = .ok (stripped v) ∧ (stripped v).hasApi = false := by
  have hov := makeOverlay_eq P v hkeys o ho
  subst hov
  exact ⟨stripValue_overlayOf P v hkeys hsafe herr hundef
    (fun i ps h => hids i (mem_apiIds v i ps h)), hasApi_stripped v herr⟩

/-- C8 (as amended). Pass-through of `stripValue`: with the overlay `null` the
value is returned as it is; for an array or plain object `v` whose object keys
name no member of `Object.prototype`, with `o = makeOverlay(v)`, the result of
`stripValue(v, o)` is an array of the same length, or an object with the same
keys, and every element or field whose overlay entry is absent or `null` is
the original element or field. -/
theorem C8_strip_pass_through (P : Protocol) :
    (∀ v, stripValue P v .null = .ok v) ∧
    (∀ xs o, (Value.arr xs).distinctKeys = true → (Value.arr xs).safeKeys = true →
      ((Value.arr xs).undefinedFree = true ∨ P.OVERLAY_UNDEFINED ≠ P.OVERLAY_ERROR) →
      (makeOverlay P (.arr xs)).2 = .ok o →
      ∃ ys : List Value, stripValue P (.arr xs) o = .ok (.arr ys) ∧ ys.length = xs.length ∧
        ∀ i : Nat, (o.child (.idx i) = none ∨ o.child (.idx i) = some .null) →
          ys[i]? = xs[i]?) ∧
    (∀ fs o, (Value.obj fs).distinctKeys = true → (Value.obj fs).safeKeys = true →
      ((Value.obj fs).undefinedFree = true ∨ P.OVERLAY_UNDEFINED ≠ P.OVERLAY_ERROR) →
      (makeOverlay P (.obj fs)).2 = .ok o →
      ∃ gs : List (String × Value), stripValue P (.obj fs) o = .ok (.obj gs) ∧
        gs.map Prod.fst = fs.map Prod.fst ∧
        ∀ k, (o.child (.key k) = none ∨ o.child (.key k) = some .null) →
          getProp gs k = getProp fs k) := by
  refine ⟨fun v => by cases v <;> rfl, ?_, ?_⟩
  · intro xs o hd hs hu ho
    have hov := makeOverlay_eq P _ hd o ho
    obtain ⟨w, hw⟩ := stripValue_returns P (.arr xs) hd hs hu
    subst hov
    by_cases hall : (overlayOfList P xs).all Overlay.isNull = true
    · rw [overlayOf, if_pos hall]
      exact ⟨xs, rfl, rfl, fun _ _ => rfl⟩
    · rw [overlayOf, if_neg hall] at hw ⊢
      rw [stripValue] at hw ⊢
      split at hw
      · rename_i ys hys
        obtain ⟨h1, h2⟩ := stripArr_shape P xs _ ys hys
        exact ⟨ys, rfl, h1, fun i hi => h2 i (by simpa [Overlay.child] using hi)⟩
      · cases hw
  · intro fs o hd hs hu ho
    have hov := makeOverlay_eq P _ hd o ho
    obtain ⟨w, hw⟩ := stripValue_returns P (.obj fs) hd hs hu
    subst hov
    by_cases hall : ((overlayOfFields P fs).filter fun p => !p.2.isNull).isEmpty = true
    · rw [overlayOf, if_pos hall]
      exact ⟨fs, rfl, rfl, fun _ _ => rfl⟩
    · rw [overlayOf, if_neg hall] at hw ⊢
      rw [stripValue] at hw ⊢
      split at hw
      · rename_i gs hgs
        simp only [Value.safeKeys, Bool.and_eq_true] at hs
        obtain ⟨h1, h2⟩ := stripObj_shape P fs _ gs hs.1 hgs
        exact ⟨gs, rfl, h1, fun k hk => h2 k (by simpa [Overlay.child] using hk)⟩
      · cases hw

/-- C8, counterexample: whatever the constants of the protocol are, in
`{constructor: 1, a: p1}` the field `constructor` has no entry in the overlay
`{a: 'p1'}`, and `stripValue` does not return it unchanged (the inherited
`overlay.constructor` is truthy, and the field becomes a new object). -/
theorem C8_strip_pass_through_counterexample :
    ¬ ∃ P : Protocol, ∃ o gs,
      (makeOverlay P (.obj [("constructor", .num 1), ("a", .api "p1" [])])).2 = .ok o ∧
      o.child (.key "constructor") = none ∧
      stripValue P (.obj [("constructor", .num 1), ("a", .api "p1" [])]) o = .ok (.obj gs) ∧
      getProp gs "constructor" = some (.num 1) := by
  rintro ⟨P, o, gs, ho, _, hw, hg⟩
  have h1 : (makeOverlay P (.obj [("constructor", .num 1), ("a", .api "p1" [])])).2 =
      .ok (.obj [("a", .str "p1")]) := rfl
  rw [h1] at ho
  cases ho
  rw [stripValue] at hw
  revert hw
  rcases hq : stripObj P [("constructor", .num 1), ("a", .api "p1" [])] [("a", .str "p1")]
    with e | out
  · intro hw; cases hw
  · intro hw
    simp only [Except.ok.injEq, Value.obj.injEq] at hw
    subst hw
    obtain ⟨fs2, ys, rfl⟩ := stripObj_inherited_head P "constructor" (.num 1) _ out
      [("a", .str "p1")] rfl (by decide) hq
    simp [getProp] at hg

/-- C1, witness: the round trip of `[1, p1, {a: p2, b: 'x'}]`. -/
theorem C1_round_trip_witness :
    ∃ o w, (makeOverlay sampleProtocol
        (.arr [.num 1, .api "p1" [], .obj [("a", .api "p2" []), ("b", .str "x")]])).2 = .ok o ∧
      stripValue sampleProtocol
        (.arr [.num 1, .api "p1" [], .obj [("a", .api "p2" []), ("b", .str "x")]]) o = .ok w ∧
      applyOverlay sampleProtocol [("p1", 0), ("p2", 1)] w o =
        .ok (reconstructed [("p1", 0), ("p2", 1)]
          (.arr [.num 1, .api "p1" [], .obj [("a", .api "p2" []), ("b", .str "x")]])) :=
  C1_round_trip sampleProtocol [("p1", 0), ("p2", 1)]
    (.arr [.num 1, .api "p1" [], .obj [("a", .api "p2" []), ("b", .str "x")]])
    (by decide) (by decide) (by decide) (by decide)

/-- C1, counterexample: whatever the constants of the protocol are, (1) a
bridgeable object whose proxy id is the string `'e'` is not rebuilt as the
proxy registered under `'e'`; (2) nor is one whose id is `DELETED_PROXY_ID`
(the client rebuilds `null`); (3) a bridgeable object with the empty id inside
an array is neither stripped nor rebuilt; (4) in `{constructor: 1, a: p1}` the
field `constructor` is not restored (the inherited `overlay.constructor` is
truthy, so the field is rebuilt as a new object). -/
theorem C1_round_trip_counterexample :
    (¬ ∃ P : Protocol, ∃ o w, (makeOverlay P (.api "e" [])).2 = .ok o ∧
      stripValue P (.api "e" []) o = .ok w ∧
      applyOverlay P [("e", 0)] w o = .ok (reconstructed [("e", 0)] (.api "e" []))) ∧
    (¬ ∃ P : Protocol, ∃ o w, (makeOverlay P (.api P.DELETED_PROXY_ID [])).2 = .ok o ∧
      stripValue P (.api P.DELETED_PROXY_ID []) o = .ok w ∧
      applyOverlay P [(P.DELETED_PROXY_ID, 0)] w o =
        .ok (reconstructed [(P.DELETED_PROXY_ID, 0)] (.api P.DELETED_PROXY_ID []))) ∧
    (¬ ∃ P : Protocol, ∃ o w, (makeOverlay P (.arr [.api "" []])).2 = .ok o ∧
      stripValue P (.arr [.api "" []]) o = .ok w ∧
      applyOverlay P [("", 0)] w o = .ok (reconstructed [("", 0)] (.arr [.api "" []]))) ∧
    (¬ ∃ P : Protocol, ∃ o w,
      (makeOverlay P (.obj [("constructor", .num 1), ("a", .api "p1" [])])).2 = .ok o ∧
      stripValue P (.obj [("constructor", .num 1), ("a", .api "p1" [])]) o = .ok w ∧
      applyOverlay P [("p1", 0)] w o =
        .ok (reconstructed [("p1", 0)] (.obj [("constructor", .num 1), ("a", .api "p1" [])]))) := by
  refine ⟨?_, ?_, ?_, ?_⟩
  · rintro ⟨P, o, w, ho, hw, ha⟩
    simp only [makeOverlay, Except.ok.injEq] at ho
    subst ho
    simp only [reconstructed, lookupProxy, getProp, if_true] at ha
    simp only [applyOverlay, if_true] at ha
    by_cases hD : "e" = P.DELETED_PROXY_ID
    · simp [hD] at ha
    · simp only [hD, if_false] at ha
      simp only [stripValue] at hw
      by_cases hE : "e" = P.OVERLAY_ERROR
      · simp only [hE, if_true, stripError, readField, spreadProps, getProp, Option.getD_none,
          List.foldl_nil, Except.ok.injEq] at hw
        subst hw
        simp [applyError, readField, getProp] at ha
      · simp only [hE, if_false, Except.ok.injEq] at hw
        subst hw
        simp [applyError, readField] at ha
  · rintro ⟨P, o, w, ho, hw, ha⟩
    simp only [makeOverlay, Except.ok.injEq] at ho
    subst ho
    simp [applyOverlay, reconstructed, lookupProxy, getProp] at ha
  · rintro ⟨P, o, w, ho, hw, ha⟩
    have h1 : (makeOverlay P (.arr [.api "" []])).2 = .ok (.arr [.str ""]) := rfl
    rw [h1] at ho
    cases ho
    have h2 : stripValue P (.arr [.api "" []]) (.arr [.str ""]) = .ok (.arr [.api "" []]) := rfl
    rw [h2] at hw
    cases hw
    have h3 : applyOverlay P [("", 0)] (.arr [.api "" []]) (.arr [.str ""]) =
        .ok (.arr [.api "" []]) := rfl
    rw [h3] at ha
    cases ha
  · rintro ⟨P, o, w, ho, hw, ha⟩
    have h1 : (makeOverlay P (.obj [("constructor", .num 1), ("a", .api "p1" [])])).2 =
        .ok (.obj [("a", .str "p1")]) := rfl
    rw [h1] at ho
    cases ho
    rw [stripValue] at hw
    revert hw
    rcases hq : stripObj P [("constructor", .num 1), ("a", .api "p1" [])] [("a", .str "p1")]
      with e | out
    · intro hw; cases hw
    · intro hw
      simp only [Except.ok.injEq] at hw
      subst hw
      obtain ⟨fs2, ys, rfl⟩ := stripObj_inherited_head P "constructor" (.num 1) _ out
        [("a", .str "p1")] rfl (by decide) hq
      rw [applyOverlay] at ha
      revert ha
      rcases hq2 : applyObj P [("p1", 0)] (("constructor", .obj fs2) :: ys) [("a", .str "p1")]
        with e | out2
      · intro ha; cases ha
      · intro ha
        obtain ⟨fs3, ys3, rfl⟩ := applyObj_inherited_head P _ "constructor" _ _ out2
          [("a", .str "p1")] rfl (by decide) hq2
        simp [reconstructed, reconstructedFields] at ha

/-- C7, witness: stripping `[undefined, p1, {a: p2}]`. -/
theorem C7_no_reference_on_wire_witness :
    stripValue sampleProtocol
        (.arr [.undefined, .api "p1" [("x", .num 1)], .obj [("a", .api "p2" [])]])
        (.arr [.str "u", .str "p1", .obj [("a", .str "p2")]]) =
      .ok (stripped (.arr [.undefined, .api "p1" [("x", .num 1)], .obj [("a", .api "p2" [])]])) ∧
    (stripped
      (.arr [.undefined, .api "p1" [("x", .num 1)], .obj [("a", .api "p2" [])]])).hasApi = false :=
  C7_no_reference_on_wire sampleProtocol
    (.arr [.undefined, .api "p1" [("x", .num 1)], .obj [("a", .api "p2" [])]])
    (.arr [.str "u", .str "p1", .obj [("a", .str "p2")]])
    (by decide) (by decide) (by decide) (Or.inr ⟨by decide, by decide⟩) (by decide) rfl

/-- C7, counterexample: whatever the constants of the protocol are, (1) an
`Error` with the extra property `owner` holding a bridgeable object is stripped
to a record that still holds that object; (2) a bridgeable object with the
empty id inside an array is not stripped; (3) a bridgeable object whose id is
the error marker is copied like an `Error`, with the bridgeable object it
holds. -/
theorem C7_no_reference_on_wire_counterexample :
    (¬ ∃ P : Protocol, ∃ o w,
      (makeOverlay P
        (.error (.str "Error") (.str "boom") (.str "at f") [("owner", .api "p1" [])])).2 = .ok o ∧
      stripValue P
        (.error (.str "Error") (.str "boom") (.str "at f") [("owner", .api "p1" [])]) o = .ok w ∧
      w.hasApi = false) ∧
    (¬ ∃ P : Protocol, ∃ o w, (makeOverlay P (.arr [.api "" []])).2 = .ok o ∧
      stripValue P (.arr [.api "" []]) o = .ok w ∧ w.hasApi = false) ∧
    (¬ ∃ P : Protocol, ∃ o w,
      (makeOverlay P (.api P.OVERLAY_ERROR [("child", .api "p2" [])])).2 = .ok o ∧
      stripValue P (.api P.OVERLAY_ERROR [("child", .api "p2" [])]) o = .ok w ∧
      w.hasApi = false) := by
  refine ⟨?_, ?_, ?_⟩
  · rintro ⟨P, o, w, ho, hw, ha⟩
    simp only [makeOverlay, Except.ok.injEq] at ho
    subst ho
    simp only [stripValue, if_true, stripError, readField, spreadProps, getProp] at hw
    simp at hw
    subst hw
    simp [setProp, Value.hasApi, Value.hasApiFields] at ha
  · rintro ⟨P, o, w, ho, hw, ha⟩
    have h1 : (makeOverlay P (.arr [.api "" []])).2 = .ok (.arr [.str ""]) := rfl
    rw [h1] at ho
    cases ho
    have h2 : stripValue P (.arr [.api "" []]) (.arr [.str ""]) = .ok (.arr [.api "" []]) := rfl
    rw [h2] at hw
    cases hw
    cases ha
  · rintro ⟨P, o, w, ho, hw, ha⟩
    simp only [makeOverlay, Except.ok.injEq] at ho
    subst ho
    simp only [stripValue, if_true, stripError, readField, spreadProps, getProp] at hw
    simp at hw
    subst hw
    simp [setProp, Value.hasApi, Value.hasApiFields] at ha

/-- C8, witness: stripping `[1, p1]` and `{a: p1, b: 2}`. -/
theorem C8_strip_pass_through_witness :
    (∃ ys : List Value,
      stripValue sampleProtocol (.arr [.num 1, .api "p1" []]) (.arr [.null, .str "p1"]) =
        .ok (.arr ys) ∧ ys.length = 2 ∧
      ∀ i : Nat, ((Overlay.arr [.null, .str "p1"]).child (.idx i) = none ∨
          (Overlay.arr [.null, .str "p1"]).child (.idx i) = some .null) →
        ys[i]? = [Value.num 1, Value.api "p1" []][i]?) ∧
    (∃ gs : List (String × Value),
      stripValue sampleProtocol (.obj [("a", .api "p1" []), ("b", .num 2)])
        (.obj [("a", .str "p1")]) = .ok (.obj gs) ∧
      gs.map Prod.fst = ["a", "b"] ∧
      ∀ k, ((Overlay.obj [("a", .str "p1")]).child (.key k) = none ∨
          (Overlay.obj [("a", .str "p1")]).child (.key k) = some .null) →
        getProp gs k = getProp [("a", Value.api "p1" []), ("b", Value.num 2)] k) :=
  ⟨(C8_strip_pass_through sampleProtocol).2.1 [.num 1, .api "p1" []] (.arr [.null, .str "p1"])
      (by decide) (by decide) (Or.inl (by decide)) rfl,
    (C8_strip_pass_through sampleProtocol).2.2 [("a", .api "p1" []), ("b", .num 2)]
      (.obj [("a", .str "p1")]) (by decide) (by decide) (Or.inl (by decide)) rfl⟩

/-- C9, witness: the overlays of `[1, p1]` and of `{a: 1, b: p1, c: undefined}`. -/
theorem C9_overlay_sparsity_witness :
    (∃ os, List.Forall₂ (fun x ox => (makeOverlay sampleProtocol x).2 = .ok ox)
        [.num 1, .api "p1" []] os ∧
      (Overlay.arr [.null, .str "p1"] = .null ↔ ∀ ox ∈ os, ox = Overlay.null) ∧
      (Overlay.arr [.null, .str "p1"] ≠ .null → Overlay.arr [.null, .str "p1"] = .arr os)) ∧
    (∃ ofs, List.Forall₂
        (fun f g => g.1 = f.1 ∧ (makeOverlay sampleProtocol f.2).2 = .ok g.2)
        [("a", .num 1), ("b", .api "p1" []), ("c", .undefined)] ofs ∧
      (Overlay.obj [("b", .str "p1"), ("c", .str "u")] = .null ↔
        ∀ g ∈ ofs, g.2 = Overlay.null) ∧
      (Overlay.obj [("b", .str "p1"), ("c", .str "u")] ≠ .null →
        Overlay.obj [("b", .str "p1"), ("c", .str "u")] =
          .obj (ofs.filter fun g => !g.2.isNull))) :=
  ⟨(C9_overlay_sparsity sampleProtocol).1 [.num 1, .api "p1" []] (.arr [.null, .str "p1"]) rfl,
    (C9_overlay_sparsity sampleProtocol).2
      [("a", .num 1), ("b", .api "p1" []), ("c", .undefined)]
      (.obj [("b", .str "p1"), ("c", .str "u")]) (by decide) rfl⟩

/-- C10, witness: on `[b, b]`, where `b` has a bridgeable child, the visitor is
called twice with `b` and never with the child. -/
theorem C10_reference_leaves_witness :
    (makeOverlay sampleProtocol
      (.arr [.api "p1" [("child", .api "p2" [])], .api "p1" [("child", .api "p2" [])]])).1 =
      [.api "p1" [("child", .api "p2" [])], .api "p1" [("child", .api "p2" [])]] :=
  (C10_reference_leaves sampleProtocol
    (.arr [.api "p1" [("child", .api "p2" [])], .api "p1" [("child", .api "p2" [])]])).2.2
    (.arr [.str "p1", .str "p1"]) rfl

theorem applyArr_get (P : Protocol) (t : List (String × Nat)) :
    ∀ (xs : List Value) (ov : List Overlay) (ys : List Value),
      applyArr P t xs ov = .ok ys →
      ∀ (i : Nat) (c : Overlay) (y : Value), ov[i]? = some c → c.truthy = true →
        ys[i]? = some y → ∃ x, applyOverlay P t x c = .ok y := by
  intro xs
  induction xs with
  | nil =>
    intro ov ys h i c y _ _ hy
    simp only [applyArr, Except.ok.injEq] at h
    subst h
    simp at hy
  | cons x rest ih =>
    intro ov ys h i c y hc ht hy
    simp only [applyArr] at h
    split at h
    · cases h
    · rename_i y0 hy0
      split at h
      · cases h
      · rename_i ys2 hys2
        simp only [Except.ok.injEq] at h
        subst h
        cases ov with
        | nil => simp at hc
        | cons o os =>
          cases i with
          | zero =>
            simp only [List.getElem?_cons_zero, Option.some.injEq] at hc hy
            subst hc hy
            simp only [List.head?_cons, usable_some, ht, if_true] at hy0
            exact ⟨x, hy0⟩
          | succ j =>
            simp only [List.getElem?_cons_succ] at hc hy
            exact ih os ys2 hys2 j c y hc ht hy

theorem applyObj_get (P : Protocol) (t : List (String × Nat)) :
    ∀ (fs : List (String × Value)) (ov : List (String × Overlay))
      (gs : List (String × Value)), applyObj P t fs ov = .ok gs →
      ∀ (k : String) (c : Overlay) (y : Value), getProp ov k = some c → c.truthy = true →
        getProp gs k = some y → ∃ x, applyOverlay P t x c = .ok y := by
  intro fs
  induction fs with
  | nil =>
    intro ov gs h k c y _ _ hy
    simp only [applyObj, Except.ok.injEq] at h
    subst h
    simp [getProp] at hy
  | cons f rest ih =>
    obtain ⟨name, x⟩ := f
    intro ov gs h k c y hc ht hy
    simp only [applyObj] at h
    split at h
    · cases h
    · rename_i y0 hy0
      split at h
      · cases h
      · rename_i gs2 hgs2
        simp only [Except.ok.injEq] at h
        subst h
        by_cases hname : name = k
        · subst hname
          simp only [getProp, if_true, Option.some.injEq] at hy
          subst hy
          rw [hc] at hy0
          simp only [usable_some, ht, if_true] at hy0
          exact ⟨x, hy0⟩
        · simp only [getProp, hname, if_false] at hy
          exact ih ov gs2 hgs2 k c y hc ht hy

theorem applyIdx_get (P : Protocol) (t : List (String × Nat)) :
    ∀ (xs : List Value) (i : Nat) (ov : List (String × Overlay))
      (gs : List (String × Value)), applyIdx P t xs i ov = .ok gs →
      ∀ (k : String) (c : Overlay) (y : Value), getProp ov k = some c → c.truthy = true →
        getProp gs k = some y → ∃ x, applyOverlay P t x c = .ok y := by
  intro xs
  induction xs with
  | nil =>
    intro i ov gs h k c y _ _ hy
    simp only [applyIdx, Except.ok.injEq] at h
    subst h
    simp [getProp] at hy
  | cons x rest ih =>
    intro i ov gs h k c y hc ht hy
    simp only [applyIdx] at h
    split at h
    · cases h
    · rename_i y0 hy0
      split at h
      · cases h
      · rename_i gs2 hgs2
        simp only [Except.ok.injEq] at h
        subst h
        by_cases hname : toString i = k
        · subst hname
          simp only [getProp, if_true, Option.some.injEq] at hy
          subst hy
          rw [hc] at hy0
          simp only [usable_some, ht, if_true] at hy0
          exact ⟨x, hy0⟩
        · simp only [getProp, hname, if_false] at hy
          exact ih (i + 1) ov gs2 hgs2 k c y hc ht hy

theorem truthy_of_atPath (c : Overlay) (p : List Step) (id : String) (hid : id ≠ "")
    (h : c.atPath p = some (.str id)) : c.truthy = true := by
  cases p with
  | nil =>
    simp only [Overlay.atPath, Option.some.injEq] at h
    subst h
    simpa [Overlay.truthy] using hid
  | cons s p2 =>
    cases c with
    | null => cases s <;> simp [Overlay.atPath, Overlay.child] at h
    | str _ => cases s <;> simp [Overlay.atPath, Overlay.child] at h
    | arr _ => rfl
    | obj _ => rfl

/-- The child of the result of `applyOverlay` at a step where the overlay has a
truthy child is the result of `applyOverlay` on that child. -/
theorem applyOverlay_child (P : Protocol) (t : List (String × Nat)) (v : Value) (o : Overlay)
    (out : Value) (h : applyOverlay P t v o = .ok out) (s : Step) (c : Overlay) (y : Value)
    (hc : o.child s = some c) (ht : c.truthy = true) (hy : out.child s = some y) :
    ∃ x, applyOverlay P t x c = .ok y := by
  cases o with
  | null => cases s <;> simp [Overlay.child] at hc
  | str _ => cases s <;> simp [Overlay.child] at hc
  | arr os =>
    cases s with
    | key k => simp [Overlay.child] at hc
    | idx i =>
      simp only [Overlay.child] at hc
      cases v with
      | arr xs =>
        simp only [applyOverlay] at h
        split at h
        · rename_i ys hys
          simp only [Except.ok.injEq] at h
          subst h
          exact applyArr_get P t xs os ys hys i c y hc ht (by simpa [Value.child] using hy)
        · cases h
      | undefined => simp [applyOverlay] at h
      | null => simp [applyOverlay] at h
      | proxy _ => simp [applyOverlay] at h
      | func _ => simp [applyOverlay] at h
      | bool _ => simp [applyOverlay] at h; subst h; simp [Value.child] at hy
      | num _ => simp [applyOverlay] at h; subst h; simp [Value.child] at hy
      | symbol => simp [applyOverlay] at h; subst h; simp [Value.child] at hy
      | str _ =>
        simp only [applyOverlay] at h
        split at h
        · simp only [Except.ok.injEq] at h; subst h; simp [Value.child] at hy
        · cases h
      | obj _ =>
        simp only [applyOverlay] at h
        split at h
        · simp only [Except.ok.injEq] at h; subst h; simp [Value.child] at hy
        · cases h
      | api _ _ =>
        simp only [applyOverlay] at h
        split at h
        · simp only [Except.ok.injEq] at h; subst h; simp [Value.child] at hy
        · cases h
      | error _ _ _ _ =>
        simp only [applyOverlay] at h
        split at h
        · simp only [Except.ok.injEq] at h; subst h; simp [Value.child] at hy
        · cases h
  | obj ofs =>
    cases s with
    | idx i => simp [Overlay.child] at hc
    | key k =>
      simp only [Overlay.child] at hc
      cases v with
      | arr xs =>
        simp only [applyOverlay] at h
        split at h
        · rename_i gs hgs
          simp only [Except.ok.injEq] at h
          subst h
          exact applyIdx_get P t xs 0 ofs gs hgs k c y hc ht (by simpa [Value.child] using hy)
        · cases h
      | obj fs =>
        simp only [applyOverlay] at h
        split at h
        · rename_i gs hgs
          simp only [Except.ok.injEq] at h
          subst h
          exact applyObj_get P t fs ofs gs hgs k c y hc ht (by simpa [Value.child] using hy)
        · cases h
      | api _ fs =>
        simp only [applyOverlay] at h
        split at h
        · rename_i gs hgs
          simp only [Except.ok.injEq] at h
          subst h
          exact applyObj_get P t fs ofs gs hgs k c y hc ht (by simpa [Value.child] using hy)
        · cases h
      | undefined => simp [applyOverlay] at h; subst h; simp [Value.child, getProp] at hy
      | null => simp [applyOverlay] at h; subst h; simp [Value.child, getProp] at hy
      | bool _ => simp [applyOverlay] at h; subst h; simp [Value.child, getProp] at hy
      | num _ => simp [applyOverlay] at h; subst h; simp [Value.child, getProp] at hy
      | symbol => simp [applyOverlay] at h; subst h; simp [Value.child, getProp] at hy
      | str _ =>
        simp only [applyOverlay] at h
        split at h
        · simp only [Except.ok.injEq] at h; subst h; simp [Value.child, getProp] at hy
        · cases h
      | proxy _ => simp [applyOverlay] at h
      | func _ => simp [applyOverlay] at h
      | error _ _ _ _ => simp [applyOverlay] at h

theorem applyOverlay_atPath (P : Protocol) (t : List (String × Nat)) (id : String)
    (h0 : id ≠ "") (hD : id ≠ P.DELETED_PROXY_ID) (he : id ≠ "e") :
    ∀ (p : List Step) (v : Value) (o : Overlay) (out x : Value),
      applyOverlay P t v o = .ok out → o.atPath p = some (.str id) →
      out.atPath p = some x → x = lookupProxy t id := by
  intro p
  induction p with
  | nil =>
    intro v o out x h ho hx
    simp only [Overlay.atPath, Option.some.injEq] at ho
    simp only [Value.atPath, Option.some.injEq] at hx
    subst ho hx
    rw [applyOverlay, if_neg hD, if_neg he] at h
    split at h
    · cases h
    · simpa using h.symm
  | cons s p2 ih =>
    intro v o out x h ho hx
    simp only [Overlay.atPath] at ho
    simp only [Value.atPath] at hx
    split at ho
    · rename_i c hc
      split at hx
      · rename_i y hy
        obtain ⟨x2, hx2⟩ := applyOverlay_child P t v o out h s c y hc
          (truthy_of_atPath c p2 id h0 ho) hy
        exact ih x2 c y x hx2 ho hx
      · cases hx
    · cases ho

/-- C2 (amended). Identity preservation: when the client's `applyOverlay`
returns `out`, any two positions of the overlay that carry the same proxy id (a
non-empty string other than `DELETED_PROXY_ID` and `'e'`) and that exist in
`out` hold the same proxy instance there, namely the entry of the proxy table
under that id. -/
theorem C2_identity_preservation (P : Protocol) (proxies : List (String × Nat))
    (v : Value) (o : Overlay) (out : Value) (p q : List Step) (id : String) (x y : Value)
    (h0 : id ≠ "") (hD : id ≠ P.DELETED_PROXY_ID) (he : id ≠ "e")
    (hout : applyOverlay P proxies v o = .ok out)
    (hp : o.atPath p = some (.str id)) (hq : o.atPath q = some (.str id))
    (hx : out.atPath p = some x) (hy : out.atPath q = some y) :
    x = y ∧ x = lookupProxy proxies id := by
  have h1 := applyOverlay_atPath P proxies id h0 hD he p v o out x hout hp hx
  have h2 := applyOverlay_atPath P proxies id h0 hD he q v o out y hout hq hy
  exact ⟨h1.trans h2.symm, h1⟩

/-- C2, witness: with the overlay `['p1', {a: 'p1'}]` the positions `[0]` and
`[1].a` of the result hold the same proxy. -/
theorem C2_identity_preservation_witness :
    Value.proxy 0 = Value.proxy 0 ∧ Value.proxy 0 = lookupProxy [("p1", 0)] "p1" :=
  C2_identity_preservation sampleProtocol [("p1", 0)]
    (.arr [.null, .obj [("a", .null)]]) (.arr [.str "p1", .obj [("a", .str "p1")]])
    (.arr [.proxy 0, .obj [("a", .proxy 0)]]) [.idx 0] [.idx 1, .key "a"] "p1"
    (.proxy 0) (.proxy 0) (by decide) (by decide) (by decide) rfl rfl rfl rfl rfl

/-- C2, counterexample: whatever the constants of the protocol are, (1) with
the overlay `['p1', 'p1']` and the raw value `[null]` the result has one
element, so `out[0]` and `out[1]` differ; (2) with the overlay `['e']` the
element of the result is not the proxy stored under `'e'`. -/
theorem C2_identity_preservation_counterexample :
    (¬ ∃ P : Protocol, ∃ out : Value,
      applyOverlay P [("p1", 0)] (.arr [.null]) (.arr [.str "p1", .str "p1"]) = .ok out ∧
      (out.child (.idx 0)).getD .undefined = (out.child (.idx 1)).getD .undefined) ∧
    (¬ ∃ P : Protocol, ∃ out : Value,
      applyOverlay P [("e", 0)] (.arr [.obj []]) (.arr [.str "e"]) = .ok out ∧
      out.child (.idx 0) = some (lookupProxy [("e", 0)] "e")) := by
  constructor
  · rintro ⟨P, out, h, heq⟩
    have hu : usable (some (Overlay.str "p1")) = some (Overlay.str "p1") := rfl
    obtain ⟨y, hy, hy2⟩ : ∃ y, applyOverlay P [("p1", 0)] .null (.str "p1") = .ok y ∧
        y ≠ .undefined := by
      by_cases hD : "p1" = P.DELETED_PROXY_ID
      · exact ⟨.null, by rw [applyOverlay, if_pos hD], by simp⟩
      · exact ⟨.proxy 0, by rw [applyOverlay, if_neg hD, if_neg (by decide)]; rfl, by simp⟩
    rw [applyOverlay, applyArr] at h
    simp only [List.head?_cons, hu] at h
    rw [hy] at h
    simp only [List.tail_cons, applyArr, Except.ok.injEq] at h
    subst h
    simp only [Value.child, List.getElem?_cons_zero, Option.getD_some, List.getElem?_cons_succ,
      List.getElem?_nil, Option.getD_none] at heq
    exact hy2 heq
  · rintro ⟨P, out, h, heq⟩
    have hu : usable (some (Overlay.str "e")) = some (Overlay.str "e") := rfl
    obtain ⟨y, hy, hy2⟩ : ∃ y, applyOverlay P [("e", 0)] (.obj []) (.str "e") = .ok y ∧
        y ≠ .proxy 0 := by
      by_cases hD : "e" = P.DELETED_PROXY_ID
      · exact ⟨.null, by rw [applyOverlay, if_pos hD], by simp⟩
      · exact ⟨.error .undefined .undefined .undefined [],
          by rw [applyOverlay, if_neg hD, if_pos rfl]; rfl, by simp⟩
    rw [applyOverlay, applyArr] at h
    simp only [List.head?_cons, hu] at h
    rw [hy] at h
    simp only [List.tail_cons, applyArr, Except.ok.injEq] at h
    subst h
    simp only [Value.child, List.getElem?_cons_zero, Option.some.injEq] at heq
    exact hy2 heq

theorem getProp_setProp {κ α : Type} [DecidableEq κ] (fs : List (κ × α)) (k k2 : κ) (v : α) :
    getProp (setProp fs k v) k2 = if k = k2 then some v else getProp fs k2 := by
  induction fs with
  | nil => simp [setProp, getProp]
  | cons p rest ih =>
    obtain ⟨k3, v3⟩ := p
    by_cases h3 : k3 = k
    · subst h3
      by_cases h32 : k3 = k2 <;> simp [setProp, getProp, h32]
    · by_cases h32 : k3 = k2
      · subst h32
        have : ¬ k = k3 := fun e => h3 e.symm
        simp [setProp, getProp, h3, this]
      · simp [setProp, getProp, h3, h32, ih]

theorem getProp_delProp {κ α : Type} [DecidableEq κ] (fs : List (κ × α)) (k k2 : κ) :
    getProp (delProp fs k) k2 = if k = k2 then none else getProp fs k2 := by
  induction fs with
  | nil => simp [delProp, getProp]
  | cons p rest ih =>
    obtain ⟨k3, v3⟩ := p
    by_cases h3 : k3 = k
    · subst h3
      simp only [delProp, if_true]
      rw [ih]
      by_cases h32 : k3 = k2 <;> simp [getProp, h32]
    · by_cases h32 : k3 = k2
      · subst h32
        have : ¬ k = k3 := fun e => h3 e.symm
        simp [delProp, getProp, h3, this]
      · simp [delProp, getProp, h3, h32, ih]

theorem SameCalls.refl (st : Client) : SameCalls st st := ⟨rfl, rfl, rfl, rfl⟩

theorem SameCalls.trans {a b c : Client} (h1 : SameCalls a b) (h2 : SameCalls b c) :
    SameCalls a c :=
  ⟨h2.1.trans h1.1, h2.2.1.trans h1.2.1, h2.2.2.1.trans h1.2.2.1, h2.2.2.2.trans h1.2.2.2⟩

theorem createProxies_sameCalls (creates : List CreateRecord) :
    ∀ st : Client, SameCalls st (createProxies st creates) := by
  induction creates with
  | nil => intro st; exact SameCalls.refl st
  | cons r rest ih =>
    intro st
    simp only [createProxies]
    exact SameCalls.trans ⟨rfl, rfl, rfl, rfl⟩ (ih _)

theorem assignProps_sameCalls (proxyId : String) (props : List (String × Value)) :
    ∀ st : Client, SameCalls st (assignProps st proxyId props).1 := by
  induction props with
  | nil => intro st; exact SameCalls.refl st
  | cons p rest ih =>
    obtain ⟨name, v⟩ := p
    intro st
    simp only [assignProps]
    split
    · exact SameCalls.refl st
    · exact SameCalls.trans ⟨rfl, rfl, rfl, rfl⟩ (ih _)

theorem fillProxies_sameCalls (P : Protocol) (creates : List CreateRecord) :
    ∀ st : Client, SameCalls st (fillProxies P st creates).1 := by
  induction creates with
  | nil => intro st; exact SameCalls.refl st
  | cons r rest ih =>
    intro st
    simp only [fillProxies]
    split
    · exact SameCalls.refl st
    · split
      · exact SameCalls.refl st
      · rename_i props _
        have h := assignProps_sameCalls r.proxyId props st
        revert h
        rcases assignProps st r.proxyId props with ⟨st1, e | _⟩
        · exact fun h => h
        · exact fun h => SameCalls.trans h (ih st1)

theorem handleCreates_sameCalls (P : Protocol) (st : Client)
    (creates : Option (List CreateRecord)) :
    SameCalls st (handleCreates P st creates).1 := by
  cases creates with
  | none => exact SameCalls.refl st
  | some cs =>
    exact SameCalls.trans (createProxies_sameCalls cs st) (fillProxies_sameCalls P cs _)

theorem handleDeletes_sameCalls (st : Client) (deletes : Option (List String)) :
    SameCalls st (handleDeletes st deletes) := by
  cases deletes with
  | none => exact SameCalls.refl st
  | some ds => exact ⟨rfl, rfl, rfl, rfl⟩

theorem proxyOn_sameCalls (st : Client) (a : Nat) (name callback : Value) :
    SameCalls st (proxyOn st a name callback).1 := by
  cases name with
  | str s =>
    simp only [proxyOn]
    split
    · exact ⟨rfl, rfl, rfl, rfl⟩
    · exact SameCalls.refl st
  | _ => exact SameCalls.refl st

theorem handleRoot_sameCalls (P : Protocol) (st : Client) (root : Option RootRecord) :
    SameCalls st (handleRoot P st root).1 := by
  cases root with
  | none => exact SameCalls.refl st
  | some r =>
    simp only [handleRoot]
    split
    · exact SameCalls.refl st
    · exact ⟨rfl, rfl, rfl, rfl⟩

theorem stable_invoke {Q : Client → Prop} (hQ : CallStable Q) (st : Client) (f : Value)
    (args : List Value) (h : Q st) : Q (invoke st f args).1 := by
  cases f with
  | func g =>
    rcases g with ⟨p, m, t⟩ | a | tag
    · exact hQ.call st p m t args h
    · exact hQ.same st _ (proxyOn_sameCalls st a _ _) h
    · exact hQ.same st _ ⟨rfl, rfl, rfl, rfl⟩ h
  | _ => exact h

theorem stable_handleUpdate {Q : Client → Prop} (hQ : CallStable Q) (P : Protocol)
    (st : Client) (u : UpdateRecord) (h : Q st) : Q (handleUpdate P st u).1 := by
  simp only [handleUpdate]
  rcases applyOverlay P st.proxies u.value u.overlay with e | v
  · exact h
  · rcases getProp st.proxies u.proxyId with _ | a
    · simp only
      split <;> exact h
    · have h1 : Q { st with heap := heapSet st.heap a u.name v } :=
        hQ.same st _ ⟨rfl, rfl, rfl, rfl⟩ h
      simp only
      split
      · exact h1
      · split
        · exact stable_invoke hQ _ _ _ h1
        · exact h1

theorem stable_handleUpdateList {Q : Client → Prop} (hQ : CallStable Q) (P : Protocol)
    (updates : List UpdateRecord) :
    ∀ st : Client, Q st → Q (handleUpdateList P st updates).1 := by
  induction updates with
  | nil => intro st h; exact h
  | cons u rest ih =>
    intro st h
    have h1 := stable_handleUpdate hQ P st u h
    simp only [handleUpdateList]
    revert h1
    rcases handleUpdate P st u with ⟨st1, e | _⟩
    · exact fun h1 => h1
    · exact fun h1 => ih st1 h1

theorem stable_handleUpdates {Q : Client → Prop} (hQ : CallStable Q) (P : Protocol)
    (st : Client) (updates : Option (List UpdateRecord)) (h : Q st) :
    Q (handleUpdates P st updates).1 := by
  cases updates with
  | none => exact h
  | some us => exact stable_handleUpdateList hQ P us st h

theorem stable_handleReturn {Q : Client → Prop} (hQ : CallStable Q) (P : Protocol)
    (st : Client) (ret : Option ReturnRecord) (h : Q st) : Q (handleReturn P st ret).1 := by
  cases ret with
  | none => exact h
  | some r =>
    simp only [handleReturn]
    rcases applyOverlay P st.proxies r.value r.overlay with e | v
    · exact h
    · rcases hid : getProp st.pendingCalls r.callId with _ | id
      · exact h
      · exact hQ.ret st r.callId id _ hid h

theorem stable_handleMessage {Q : Client → Prop} (hQ : CallStable Q) (P : Protocol)
    (st : Client) (m : Message) (h : Q st) : Q (handleMessage P st m).1 := by
  have h1 : Q (handleCreates P st m.creates).1 :=
    hQ.same _ _ (handleCreates_sameCalls P st m.creates) h
  simp only [handleMessage]
  revert h1
  rcases handleCreates P st m.creates with ⟨st1, e | _⟩
  · exact fun h1 => h1
  · intro h1
    have h2 : Q (handleUpdates P (handleDeletes st1 m.deletes) m.updates).1 :=
      stable_handleUpdates hQ P _ _ (hQ.same _ _ (handleDeletes_sameCalls st1 m.deletes) h1)
    simp only
    revert h2
    rcases handleUpdates P (handleDeletes st1 m.deletes) m.updates with ⟨st2, e | _⟩
    · exact fun h2 => h2
    · intro h2
      have h3 := stable_handleReturn hQ P st2 m.ret h2
      simp only
      revert h3
      rcases handleReturn P st2 m.ret with ⟨st3, e | _⟩
      · exact fun h3 => h3
      · exact fun h3 => hQ.same _ _ (handleRoot_sameCalls P st3 m.root) h3

theorem stable_step {Q : Client → Prop} (hQ : CallStable Q) (P : Protocol) (st : Client)
    (op : Op) (h : Q st) : Q (step P st op) := by
  cases op with
  | message m => exact stable_handleMessage hQ P st m h
  | call p m t ps => exact hQ.call st p m t ps h
  | _ => exact hQ.same st _ (proxyOn_sameCalls st _ _ _) h

theorem stable_run {Q : Client → Prop} (hQ : CallStable Q) (P : Protocol) (ops : List Op) :
    ∀ st : Client, Q st → Q (run P st ops) := by
  induction ops with
  | nil => intro st h; exact h
  | cons op rest ih => intro st h; exact ih _ (stable_step hQ P st op h)

theorem settle_get_ne (ps : List Promise) (id i : Nat) (val : Promise) (h : i ≠ id) :
    (settle ps id val)[i]? = ps[i]? := by
  simp only [settle]
  split
  · exact List.getElem?_set_ne (fun e => h e.symm)
  · rfl

theorem settle_get_pending (ps : List Promise) (id : Nat) (val : Promise)
    (h : ps[id]? = some Promise.pending) : (settle ps id val)[id]? = some val := by
  simp only [settle, h]
  exact List.getElem?_set_self (List.getElem?_eq_some.1 h).1

theorem settle_get_settled (ps : List Promise) (id id2 : Nat) (val val2 : Promise)
    (h : ps[id]? = some val) (hv : val ≠ Promise.pending) :
    (settle ps id2 val2)[id]? = some val := by
  by_cases hid : id = id2
  · subst hid
    simp only [settle, h]
    cases val with
    | pending => exact absurd rfl hv
    | resolved _ => exact h
    | rejected _ => exact h
  · rw [settle_get_ne ps id2 id val2 hid, h]

theorem makeMethod_eq_of_some (st : Client) (proxyId method type : String)
    (params : List Value) (a : Nat) (h : getProp st.proxies proxyId = some a) :
    makeMethod st proxyId method type params =
      ({ st with
          lastCallId := st.lastCallId + 1
          sent := st.sent ++ [{ proxyId := proxyId, callId := st.lastCallId + 1,
                                method := method, params := params }]
          promises := st.promises ++ [Promise.pending]
          pendingCalls := setProp st.pendingCalls (st.lastCallId + 1) st.promises.length },
        .promise st.promises.length) := by
  simp only [makeMethod, h]

theorem makeMethod_eq_of_none (st : Client) (proxyId method type : String)
    (params : List Value) (h : getProp st.proxies proxyId = none)
    (hin : inherits proxyId = false) :
    makeMethod st proxyId method type params =
      (st, .rejected ("Calling method '" ++ method ++ "' on deleted object '" ++ type ++ "'")) := by
  simp only [makeMethod, h, hin]

/-- Without own entry under an id that names a member of `Object.prototype`,
the test `!proxies[proxyId]` fails and the call is sent. -/
theorem makeMethod_eq_of_inherited (st : Client) (proxyId method type : String)
    (params : List Value) (hin : inherits proxyId = true) :
    makeMethod st proxyId method type params =
      ({ st with
          lastCallId := st.lastCallId + 1
          sent := st.sent ++ [{ proxyId := proxyId, callId := st.lastCallId + 1,
                                method := method, params := params }]
          promises := st.promises ++ [Promise.pending]
          pendingCalls := setProp st.pendingCalls (st.lastCallId + 1) st.promises.length },
        .promise st.promises.length) := by
  simp only [makeMethod, hin]
  rcases getProp st.proxies proxyId with _ | a <;> rfl

theorem makeMethod_cases (st : Client) (proxyId method type : String)
    (params : List Value) :
    makeMethod st proxyId method type params =
      (st, .rejected ("Calling method '" ++ method ++ "' on deleted object '" ++ type ++ "'")) ∨
    makeMethod st proxyId method type params =
      ({ st with
          lastCallId := st.lastCallId + 1
          sent := st.sent ++ [{ proxyId := proxyId, callId := st.lastCallId + 1,
                                method := method, params := params }]
          promises := st.promises ++ [Promise.pending]
          pendingCalls := setProp st.pendingCalls (st.lastCallId + 1) st.promises.length },
        .promise st.promises.length) := by
  rcases hp : getProp st.proxies proxyId with _ | a
  · rcases hin : inherits proxyId with _ | _
    · exact Or.inl (makeMethod_eq_of_none st _ _ _ _ hp hin)
    · exact Or.inr (makeMethod_eq_of_inherited st _ _ _ _ hin)
  · exact Or.inr (makeMethod_eq_of_some st _ _ _ _ a hp)

theorem callsOk_init : CallsOk Client.init :=
  ⟨rfl, fun c id h => by simp [Client.init, getProp] at h,
    fun c id h => by simp [Client.init, getProp] at h,
    fun c c2 id h => by simp [Client.init, getProp] at h⟩

theorem callsOk_stable : CallStable CallsOk := by
  refine ⟨?_, ?_, ?_⟩
  · rintro st st2 ⟨h1, h2, h3, h4⟩ ⟨a, b, c, d⟩
    exact ⟨by rw [h1, h2]; exact a, by rw [h1, h3]; exact b, by rw [h3, h4]; exact c,
      by rw [h3]; exact d⟩
  · intro st proxyId method type params h
    rcases makeMethod_cases st proxyId method type params with hm | hm
    · rw [hm]; exact h
    · rw [hm]
      obtain ⟨h1, h2, h3, h4⟩ := h
      refine ⟨?_, ?_, ?_, ?_⟩
      · simp only [List.map_append, List.map_cons, List.map_nil, h1]
        rw [List.range'_1_concat, Nat.add_comm 1]
      · intro c id hc
        simp only [getProp_setProp] at hc
        split at hc
        · rename_i e; subst e; exact Nat.le_refl _
        · exact Nat.le_succ_of_le (h2 c id hc)
      · intro c id hc
        simp only [getProp_setProp] at hc
        split at hc
        · simp only [Option.some.injEq] at hc
          subst hc
          simp
        · have := h3 c id hc
          rw [List.getElem?_append_left (List.getElem?_eq_some.1 this).1]
          exact this
      · intro c c2 id hc hc2
        simp only [getProp_setProp] at hc hc2
        split at hc <;> split at hc2
        · rename_i e1 e2; exact e1.symm.trans e2
        · simp only [Option.some.injEq] at hc
          subst hc
          have := (List.getElem?_eq_some.1 (h3 c2 _ hc2)).1
          exact absurd this (Nat.lt_irrefl _)
        · simp only [Option.some.injEq] at hc2
          subst hc2
          have := (List.getElem?_eq_some.1 (h3 c _ hc)).1
          exact absurd this (Nat.lt_irrefl _)
        · exact h4 c c2 id hc hc2
  · intro st c id val hc h
    obtain ⟨h1, h2, h3, h4⟩ := h
    refine ⟨h1, ?_, ?_, ?_⟩
    · intro c2 id2 hc2
      simp only [getProp_delProp] at hc2
      split at hc2
      · cases hc2
      · exact h2 c2 id2 hc2
    · intro c2 id2 hc2
      simp only [getProp_delProp] at hc2
      split at hc2
      · cases hc2
      · rename_i hne
        have hid : id2 ≠ id := fun e => hne (h4 c c2 id hc (e ▸ hc2))
        simp only []
        rw [settle_get_ne _ _ _ _ hid]
        exact h3 c2 id2 hc2
    · intro c2 c3 id2 hc2 hc3
      simp only [getProp_delProp] at hc2 hc3
      split at hc2
      · cases hc2
      · split at hc3
        · cases hc3
        · exact h4 c2 c3 id2 hc2 hc3

theorem settled_stable (c id : Nat) (val : Promise) : CallStable (Settled c id val) := by
  refine ⟨?_, ?_, ?_⟩
  · rintro st st2 ⟨h1, _, h3, h4⟩ ⟨a, b, d, e⟩
    exact ⟨by rw [h1]; exact a, by rw [h3]; exact b, by rw [h4]; exact d, e⟩
  · intro st proxyId method type params h
    rcases makeMethod_cases st proxyId method type params with hm | hm
    · rw [hm]; exact h
    · rw [hm]
      obtain ⟨h1, h2, h3, h4⟩ := h
      refine ⟨Nat.le_succ_of_le h1, ?_, ?_, h4⟩
      · simp only [getProp_setProp]
        have : ¬ st.lastCallId + 1 = c := by omega
        simp [this, h2]
      · simp only []
        rw [List.getElem?_append_left (List.getElem?_eq_some.1 h3).1]
        exact h3
  · intro st c2 id2 val2 _ h
    obtain ⟨h1, h2, h3, h4⟩ := h
    refine ⟨h1, ?_, settle_get_settled _ _ _ _ _ h3 h4, h4⟩
    simp only [getProp_delProp]
    split
    · rfl
    · exact h2

theorem callsOk_run (P : Protocol) (ops : List Op) : CallsOk (run P Client.init ops) :=
  stable_run callsOk_stable P ops Client.init callsOk_init

/-- C4. Call dispatch: in a state reached by any run of the client, calling a
method of a proxy whose id is in the proxy table sends exactly one call record,
carrying the proxy id, the new call id, the method name and the arguments as
given; the call ids sent so far, this one included, are `1, 2, ..., n + 1` in
this order (so the new id exceeds all earlier ones and the first is `1`); the
call id was not pending before, and afterwards the pending calls are the former
ones plus the new id, which holds a new pending promise, returned to the
caller. -/
theorem C4_call_dispatch (P : Protocol) (ops : List Op) (proxyId method type : String)
    (params : List Value) (a : Nat)
    (h : getProp (run P Client.init ops).proxies proxyId = some a) :
    (makeMethod (run P Client.init ops) proxyId method type params).1.sent =
        (run P Client.init ops).sent ++
          [{ proxyId := proxyId, callId := (run P Client.init ops).lastCallId + 1,
             method := method, params := params }] ∧
      (makeMethod (run P Client.init ops) proxyId method type params).1.lastCallId =
        (run P Client.init ops).lastCallId + 1 ∧
      (∀ r ∈ (run P Client.init ops).sent,
        r.callId < (run P Client.init ops).lastCallId + 1) ∧
      (makeMethod (run P Client.init ops) proxyId method type params).1.sent.map
          (fun r => r.callId) =
        List.range' 1 ((run P Client.init ops).lastCallId + 1) ∧
      getProp (run P Client.init ops).pendingCalls
        ((run P Client.init ops).lastCallId + 1) = none ∧
      (∀ c, getProp
          (makeMethod (run P Client.init ops) proxyId method type params).1.pendingCalls c =
        if (run P Client.init ops).lastCallId + 1 = c
        then some (run P Client.init ops).promises.length
        else getProp (run P Client.init ops).pendingCalls c) ∧
      (makeMethod (run P Client.init ops) proxyId method type params).1.promises =
        (run P Client.init ops).promises ++ [Promise.pending] ∧
      (makeMethod (run P Client.init ops) proxyId method type params).2 =
        .promise (run P Client.init ops).promises.length := by
  have hok := callsOk_run P ops
  have hok2 := callsOk_stable.call _ proxyId method type params hok
  rw [makeMethod_eq_of_some _ _ _ _ _ a h] at hok2 ⊢
  refine ⟨rfl, rfl, ?_, hok2.sent_ids, ?_, ?_, rfl, rfl⟩
  · intro r hr
    have hmem : r.callId ∈ List.range' 1 (run P Client.init ops).lastCallId := by
      rw [← hok.sent_ids]
      exact List.mem_map.2 ⟨r, hr, rfl⟩
    have := (List.mem_range'_1.1 hmem).2
    omega
  · rcases hg : getProp (run P Client.init ops).pendingCalls
        ((run P Client.init ops).lastCallId + 1) with _ | id
    · rfl
    · have := hok.pending_le _ _ hg
      omega
  · intro c
    simp only [getProp_setProp]

theorem foldl_delProp_none (ds : List String) :
    ∀ t : List (String × Nat), ∀ id, getProp t id = none →
      getProp (ds.foldl delProp t) id = none := by
  induction ds with
  | nil => intro t id h; exact h
  | cons d rest ih =>
    intro t id h
    simp only [List.foldl_cons]
    apply ih
    rw [getProp_delProp]
    split
    · rfl
    · exact h

theorem foldl_delProp_mem (ds : List String) :
    ∀ t : List (String × Nat), ∀ id ∈ ds, getProp (ds.foldl delProp t) id = none := by
  induction ds with
  | nil => intro t id h; cases h
  | cons d rest ih =>
    intro t id h
    simp only [List.foldl_cons]
    rcases List.mem_cons.1 h with rfl | h
    · apply foldl_delProp_none
      simp [getProp_delProp]
    · exact ih _ id h

theorem makeMethod_proxies (st : Client) (proxyId method type : String)
    (params : List Value) :
    (makeMethod st proxyId method type params).1.proxies = st.proxies := by
  simp only [makeMethod]
  split <;> rfl

theorem proxyOn_proxies (st : Client) (a : Nat) (name callback : Value) :
    (proxyOn st a name callback).1.proxies = st.proxies := by
  cases name with
  | str s =>
    simp only [proxyOn]
    split <;> rfl
  | _ => rfl

theorem invoke_proxies (st : Client) (f : Value) (args : List Value) :
    (invoke st f args).1.proxies = st.proxies := by
  cases f with
  | func g =>
    rcases g with ⟨p, m, t⟩ | a | tag
    · exact makeMethod_proxies st p m t args
    · exact proxyOn_proxies st a _ _
    · rfl
  | _ => rfl

theorem handleUpdate_proxies (P : Protocol) (st : Client) (u : UpdateRecord) :
    (handleUpdate P st u).1.proxies = st.proxies := by
  simp only [handleUpdate]
  rcases applyOverlay P st.proxies u.value u.overlay with e | v
  · rfl
  · rcases getProp st.proxies u.proxyId with _ | a
    · simp only
      split <;> rfl
    · simp only
      split
      · rfl
      · split
        · rw [invoke_proxies]
        · rfl

theorem handleUpdateList_proxies (P : Protocol) (updates : List UpdateRecord) :
    ∀ st : Client, (handleUpdateList P st updates).1.proxies = st.proxies := by
  induction updates with
  | nil => intro st; rfl
  | cons u rest ih =>
    intro st
    have h1 := handleUpdate_proxies P st u
    simp only [handleUpdateList]
    revert h1
    rcases handleUpdate P st u with ⟨st1, e | _⟩
    · exact fun h1 => h1
    · exact fun h1 => (ih st1).trans h1

theorem handleUpdates_proxies (P : Protocol) (st : Client)
    (updates : Option (List UpdateRecord)) :
    (handleUpdates P st updates).1.proxies = st.proxies := by
  cases updates with
  | none => rfl
  | some us => exact handleUpdateList_proxies P us st

theorem handleReturn_proxies (P : Protocol) (st : Client) (ret : Option ReturnRecord) :
    (handleReturn P st ret).1.proxies = st.proxies := by
  cases ret with
  | none => rfl
  | some r =>
    simp only [handleReturn]
    rcases applyOverlay P st.proxies r.value r.overlay with e | v
    · rfl
    · rcases getProp st.pendingCalls r.callId with _ | id <;> rfl

theorem handleRoot_proxies (P : Protocol) (st : Client) (root : Option RootRecord) :
    (handleRoot P st root).1.proxies = st.proxies := by
  cases root with
  | none => rfl
  | some r =>
    simp only [handleRoot]
    rcases applyOverlay P st.proxies r.value r.overlay with e | v <;> rfl

/-- The proxy table after a message whose creation group did not throw: the
table left by the deletion group. -/
theorem handleMessage_proxies (P : Protocol) (st : Client) (m : Message)
    (hc : (handleCreates P st m.creates).2 = .ok ()) :
    (handleMessage P st m).1.proxies =
      (handleDeletes (handleCreates P st m.creates).1 m.deletes).proxies := by
  simp only [handleMessage]
  revert hc
  rcases handleCreates P st m.creates with ⟨st1, e | _⟩
  · intro hc; cases hc
  · intro _
    simp only
    have h2 := handleUpdates_proxies P (handleDeletes st1 m.deletes) m.updates
    revert h2
    rcases handleUpdates P (handleDeletes st1 m.deletes) m.updates with ⟨st2, e | _⟩
    · exact fun h2 => h2
    · intro h2
      simp only
      have h3 := handleReturn_proxies P st2 m.ret
      revert h3
      rcases handleReturn P st2 m.ret with ⟨st3, e | _⟩
      · exact fun h3 => h3.trans h2
      · exact fun h3 => ((handleRoot_proxies P st3 m.root).trans h3).trans h2

/-- C6 (as amended). Deleted-object call: once `handleMessage` has handled a
message whose deletion records contain the id of a proxy (that is, its creation
group did not throw), and the id names no member of `Object.prototype`, calling
a method `method` of that proxy, created with type `type`, returns a promise
rejected with the error message
`Calling method 'method' on deleted object 'type'` and leaves the state as it
is: no call record is sent, no call id is allocated and no pending call is
added. -/
theorem C6_deleted_object_call (P : Protocol) (st : Client) (msg : Message)
    (deletes : List String) (proxyId method type : String) (params : List Value)
    (hd : msg.deletes = some deletes) (hin : proxyId ∈ deletes)
    (hproto : inherits proxyId = false)
    (hc : (handleCreates P st msg.creates).2 = .ok ()) :
    makeMethod (handleMessage P st msg).1 proxyId method type params =
      ((handleMessage P st msg).1,
        .rejected ("Calling method '" ++ method ++ "' on deleted object '" ++ type ++ "'")) := by
  apply makeMethod_eq_of_none
  · rw [handleMessage_proxies P st msg hc, hd]
    exact foldl_delProp_mem deletes _ proxyId hin
  · exact hproto

/-- C6, counterexample: whatever the constants of the protocol are, after the
proxy created under the id `constructor` has been deleted, calling its method
`simple` is not rejected: `proxies['constructor']` is then the inherited
member of `Object.prototype`, and the call record is sent with call id 1. -/
theorem C6_deleted_object_call_counterexample :
    ¬ ∃ P : Protocol,
      (makeMethod
        (run P Client.init [.message sampleCreateBuiltinId, .message sampleDeleteBuiltinId])
        "constructor" "simple" "MethodApi" []).1.sent = [] := by
  rintro ⟨P, h⟩
  have h1 : (makeMethod
      (run P Client.init [.message sampleCreateBuiltinId, .message sampleDeleteBuiltinId])
      "constructor" "simple" "MethodApi" []).1.sent =
      [{ proxyId := "constructor", callId := 1, method := "simple", params := [] }] := rfl
  rw [h1] at h
  cases h

theorem handleMessage_return_only (P : Protocol) (st : Client) (r : ReturnRecord) :
    handleMessage P st
        { creates := none, deletes := none, updates := none, ret := some r, root := none } =
      handleReturn P st (some r) := by
  simp only [handleMessage, handleCreates, handleDeletes, handleUpdates, handleRoot]
  rcases handleReturn P st (some r) with ⟨st3, e | _⟩ <;> rfl

theorem handleReturn_not_pending (P : Protocol) (st : Client) (r : ReturnRecord)
    (h : getProp st.pendingCalls r.callId = none) :
    ∃ e, handleReturn P st (some r) = (st, .error e) := by
  simp only [handleReturn, h]
  rcases applyOverlay P st.proxies r.value r.overlay with e | v
  · exact ⟨e, rfl⟩
  · exact ⟨.typeError, rfl⟩

/-- C5. Return correlation: in a state reached by any run of the client, when
`c = r.callId` is pending with promise `id` and `applyOverlay(value, overlay)`
returns `result`, handling the return record `r` returns normally, settles that
promise with `result` (rejected when `fail` is set, resolved otherwise), leaves
every other promise as it was, and leaves the pending calls as they were except
that `c` is gone; and after any further run the promise keeps that state, `c`
is still not pending, and handling another return record for `c` throws and
changes nothing. -/
theorem C5_return_correlation (P : Protocol) (ops : List Op) (r : ReturnRecord) (id : Nat)
    (result : Value)
    (hpend : getProp (run P Client.init ops).pendingCalls r.callId = some id)
    (hres : applyOverlay P (run P Client.init ops).proxies r.value r.overlay = .ok result) :
    handleMessage P (run P Client.init ops)
        { creates := none, deletes := none, updates := none, ret := some r, root := none } =
      ({ run P Client.init ops with
          promises := settle (run P Client.init ops).promises id
            (if r.fail then Promise.rejected result else Promise.resolved result)
          pendingCalls := delProp (run P Client.init ops).pendingCalls r.callId },
        .ok ()) ∧
    (settle (run P Client.init ops).promises id
        (if r.fail then Promise.rejected result else Promise.resolved result))[id]? =
      some (if r.fail then Promise.rejected result else Promise.resolved result) ∧
    (∀ i, i ≠ id →
      (settle (run P Client.init ops).promises id
          (if r.fail then Promise.rejected result else Promise.resolved result))[i]? =
        (run P Client.init ops).promises[i]?) ∧
    (∀ c, getProp (delProp (run P Client.init ops).pendingCalls r.callId) c =
      if r.callId = c then none else getProp (run P Client.init ops).pendingCalls c) ∧
    (∀ (later : List Op) (r2 : ReturnRecord), r2.callId = r.callId →
      (run P (handleMessage P (run P Client.init ops)
          { creates := none, deletes := none, updates := none, ret := some r,
            root := none }).1 later).promises[id]? =
        some (if r.fail then Promise.rejected result else Promise.resolved result) ∧
      getProp (run P (handleMessage P (run P Client.init ops)
          { creates := none, deletes := none, updates := none, ret := some r,
            root := none }).1 later).pendingCalls r.callId = none ∧
      ∃ e, handleMessage P
          (run P (handleMessage P (run P Client.init ops)
            { creates := none, deletes := none, updates := none, ret := some r,
              root := none }).1 later)
          { creates := none, deletes := none, updates := none, ret := some r2, root := none } =
        (run P (handleMessage P (run P Client.init ops)
            { creates := none, deletes := none, updates := none, ret := some r,
              root := none }).1 later, .error e)) := by
  have hok := callsOk_run P ops
  have hpp := hok.pending_promise _ _ hpend
  have hstep : handleMessage P (run P Client.init ops)
        { creates := none, deletes := none, updates := none, ret := some r, root := none } =
      ({ run P Client.init ops with
          promises := settle (run P Client.init ops).promises id
            (if r.fail then Promise.rejected result else Promise.resolved result)
          pendingCalls := delProp (run P Client.init ops).pendingCalls r.callId },
        .ok ()) := by
    rw [handleMessage_return_only]
    simp only [handleReturn, hres, hpend]
  have hset := settle_get_pending (run P Client.init ops).promises id
    (if r.fail then Promise.rejected result else Promise.resolved result) hpp
  refine ⟨hstep, hset, ?_, ?_, ?_⟩
  · intro i hi
    exact settle_get_ne _ _ _ _ hi
  · intro c
    exact getProp_delProp _ _ _
  · intro later r2 hr2
    have hS : Settled r.callId id
        (if r.fail then Promise.rejected result else Promise.resolved result)
        (handleMessage P (run P Client.init ops)
          { creates := none, deletes := none, updates := none, ret := some r,
            root := none }).1 := by
      rw [hstep]
      refine ⟨hok.pending_le _ _ hpend, ?_, hset, ?_⟩
      · simp [getProp_delProp]
      · cases r.fail <;> simp
    have hS2 := stable_run (settled_stable r.callId id _) P later _ hS
    refine ⟨hS2.2.2.1, hS2.2.1, ?_⟩
    rw [handleMessage_return_only]
    exact handleReturn_not_pending P _ r2 (by rw [hr2]; exact hS2.2.1)

theorem createProxies_heap_length (creates : List CreateRecord) :
    ∀ st : Client, (createProxies st creates).heap.length = st.heap.length + creates.length := by
  induction creates with
  | nil => intro st; rfl
  | cons r rest ih =>
    intro st
    simp only [createProxies, ih, List.length_append, List.length_cons, List.length_nil]
    omega

theorem createProxies_get_other (creates : List CreateRecord) :
    ∀ (st : Client) (id : String), id ∉ creates.map (fun r => r.proxyId) →
      getProp (createProxies st creates).proxies id = getProp st.proxies id := by
  induction creates with
  | nil => intro st id _; rfl
  | cons r rest ih =>
    intro st id h
    simp only [List.map_cons, List.mem_cons, not_or] at h
    simp only [createProxies]
    rw [ih _ id h.2, getProp_setProp, if_neg (fun e => h.1 e.symm)]

theorem createProxies_get (creates : List CreateRecord) :
    ∀ (st : Client), (creates.map (fun r => r.proxyId)).Nodup →
      ∀ (i : Nat) (r : CreateRecord), creates[i]? = some r →
        getProp (createProxies st creates).proxies r.proxyId = some (st.heap.length + i) := by
  induction creates with
  | nil => intro st _ i r h; simp at h
  | cons r0 rest ih =>
    intro st hnd i r h
    simp only [List.map_cons, List.nodup_cons] at hnd
    simp only [createProxies]
    cases i with
    | zero =>
      simp only [List.getElem?_cons_zero, Option.some.injEq] at h
      subst h
      rw [createProxies_get_other rest _ _ hnd.1, getProp_setProp, if_pos rfl]
      rfl
    | succ j =>
      simp only [List.getElem?_cons_succ] at h
      rw [ih _ hnd.2 j r h]
      simp only [List.length_append, List.length_cons, List.length_nil]
      congr 1
      omega

theorem foldl_setProp_other (props : List (String × Value)) (name : String)
    (h : name ∉ props.map Prod.fst) :
    ∀ o : List (String × Value),
      getProp (props.foldl (fun acc p => setProp acc p.1 p.2) o) name = getProp o name := by
  induction props with
  | nil => intro o; rfl
  | cons p rest ih =>
    obtain ⟨k, x⟩ := p
    simp only [List.map_cons, List.mem_cons, not_or] at h
    intro o
    simp only [List.foldl_cons]
    rw [ih h.2, getProp_setProp, if_neg (fun e => h.1 e.symm)]

theorem foldl_setProp_get (props : List (String × Value)) (name : String) (v : Value)
    (hnd : (props.map Prod.fst).Nodup) (h : getProp props name = some v) :
    ∀ o : List (String × Value),
      getProp (props.foldl (fun acc p => setProp acc p.1 p.2) o) name = some v := by
  induction props with
  | nil => simp [getProp] at h
  | cons p rest ih =>
    obtain ⟨k, x⟩ := p
    simp only [List.map_cons, List.nodup_cons] at hnd
    intro o
    simp only [List.foldl_cons]
    by_cases hk : k = name
    · subst hk
      simp only [getProp, if_true, Option.some.injEq] at h
      subst h
      rw [foldl_setProp_other rest k hnd.1, getProp_setProp, if_pos rfl]
    · simp only [getProp, hk, if_false] at h
      exact ih hnd.2 h _

theorem heapSet_length (heap : List (List (String × Value))) (a : Nat) (name : String)
    (v : Value) : (heapSet heap a name v).length = heap.length := by
  simp only [heapSet]
  split <;> simp

theorem heapSet_get_ne (heap : List (List (String × Value))) (a b : Nat) (name : String)
    (v : Value) (h : a ≠ b) : (heapSet heap a name v)[b]? = heap[b]? := by
  simp only [heapSet]
  split
  · exact List.getElem?_set_ne h
  · rfl

theorem heapSet_get_self (heap : List (List (String × Value))) (a : Nat) (name : String)
    (v : Value) (o : List (String × Value)) (h : heap[a]? = some o) :
    (heapSet heap a name v)[a]? = some (setProp o name v) := by
  simp only [heapSet, h]
  exact List.getElem?_set_self (List.getElem?_eq_some.1 h).1

/-- Pass 2 on one record whose proxy lives at `a`: the properties are assigned
in order on the object at `a`; nothing else changes. -/
theorem assignProps_target (proxyId : String) (a : Nat) (props : List (String × Value)) :
    ∀ (st : Client) (o : List (String × Value)), getProp st.proxies proxyId = some a →
      st.heap[a]? = some o →
      (assignProps st proxyId props).2 = .ok () ∧
      (assignProps st proxyId props).1.proxies = st.proxies ∧
      (assignProps st proxyId props).1.heap.length = st.heap.length ∧
      (assignProps st proxyId props).1.heap[a]? =
        some (props.foldl (fun acc p => setProp acc p.1 p.2) o) := by
  induction props with
  | nil => intro st o _ ho; exact ⟨rfl, rfl, rfl, ho⟩
  | cons p rest ih =>
    obtain ⟨name, v⟩ := p
    intro st o hp ho
    simp only [assignProps, hp, List.foldl_cons]
    obtain ⟨h1, h2, h3, h4⟩ := ih { st with heap := heapSet st.heap a name v }
      (setProp o name v) hp (heapSet_get_self _ _ _ _ _ ho)
    exact ⟨h1, h2, by rw [h3]; exact heapSet_length _ _ _ _, h4⟩

/-- Pass 2 on one record leaves the proxy table and every object other than
its own proxy as they were. -/
theorem assignProps_other (proxyId : String) (a : Nat) (props : List (String × Value)) :
    ∀ st : Client, getProp st.proxies proxyId ≠ some a →
      (assignProps st proxyId props).1.proxies = st.proxies ∧
      (assignProps st proxyId props).1.heap.length = st.heap.length ∧
      (assignProps st proxyId props).1.heap[a]? = st.heap[a]? := by
  induction props with
  | nil => intro st _; exact ⟨rfl, rfl, rfl⟩
  | cons p rest ih =>
    obtain ⟨name, v⟩ := p
    intro st hp
    simp only [assignProps]
    rcases hg : getProp st.proxies proxyId with _ | b
    · exact ⟨rfl, rfl, rfl⟩
    · have hba : b ≠ a := fun e => hp (by rw [hg, e])
      obtain ⟨h1, h2, h3⟩ := ih { st with heap := heapSet st.heap b name v }
        (by simpa [hg] using hp)
      exact ⟨h1, by rw [h2]; exact heapSet_length _ _ _ _,
        by rw [h3]; exact heapSet_get_ne _ _ _ _ _ hba⟩

theorem fillProxies_other (P : Protocol) (a : Nat) (creates : List CreateRecord) :
    ∀ st : Client, (∀ r ∈ creates, getProp st.proxies r.proxyId ≠ some a) →
      (fillProxies P st creates).1.proxies = st.proxies ∧
      (fillProxies P st creates).1.heap.length = st.heap.length ∧
      (fillProxies P st creates).1.heap[a]? = st.heap[a]? := by
  induction creates with
  | nil => intro st _; exact ⟨rfl, rfl, rfl⟩
  | cons r rest ih =>
    intro st h
    simp only [fillProxies]
    rcases applyOverlay P st.proxies r.value r.overlay with e | values
    · exact ⟨rfl, rfl, rfl⟩
    · simp only
      rcases forInProps st.heap values with e | props
      · exact ⟨rfl, rfl, rfl⟩
      · simp only
        have h1 := assignProps_other r.proxyId a props st (h r (List.mem_cons_self _ _))
        revert h1
        rcases assignProps st r.proxyId props with ⟨st1, e | _⟩
        · exact fun h1 => h1
        · intro h1
          simp only at h1 ⊢
          obtain ⟨h2, h3, h4⟩ := ih st1 (fun r2 hr2 => by
            rw [h1.1]; exact h r2 (List.mem_cons_of_mem _ hr2))
          exact ⟨h2.trans h1.1, h3.trans h1.2.1, h4.trans h1.2.2⟩

theorem fillProxies_append (P : Protocol) (pre post : List CreateRecord) :
    ∀ st : Client, (fillProxies P st (pre ++ post)).2 = .ok () →
      (fillProxies P st pre).2 = .ok () ∧
      fillProxies P st (pre ++ post) = fillProxies P (fillProxies P st pre).1 post := by
  induction pre with
  | nil => intro st _; exact ⟨rfl, rfl⟩
  | cons r rest ih =>
    intro st
    simp only [List.cons_append, fillProxies]
    rcases applyOverlay P st.proxies r.value r.overlay with e | values
    · intro h; cases h
    · simp only
      rcases forInProps st.heap values with e | props
      · intro h; cases h
      · simp only
        rcases assignProps st r.proxyId props with ⟨st1, e | _⟩
        · intro h; cases h
        · exact fun h => ih st1 h

theorem applyObj_keys (P : Protocol) (t : List (String × Nat)) :
    ∀ (fs : List (String × Value)) (ov : List (String × Overlay))
      (gs : List (String × Value)), applyObj P t fs ov = .ok gs →
      gs.map Prod.fst = fs.map Prod.fst := by
  intro fs
  induction fs with
  | nil =>
    intro ov gs h
    simp only [applyObj, Except.ok.injEq] at h
    subst h
    rfl
  | cons f rest ih =>
    obtain ⟨name, x⟩ := f
    intro ov gs h
    simp only [applyObj] at h
    split at h
    · cases h
    · split at h
      · cases h
      · rename_i gs2 hgs2
        simp only [Except.ok.injEq] at h
        subst h
        simp [ih ov gs2 hgs2]

theorem getProp_isSome_of_mem {α : Type} (fs : List (String × α)) (k : String)
    (h : k ∈ fs.map Prod.fst) : ∃ v, getProp fs k = some v := by
  induction fs with
  | nil => simp at h
  | cons p rest ih =>
    obtain ⟨k2, v2⟩ := p
    by_cases hk : k2 = k
    · exact ⟨v2, by simp [getProp, hk]⟩
    · simp only [List.map_cons, List.mem_cons] at h
      rcases h with h | h
      · exact absurd h.symm hk
      · obtain ⟨v, hv⟩ := ih h
        exact ⟨v, by simp [getProp, hk, hv]⟩

theorem applyOverlay_str (P : Protocol) (t : List (String × Nat)) (x : Value) (id : String)
    (hD : id ≠ P.DELETED_PROXY_ID) (he : id ≠ "e")
    (hin : (getProp t id).isSome = true ∨ inherits id = false) :
    applyOverlay P t x (.str id) = .ok (lookupProxy t id) := by
  have hg : ((getProp t id).isNone && inherits id) = false := by
    rcases hin with h | h
    · rcases hq : getProp t id with _ | a
      · rw [hq] at h; cases h
      · rfl
    · rw [h, Bool.and_false]
  rw [applyOverlay, if_neg hD, if_neg he, hg]
  rfl

/-- When the client's `applyOverlay` returns on a proxy id, it returns the
entry of the proxy table under that id. -/
theorem applyOverlay_str_ok (P : Protocol) (t : List (String × Nat)) (x y : Value)
    (id : String) (hD : id ≠ P.DELETED_PROXY_ID) (he : id ≠ "e")
    (h : applyOverlay P t x (.str id) = .ok y) : y = lookupProxy t id := by
  rw [applyOverlay, if_neg hD, if_neg he] at h
  split at h
  · cases h
  · simpa using h.symm

/-- Pass 2 on a list of records `pre ++ r :: post` in which only `r` has its
proxy at address `a`: afterwards the property `name` of that proxy, whose
overlay entry is the proxy id `id`, holds the entry of the proxy table under
`id`. -/
theorem fillProxies_property (P : Protocol) (pre post : List CreateRecord) (r : CreateRecord)
    (s0 : Client) (a : Nat) (o : List (String × Value)) (fs : List (String × Value))
    (ofs : List (String × Overlay)) (name id : String)
    (hval : r.value = .obj fs) (hov : r.overlay = .obj ofs)
    (hnd : (fs.map Prod.fst).Nodup) (hname : name ∈ fs.map Prod.fst)
    (hentry : getProp ofs name = some (.str id))
    (h0 : id ≠ "") (hD : id ≠ P.DELETED_PROXY_ID) (he : id ≠ "e")
    (ha : getProp s0.proxies r.proxyId = some a) (ho : s0.heap[a]? = some o)
    (hother : ∀ r2 ∈ pre ++ post, getProp s0.proxies r2.proxyId ≠ some a)
    (hok : (fillProxies P s0 (pre ++ r :: post)).2 = .ok ()) :
    (fillProxies P s0 (pre ++ r :: post)).1.proxies = s0.proxies ∧
      heapGet (fillProxies P s0 (pre ++ r :: post)).1.heap a name =
        lookupProxy s0.proxies id := by
  obtain ⟨_, happ⟩ := fillProxies_append P pre (r :: post) s0 hok
  obtain ⟨hA1, _, hA3⟩ := fillProxies_other P a pre s0
    (fun r2 hr2 => hother r2 (List.mem_append_left _ hr2))
  rw [happ] at hok ⊢
  generalize fillProxies P s0 pre = resA at hok hA1 hA3 ⊢
  obtain ⟨sA, resA2⟩ := resA
  simp only at hok hA1 hA3 ⊢
  revert hok
  simp only [fillProxies, hval, hov, applyOverlay]
  rcases hgs : applyObj P sA.proxies fs ofs with e | gs
  · intro hok; cases hok
  · simp only [forInProps]
    have hkeys := applyObj_keys P sA.proxies fs ofs gs hgs
    obtain ⟨y, hy⟩ := getProp_isSome_of_mem gs name (by rw [hkeys]; exact hname)
    obtain ⟨x, hx⟩ := applyObj_get P sA.proxies fs ofs gs hgs name (.str id) y hentry
      (by simpa [Overlay.truthy] using h0) hy
    have hx := applyOverlay_str_ok P _ x y id hD he hx
    subst hx
    obtain ⟨hB0, hB1, hB2, hB3⟩ := assignProps_target r.proxyId a gs sA o
      (by rw [hA1]; exact ha) (by rw [hA3]; exact ho)
    revert hB0 hB1 hB2 hB3
    rcases assignProps sA r.proxyId gs with ⟨sB, e | _⟩
    · intro hB0; cases hB0
    · intro _ hB1 _ hB3 _
      simp only at hB1 hB3 ⊢
      obtain ⟨hC1, _, hC3⟩ := fillProxies_other P a post sB
        (fun r2 hr2 => by
          rw [hB1, hA1]; exact hother r2 (List.mem_append_right _ hr2))
      refine ⟨hC1.trans (hB1.trans hA1), ?_⟩
      simp only [heapGet, hC3, hB3]
      rw [foldl_setProp_get gs name _ (by rw [hkeys]; exact hnd) hy, hA1]
      rfl

theorem handleReturn_heap (P : Protocol) (st : Client) (ret : Option ReturnRecord) :
    (handleReturn P st ret).1.heap = st.heap := by
  cases ret with
  | none => rfl
  | some r =>
    simp only [handleReturn]
    rcases applyOverlay P st.proxies r.value r.overlay with e | v
    · rfl
    · rcases getProp st.pendingCalls r.callId with _ | id <;> rfl

theorem handleRoot_heap (P : Protocol) (st : Client) (root : Option RootRecord) :
    (handleRoot P st root).1.heap = st.heap := by
  cases root with
  | none => rfl
  | some r =>
    simp only [handleRoot]
    rcases applyOverlay P st.proxies r.value r.overlay with e | v <;> rfl

/-- A message without deletion and update records that is handled without
error leaves the proxy table and the heap of its creation group. -/
theorem handleMessage_creates_only (P : Protocol) (st st2 : Client) (msg : Message)
    (hd : msg.deletes = none) (hu : msg.updates = none)
    (hok : handleMessage P st msg = (st2, .ok ())) :
    (handleCreates P st msg.creates).2 = .ok () ∧
      st2.proxies = (handleCreates P st msg.creates).1.proxies ∧
      st2.heap = (handleCreates P st msg.creates).1.heap := by
  revert hok
  simp only [handleMessage, hd, hu, handleDeletes, handleUpdates]
  rcases handleCreates P st msg.creates with ⟨st1, e | _⟩
  · intro hok; cases hok
  · simp only
    have h3p := handleReturn_proxies P st1 msg.ret
    have h3h := handleReturn_heap P st1 msg.ret
    revert h3p h3h
    rcases handleReturn P st1 msg.ret with ⟨st3, e | _⟩
    · intro _ _ hok; cases hok
    · intro h3p h3h hok
      simp only at h3p h3h hok
      have h4p := handleRoot_proxies P st3 msg.root
      have h4h := handleRoot_heap P st3 msg.root
      rw [hok] at h4p h4h
      exact ⟨trivial, h4p.trans h3p, h4h.trans h3h⟩

/-- C3 (amended). Two-pass creation: for every message without deletion and
update records whose creation records, in any order, carry pairwise different
proxy ids, if `handleMessage` returns normally then for every record `r` whose
value and overlay are keyed structures, every property `name` of the value
whose overlay entry is a proxy id created in the same message (a non-empty
string other than `DELETED_PROXY_ID` and `'e'`; possibly the id of `r` itself)
holds, on the proxy stored under the id of `r`, exactly the proxy stored under
that id. -/
theorem C3_two_pass_creation (P : Protocol) (st st2 : Client) (msg : Message)
    (creates : List CreateRecord) (r : CreateRecord) (fs : List (String × Value))
    (ofs : List (String × Overlay)) (name id : String)
    (hc : msg.creates = some creates) (hd : msg.deletes = none) (hu : msg.updates = none)
    (hids : (creates.map fun c => c.proxyId).Nodup)
    (hok : handleMessage P st msg = (st2, .ok ()))
    (hr : r ∈ creates) (hval : r.value = .obj fs) (hov : r.overlay = .obj ofs)
    (hnd : (fs.map Prod.fst).Nodup) (hname : name ∈ fs.map Prod.fst)
    (hentry : getProp ofs name = some (.str id))
    (h0 : id ≠ "") (hD : id ≠ P.DELETED_PROXY_ID) (he : id ≠ "e")
    (hcreated : id ∈ creates.map fun c => c.proxyId) :
    ∃ a b, getProp st2.proxies r.proxyId = some a ∧ getProp st2.proxies id = some b ∧
      heapGet st2.heap a name = .proxy b ∧ (id = r.proxyId → a = b) := by
  obtain ⟨hcok, hp, hh⟩ := handleMessage_creates_only P st st2 msg hd hu hok
  rw [hc] at hcok hp hh
  simp only [handleCreates] at hcok hp hh
  obtain ⟨i, hi⟩ := List.mem_iff_getElem?.1 hr
  have ha := createProxies_get creates st hids i r hi
  obtain ⟨r2, hr2, hr2id⟩ := List.mem_map.1 hcreated
  obtain ⟨j, hj⟩ := List.mem_iff_getElem?.1 hr2
  have hb := createProxies_get creates st hids j r2 hj
  rw [hr2id] at hb
  have hlen : st.heap.length + i < (createProxies st creates).heap.length := by
    rw [createProxies_heap_length]
    have := (List.getElem?_eq_some.1 hi).1
    omega
  obtain ⟨o, ho⟩ : ∃ o, (createProxies st creates).heap[st.heap.length + i]? = some o :=
    ⟨_, List.getElem?_eq_getElem hlen⟩
  obtain ⟨pre, post, hsplit⟩ := List.append_of_mem hr
  have hother : ∀ r3 ∈ pre ++ post,
      getProp (createProxies st creates).proxies r3.proxyId ≠ some (st.heap.length + i) := by
    intro r3 hr3 heq
    have hr3c : r3 ∈ creates := by
      rw [hsplit]
      rcases List.mem_append.1 hr3 with h | h
      · exact List.mem_append_left _ h
      · exact List.mem_append_right _ (List.mem_cons_of_mem _ h)
    obtain ⟨k, hk⟩ := List.mem_iff_getElem?.1 hr3c
    rw [createProxies_get creates st hids k r3 hk] at heq
    have hki : k = i := by
      simp only [Option.some.injEq] at heq
      omega
    subst hki
    rw [hi] at hk
    simp only [Option.some.injEq] at hk
    subst hk
    rw [hsplit, List.map_append, List.map_cons] at hids
    have hnd2 := List.nodup_append.1 hids
    rcases List.mem_append.1 hr3 with h | h
    · exact hnd2.2.2 (List.mem_map.2 ⟨r, h, rfl⟩) (List.mem_cons_self _ _)
    · exact (List.nodup_cons.1 hnd2.2.1).1 (List.mem_map.2 ⟨r, h, rfl⟩)
  have hmain := fillProxies_property P pre post r (createProxies st creates)
    (st.heap.length + i) o fs ofs name id hval hov hnd hname hentry h0 hD he ha ho hother
    (by rw [← hsplit]; exact hcok)
  rw [← hsplit] at hmain
  refine ⟨st.heap.length + i, st.heap.length + j, ?_, ?_, ?_, ?_⟩
  · rw [hp, hmain.1]; exact ha
  · rw [hp, hmain.1]; exact hb
  · rw [hh, hmain.2]
    simp only [lookupProxy, hb]
  · intro hid
    rw [hid] at hb
    rw [ha] at hb
    simpa using hb

/-- C3, witness: after `sampleCreate` the property `self` of the proxy `p1` is
that proxy. -/
theorem C3_two_pass_creation_witness :
    ∃ a b, getProp (handleMessage sampleProtocol Client.init sampleCreate).1.proxies
        sampleRecord.proxyId = some a ∧
      getProp (handleMessage sampleProtocol Client.init sampleCreate).1.proxies "p1" = some b ∧
      heapGet (handleMessage sampleProtocol Client.init sampleCreate).1.heap a "self" =
        .proxy b ∧
      ("p1" = sampleRecord.proxyId → a = b) :=
  C3_two_pass_creation sampleProtocol Client.init
    (handleMessage sampleProtocol Client.init sampleCreate).1 sampleCreate [sampleRecord]
    sampleRecord [("self", .null)] [("self", .str "p1")] "self" "p1" rfl rfl rfl
    (by decide) rfl (by simp) rfl rfl (by decide) (by decide) rfl (by decide) (by decide)
    (by decide) (by decide)

/-- C4, witness: the first call after `sampleCreate` carries the call id 1. -/
theorem C4_call_dispatch_witness :
    (makeMethod (run sampleProtocol Client.init [.message sampleCreate]) "p1" "simple"
        "MethodApi" [.num 21]).1.sent.map (fun r => r.callId) =
      List.range' 1 ((run sampleProtocol Client.init [.message sampleCreate]).lastCallId + 1) :=
  (C4_call_dispatch sampleProtocol [.message sampleCreate] "p1" "simple" "MethodApi"
    [.num 21] 0 rfl).2.2.2.1

/-- C5, witness: the return record for the call 1 resolves its promise with 42. -/
theorem C5_return_correlation_witness :
    (settle (run sampleProtocol Client.init
        [.message sampleCreate, .call "p1" "simple" "MethodApi" [.num 21]]).promises 0
        (if sampleReturn.fail then Promise.rejected (.num 42)
          else Promise.resolved (.num 42)))[0]? =
      some (if sampleReturn.fail then Promise.rejected (.num 42)
        else Promise.resolved (.num 42)) :=
  (C5_return_correlation sampleProtocol
    [.message sampleCreate, .call "p1" "simple" "MethodApi" [.num 21]] sampleReturn 0
    (.num 42) rfl rfl).2.1

/-- C6, witness: after `sampleCreate` and `sampleDelete`, calling `simple` on
`p1` is rejected and changes nothing. -/
theorem C6_deleted_object_call_witness :
    makeMethod
        (handleMessage sampleProtocol (run sampleProtocol Client.init [.message sampleCreate])
          sampleDelete).1 "p1" "simple" "MethodApi" [.num 21] =
      ((handleMessage sampleProtocol (run sampleProtocol Client.init [.message sampleCreate])
          sampleDelete).1,
        .rejected ("Calling method '" ++ "simple" ++ "' on deleted object '" ++
          "MethodApi" ++ "'")) :=
  C6_deleted_object_call sampleProtocol (run sampleProtocol Client.init [.message sampleCreate])
    sampleDelete ["p1"] "p1" "simple" "MethodApi" [.num 21] rfl (by decide) (by decide) rfl

theorem applyOverlay_str_returns (P : Protocol) (t : List (String × Nat)) (id : String)
    (he : id ≠ "e") (hin : inherits id = false) :
    ∃ y, applyOverlay P t .null (.str id) = .ok y := by
  by_cases hD : id = P.DELETED_PROXY_ID
  · exact ⟨.null, by rw [applyOverlay, if_pos hD]⟩
  · exact ⟨_, applyOverlay_str P t .null id hD he (Or.inr hin)⟩

theorem sampleRecord_values (P : Protocol) (t : List (String × Nat)) :
    ∃ y, applyOverlay P t sampleRecord.value sampleRecord.overlay =
      .ok (.obj [("self", y)]) := by
  have hu : usable (some (Overlay.str "p1")) = some (Overlay.str "p1") := rfl
  obtain ⟨y, hy⟩ := applyOverlay_str_returns P t "p1" (by decide) (by decide)
  refine ⟨y, ?_⟩
  simp only [sampleRecord]
  rw [applyOverlay, applyObj]
  simp only [getProp, if_true, hu]
  rw [hy]
  simp only [applyObj]

theorem sampleCreate_pass (P : Protocol) :
    ∃ y, handleCreates P Client.init (some [sampleRecord]) =
      ({ Client.init with
          proxies := [("p1", 0)]
          heap := [[("simple", .func (.method "p1" "simple" "MethodApi")),
                    ("on", .func (.on 0)), ("self", y)]] }, .ok ()) := by
  obtain ⟨y, hy⟩ := sampleRecord_values P [("p1", 0)]
  refine ⟨y, ?_⟩
  simp only [handleCreates, createProxies, fillProxies]
  have h1 : (setProp Client.init.proxies sampleRecord.proxyId Client.init.heap.length) =
      [("p1", 0)] := rfl
  simp only [h1, hy, forInProps]
  rfl

theorem sampleCreateUpdate_run (P : Protocol) :
    handleMessage P Client.init sampleCreateUpdate =
      ({ Client.init with
          proxies := [("p1", 0)]
          heap := [[("simple", .func (.method "p1" "simple" "MethodApi")),
                    ("on", .func (.on 0)), ("self", .num 1)]] }, .ok ()) := by
  obtain ⟨y, hy⟩ := sampleCreate_pass P
  simp only [handleMessage, sampleCreateUpdate]
  rw [hy]
  rfl

theorem sampleCreateDelete_run (P : Protocol) :
    (handleMessage P Client.init sampleCreateDelete).1.proxies = [] := by
  obtain ⟨y, hy⟩ := sampleCreate_pass P
  simp only [handleMessage, sampleCreateDelete]
  rw [hy]
  rfl

theorem sampleCreateTwice_run (P : Protocol) :
    handleMessage P Client.init sampleCreateTwice =
      ({ Client.init with
          proxies := [("p1", 1)]
          heap := [[("simple", .func (.method "p1" "simple" "MethodApi")),
                    ("on", .func (.on 0))],
                   [("on", .func (.on 1)), ("self", .num 7)]] }, .ok ()) := by
  obtain ⟨y, hy⟩ := sampleRecord_values P [("p1", 1)]
  have hcp : createProxies Client.init
      [sampleRecord,
        { proxyId := "p1", methods := [], type := "MethodApi",
          value := .obj [("self", .num 7)], overlay := .null }] =
      { Client.init with
          proxies := [("p1", 1)]
          heap := [[("simple", .func (.method "p1" "simple" "MethodApi")),
                    ("on", .func (.on 0))], [("on", .func (.on 1))]] } := rfl
  simp only [handleMessage, sampleCreateTwice, handleCreates]
  rw [hcp]
  simp only [fillProxies]
  rw [hy]
  rfl

/-- C3, counterexample: whatever the constants of the protocol are, (1) after
`sampleCreateUpdate`, which creates `p1` with `self` referring to `p1` and
updates `self` in the same message, `self` is not the proxy; (2) after
`sampleCreateDelete` no proxy is stored under `p1`; (3) after
`sampleCreateTwice`, with two creation records for `p1`, `self` is not the
proxy stored under `p1`. -/
theorem C3_two_pass_creation_counterexample :
    (¬ ∃ (P : Protocol) (st2 : Client) (a : Nat),
      handleMessage P Client.init sampleCreateUpdate = (st2, .ok ()) ∧
      getProp st2.proxies "p1" = some a ∧ heapGet st2.heap a "self" = .proxy a) ∧
    (¬ ∃ (P : Protocol) (st2 : Client) (a : Nat),
      handleMessage P Client.init sampleCreateDelete = (st2, .ok ()) ∧
      getProp st2.proxies "p1" = some a) ∧
    (¬ ∃ (P : Protocol) (st2 : Client) (a : Nat),
      handleMessage P Client.init sampleCreateTwice = (st2, .ok ()) ∧
      getProp st2.proxies "p1" = some a ∧ heapGet st2.heap a "self" = .proxy a) := by
  refine ⟨?_, ?_, ?_⟩
  · rintro ⟨P, st2, a, h, ha, hs⟩
    rw [sampleCreateUpdate_run P] at h
    cases h
    cases ha
    cases hs
  · rintro ⟨P, st2, a, h, ha⟩
    have := sampleCreateDelete_run P
    rw [h] at this
    simp only at this
    rw [this] at ha
    cases ha
  · rintro ⟨P, st2, a, h, ha, hs⟩
    rw [sampleCreateTwice_run P] at h
    cases h
    cases ha
    cases hs

/-- C11. Leaf classification: `makeOverlay` returns `null` for every boolean,
number and string and for `null`, the marker `OVERLAY_UNDEFINED` for
`undefined`, and the marker `OVERLAY_ERROR` for every `Error`, whatever its
name, message, stack and further properties are; the visitor is not called. -/
theorem C11_leaf_classification (P : Protocol) :
    (∀ b, makeOverlay P (.bool b) = ([], .ok .null)) ∧
    (∀ n, makeOverlay P (.num n) = ([], .ok .null)) ∧
    (∀ s, makeOverlay P (.str s) = ([], .ok .null)) ∧
    makeOverlay P .null = ([], .ok .null) ∧
    makeOverlay P .undefined = ([], .ok (.str P.OVERLAY_UNDEFINED)) ∧
    (∀ name message stack extra,
      makeOverlay P (.error name message stack extra) = ([], .ok (.str P.OVERLAY_ERROR))) :=
  ⟨fun _ => by rw [makeOverlay], fun _ => by rw [makeOverlay], fun _ => by rw [makeOverlay],
    by rw [makeOverlay], by rw [makeOverlay], fun _ _ _ _ => by rw [makeOverlay]⟩

theorem makeOverlayArr_failsFast (P : Protocol) (xs : List Value)
    (ih : ∀ x ∈ xs, FailsFast P x) (hs : Value.serverSideList xs = true) :
    ∀ (i : Nat) (out : Option (List Overlay)),
      (firstUnsupportedList xs = none → ∃ r, (makeOverlayArr P xs i out).2 = .ok r) ∧
      (∀ t, firstUnsupportedList xs = some t →
        (makeOverlayArr P xs i out).2 = .error (.unsupported t)) := by
  induction xs with
  | nil =>
    intro i out
    exact ⟨fun _ => ⟨out, by simp [makeOverlayArr]⟩, fun t h => by simp [firstUnsupportedList] at h⟩
  | cons x rest ihr =>
    intro i out
    simp only [Value.serverSideList, Bool.and_eq_true] at hs
    obtain ⟨hx1, hx2⟩ := ih x (List.mem_cons_self _ _) hs.1
    have hrest := ihr (fun y hy => ih y (List.mem_cons_of_mem _ hy)) hs.2
    simp only [firstUnsupportedList, makeOverlayArr]
    rcases hf : firstUnsupported x with _ | t0
    · obtain ⟨o, ho⟩ := hx1 hf
      rcases hm : makeOverlay P x with ⟨log, rx⟩
      rw [hm] at ho
      simp only at ho
      subst ho
      exact hrest _ _
    · have he := hx2 t0 hf
      rcases hm : makeOverlay P x with ⟨log, rx⟩
      rw [hm] at he
      simp only at he
      subst he
      exact ⟨fun h => (by cases h), fun t h => (by cases h; rfl)⟩

theorem makeOverlayObj_failsFast (P : Protocol) (fs : List (String × Value))
    (ih : ∀ p ∈ fs, FailsFast P p.2) (hs : Value.serverSideFields fs = true) :
    ∀ out : Option (List (String × Overlay)),
      (firstUnsupportedFields fs = none → ∃ r, (makeOverlayObj P fs out).2 = .ok r) ∧
      (∀ t, firstUnsupportedFields fs = some t →
        (makeOverlayObj P fs out).2 = .error (.unsupported t)) := by
  induction fs with
  | nil =>
    intro out
    exact ⟨fun _ => ⟨out, by simp [makeOverlayObj]⟩,
      fun t h => by simp [firstUnsupportedFields] at h⟩
  | cons f rest ihr =>
    obtain ⟨k, x⟩ := f
    intro out
    simp only [Value.serverSideFields, Bool.and_eq_true] at hs
    obtain ⟨hx1, hx2⟩ := ih (k, x) (List.mem_cons_self _ _) hs.1
    have hrest := ihr (fun y hy => ih y (List.mem_cons_of_mem _ hy)) hs.2
    simp only [firstUnsupportedFields, makeOverlayObj]
    rcases hf : firstUnsupported x with _ | t0
    · obtain ⟨o, ho⟩ := hx1 hf
      rcases hm : makeOverlay P x with ⟨log, rx⟩
      rw [hm] at ho
      simp only at ho
      subst ho
      exact hrest _
    · have he := hx2 t0 hf
      rcases hm : makeOverlay P x with ⟨log, rx⟩
      rw [hm] at he
      simp only at he
      subst he
      exact ⟨fun h => (by cases h), fun t h => (by cases h; rfl)⟩

theorem makeOverlay_failsFast (P : Protocol) (v : Value) : FailsFast P v := by
  induction v using Value.induct with
  | undefined => intro _; exact ⟨fun _ => ⟨_, rfl⟩, fun t h => by simp [firstUnsupported] at h⟩
  | null => intro _; exact ⟨fun _ => ⟨_, rfl⟩, fun t h => by simp [firstUnsupported] at h⟩
  | bool _ => intro _; exact ⟨fun _ => ⟨_, rfl⟩, fun t h => by simp [firstUnsupported] at h⟩
  | num _ => intro _; exact ⟨fun _ => ⟨_, rfl⟩, fun t h => by simp [firstUnsupported] at h⟩
  | str _ => intro _; exact ⟨fun _ => ⟨_, rfl⟩, fun t h => by simp [firstUnsupported] at h⟩
  | error _ _ _ _ =>
    intro _; exact ⟨fun _ => ⟨_, rfl⟩, fun t h => by simp [firstUnsupported] at h⟩
  | api _ _ => intro _; exact ⟨fun _ => ⟨_, rfl⟩, fun t h => by simp [firstUnsupported] at h⟩
  | proxy _ => intro h; simp [Value.serverSide] at h
  | func _ =>
    intro _
    exact ⟨fun h => by simp [firstUnsupported] at h,
      fun t h => by simp only [firstUnsupported, Option.some.injEq] at h; subst h; rfl⟩
  | symbol =>
    intro _
    exact ⟨fun h => by simp [firstUnsupported] at h,
      fun t h => by simp only [firstUnsupported, Option.some.injEq] at h; subst h; rfl⟩
  | arr xs ih =>
    intro hs
    simp only [Value.serverSide] at hs
    obtain ⟨h1, h2⟩ := makeOverlayArr_failsFast P xs ih hs 0 none
    simp only [firstUnsupported, makeOverlay]
    constructor
    · intro hf
      obtain ⟨r, hr⟩ := h1 hf
      rcases hm : makeOverlayArr P xs 0 none with ⟨log, rx⟩
      rw [hm] at hr
      simp only at hr
      subst hr
      cases r <;> exact ⟨_, rfl⟩
    · intro t hf
      have he := h2 t hf
      rcases hm : makeOverlayArr P xs 0 none with ⟨log, rx⟩
      rw [hm] at he
      simp only at he
      subst he
      rfl
  | obj fs ih =>
    intro hs
    simp only [Value.serverSide, Bool.and_eq_true, Bool.not_eq_true'] at hs
    obtain ⟨h1, h2⟩ := makeOverlayObj_failsFast P fs ih hs.2 none
    simp only [firstUnsupported, makeOverlay, hs.1, Bool.false_eq_true, if_false]
    constructor
    · intro hf
      obtain ⟨r, hr⟩ := h1 hf
      rcases hm : makeOverlayObj P fs none with ⟨log, rx⟩
      rw [hm] at hr
      simp only at hr
      subst hr
      cases r <;> exact ⟨_, rfl⟩
    · intro t hf
      have he := h2 t hf
      rcases hm : makeOverlayObj P fs none with ⟨log, rx⟩
      rw [hm] at he
      simp only at he
      subst he
      rfl

/-- C12. Unsupported types fail fast: for every server-side value `v`,
`makeOverlay` throws if and only if the traversal of `v` through arrays and
plain objects (not into bridgeable objects or `Error`s) meets a function or a
symbol, at any depth; the exception is then the `TypeError` with the message
`Unsupported proxy value of type <typeof>` naming the type of the first such
value, and otherwise an overlay is returned. -/
theorem C12_unsupported_fail_fast (P : Protocol) (v : Value) (hs : v.serverSide = true) :
    ((∃ e, (makeOverlay P v).2 = .error e) ↔ ∃ t, firstUnsupported v = some t) ∧
    ((∃ o, (makeOverlay P v).2 = .ok o) ↔ firstUnsupported v = none) ∧
    (∀ e, (makeOverlay P v).2 = .error e →
      ∃ t, firstUnsupported v = some t ∧ e = .unsupported t ∧
        e.message = some ("Unsupported proxy value of type " ++ t)) := by
  obtain ⟨h1, h2⟩ := makeOverlay_failsFast P v hs
  rcases hf : firstUnsupported v with _ | t
  · obtain ⟨o, ho⟩ := h1 hf
    refine ⟨⟨fun ⟨e, he⟩ => (by rw [ho] at he; cases he), fun ⟨t, ht⟩ => (by cases ht)⟩,
      ⟨fun _ => rfl, fun _ => ⟨o, ho⟩⟩, fun e he => (by rw [ho] at he; cases he)⟩
  · have he := h2 t hf
    refine ⟨⟨fun _ => ⟨t, rfl⟩, fun _ => ⟨_, he⟩⟩,
      ⟨fun ⟨o, ho⟩ => (by rw [he] at ho; cases ho), fun h => (by cases h)⟩, ?_⟩
    intro e he2
    rw [he] at he2
    cases he2
    exact ⟨t, rfl, rfl, rfl⟩

/-- C12, witness: a function nested in an object inside an array. -/
theorem C12_unsupported_fail_fast_witness :
    ((∃ e, (makeOverlay sampleProtocol
        (.arr [.num 1, .obj [("f", .func (.app 0))], .symbol])).2 = .error e) ↔
      ∃ t, firstUnsupported (.arr [.num 1, .obj [("f", .func (.app 0))], .symbol]) = some t) ∧
    ((∃ o, (makeOverlay sampleProtocol
        (.arr [.num 1, .obj [("f", .func (.app 0))], .symbol])).2 = .ok o) ↔
      firstUnsupported (.arr [.num 1, .obj [("f", .func (.app 0))], .symbol]) = none) ∧
    (∀ e, (makeOverlay sampleProtocol
        (.arr [.num 1, .obj [("f", .func (.app 0))], .symbol])).2 = .error e →
      ∃ t, firstUnsupported (.arr [.num 1, .obj [("f", .func (.app 0))], .symbol]) = some t ∧
        e = .unsupported t ∧ e.message = some ("Unsupported proxy value of type " ++ t)) :=
  C12_unsupported_fail_fast sampleProtocol
    (.arr [.num 1, .obj [("f", .func (.app 0))], .symbol]) (by decide)

theorem not_mem_of_getProp_none {α : Type} (fs : List (String × α)) (k : String)
    (h : getProp fs k = none) : k ∉ fs.map Prod.fst := by
  intro hk
  obtain ⟨v, hv⟩ := getProp_isSome_of_mem fs k hk
  rw [h] at hv
  cases hv

/-- Reading a property of the record built by the error branch of `stripValue`
gives the property of the `Error`. -/
theorem foldl_setProp_read (extra base : List (String × Value)) (k : String)
    (hnd : (extra.map Prod.fst).Nodup) :
    getProp (extra.foldl (fun acc p => setProp acc p.1 p.2) base) k =
      match getProp extra k with
      | some x => some x
      | none => getProp base k := by
  rcases h : getProp extra k with _ | x
  · exact foldl_setProp_other extra k (not_mem_of_getProp_none extra k h) base
  · exact foldl_setProp_get extra k x hnd h base

/-- C13. Error round trip: for every `Error` (with pairwise distinct property
names), `stripValue` with the error marker returns a plain record whose `name`,
`message` and `stack` are those of the error, and the client's `applyOverlay`
of that record with its error marker `'e'` returns an `Error` with the same
`name`, `message` and `stack`; `DELETED_PROXY_ID` is a string other than
`'e'`. -/
theorem C13_error_round_trip (P : Protocol) (proxies : List (String × Nat))
    (name message stack : Value) (extra : List (String × Value))
    (hD : P.DELETED_PROXY_ID ≠ "e") (hnd : (extra.map Prod.fst).Nodup) :
    ∃ fs en em es,
      readField (.error name message stack extra) "name" = .ok en ∧
      readField (.error name message stack extra) "message" = .ok em ∧
      readField (.error name message stack extra) "stack" = .ok es ∧
      (extra = [] → en = name ∧ em = message ∧ es = stack) ∧
      stripValue P (.error name message stack extra) (.str P.OVERLAY_ERROR) = .ok (.obj fs) ∧
      getProp fs "name" = some en ∧ getProp fs "message" = some em ∧
      getProp fs "stack" = some es ∧
      applyOverlay P proxies (.obj fs) (.str "e") = .ok (.error en em es []) := by
  obtain ⟨en, hen⟩ : ∃ en, readField (.error name message stack extra) "name" = .ok en := by
    simp only [readField]; split <;> exact ⟨_, rfl⟩
  obtain ⟨em, hem⟩ : ∃ em, readField (.error name message stack extra) "message" = .ok em := by
    simp only [readField]; split <;> exact ⟨_, rfl⟩
  obtain ⟨es, hes⟩ : ∃ es, readField (.error name message stack extra) "stack" = .ok es := by
    simp only [readField]; split <;> exact ⟨_, rfl⟩
  have hstrip : stripValue P (.error name message stack extra) (.str P.OVERLAY_ERROR) =
      .ok (.obj (extra.foldl (fun acc p => setProp acc p.1 p.2)
        [("name", en), ("message", em), ("stack", es)])) := by
    rw [stripValue, if_pos rfl]
    simp only [stripError, hen, hem, hes, spreadProps]
  have hget : ∀ k x, readField (.error name message stack extra) k = .ok x →
      getProp [("name", en), ("message", em), ("stack", es)] k =
        (if k = "name" then some en else if k = "message" then some em
          else if k = "stack" then some es else none) →
      (k = "name" ∨ k = "message" ∨ k = "stack") →
      (k = "name" → x = en) → (k = "message" → x = em) → (k = "stack" → x = es) →
      getProp (extra.foldl (fun acc p => setProp acc p.1 p.2)
        [("name", en), ("message", em), ("stack", es)]) k = some x := by
    intro k x hr hb hk h1 h2 h3
    rw [foldl_setProp_read extra _ k hnd]
    simp only [readField] at hr
    rcases hg : getProp extra k with _ | y
    · rw [hb]
      rcases hk with rfl | rfl | rfl
      · simp [h1 rfl]
      · simp [h2 rfl]
      · simp [h3 rfl]
    · rw [hg] at hr
      simp only [Except.ok.injEq] at hr
      subst hr
      rfl
  have hn := hget "name" en hen (by simp [getProp]) (Or.inl rfl) (fun _ => rfl)
    (fun h => absurd h (by decide)) (fun h => absurd h (by decide))
  have hm := hget "message" em hem (by simp [getProp]) (Or.inr (Or.inl rfl))
    (fun h => absurd h (by decide)) (fun _ => rfl) (fun h => absurd h (by decide))
  have hs := hget "stack" es hes (by simp [getProp]) (Or.inr (Or.inr rfl))
    (fun h => absurd h (by decide)) (fun h => absurd h (by decide)) (fun _ => rfl)
  refine ⟨_, en, em, es, hen, hem, hes, ?_, hstrip, hn, hm, hs, ?_⟩
  · intro he
    subst he
    simp only [readField, getProp, Except.ok.injEq] at hen hem hes
    exact ⟨by simpa using hen.symm, by simpa using hem.symm, by simpa using hes.symm⟩
  · rw [applyOverlay, if_neg (fun h => hD h.symm), if_pos rfl]
    simp only [applyError, readField, hn, hm, hs, Option.getD_some]

/-- C13, witness: an error thrown with the message `boom`. -/
theorem C13_error_round_trip_witness :
    ∃ fs en em es,
      readField (.error (.str "Error") (.str "boom") (.str "at f") []) "name" = .ok en ∧
      readField (.error (.str "Error") (.str "boom") (.str "at f") []) "message" = .ok em ∧
      readField (.error (.str "Error") (.str "boom") (.str "at f") []) "stack" = .ok es ∧
      (([] : List (String × Value)) = [] →
        en = .str "Error" ∧ em = .str "boom" ∧ es = .str "at f") ∧
      stripValue sampleProtocol (.error (.str "Error") (.str "boom") (.str "at f") [])
        (.str sampleProtocol.OVERLAY_ERROR) = .ok (.obj fs) ∧
      getProp fs "name" = some en ∧ getProp fs "message" = some em ∧
      getProp fs "stack" = some es ∧
      applyOverlay sampleProtocol [] (.obj fs) (.str "e") = .ok (.error en em es []) :=
  C13_error_round_trip sampleProtocol [] (.str "Error") (.str "boom") (.str "at f") []
    (by decide) (by decide)

/-- The update loop throws as soon as a record is addressed to an id that has
no proxy in the table. -/
theorem handleUpdateList_absent (P : Protocol) (us : List UpdateRecord) :
    ∀ (st : Client) (u : UpdateRecord), u ∈ us → getProp st.proxies u.proxyId = none →
      ∃ e, (handleUpdateList P st us).2 = .error e := by
  induction us with
  | nil => intro st u h; cases h
  | cons w rest ih =>
    intro st u hmem hno
    have hp := handleUpdate_proxies P st w
    have hw : w = u → ∃ e, (handleUpdate P st w).2 = .error e := by
      intro hwu
      subst hwu
      simp only [handleUpdate, hno]
      rcases applyOverlay P st.proxies w.value w.overlay with e | v
      · exact ⟨e, rfl⟩
      · simp only
        split
        · exact ⟨.outOfModel, rfl⟩
        · exact ⟨.typeError, rfl⟩
    simp only [handleUpdateList]
    revert hp hw
    rcases handleUpdate P st w with ⟨st1, e | _⟩
    · intro _ _
      exact ⟨e, rfl⟩
    · intro hp hw
      rcases List.mem_cons.1 hmem with rfl | hmem
      · obtain ⟨e, he⟩ := hw rfl
        cases he
      · exact ih st1 u hmem (by rw [show st1.proxies = st.proxies from hp]; exact hno)

/-- An update addressed to an id without proxy that names no member of
`Object.prototype`, on which `applyOverlay` returns, throws a `TypeError` and
leaves the state as it is. -/
theorem handleUpdate_absent (P : Protocol) (st : Client) (u : UpdateRecord) (v : Value)
    (hno : getProp st.proxies u.proxyId = none) (hin : inherits u.proxyId = false)
    (hv : applyOverlay P st.proxies u.value u.overlay = .ok v) :
    handleUpdate P st u = (st, .error .typeError) := by
  simp only [handleUpdate, hv, hno, hin, Bool.false_eq_true, if_false]

/-- C16 (as amended). A reference marker whose id has no proxy in the table and
names no member of `Object.prototype` does not make `applyOverlay` fail: as
the whole overlay it is answered with `undefined`, and at an inner position of
an overlay on which `applyOverlay` returns, the result holds `undefined`
there.  An update record addressed to such an id, without proxy after the
creation and deletion groups of its message, makes `handleMessage` throw; when
it is the first update record and `applyOverlay` returns on it, the exception
is a `TypeError` and the update group changes nothing. -/
theorem C16_unknown_reference (P : Protocol) (t : List (String × Nat)) (id : String)
    (st st1 : Client) (m : Message) (us : List UpdateRecord) (u : UpdateRecord)
    (hid : getProp t id = none) (h0 : id ≠ "") (hD : id ≠ P.DELETED_PROXY_ID) (he : id ≠ "e")
    (hproto : inherits id = false)
    (hc : handleCreates P st m.creates = (st1, .ok ()))
    (hu : m.updates = some us) (hmem : u ∈ us)
    (hno : getProp (handleDeletes st1 m.deletes).proxies u.proxyId = none)
    (hup : inherits u.proxyId = false) :
    (∀ v, applyOverlay P t v (.str id) = .ok .undefined) ∧
    (∀ (path : List Step) (v : Value) (o : Overlay) (out x : Value),
      applyOverlay P t v o = .ok out → o.atPath path = some (.str id) →
      out.atPath path = some x → x = .undefined) ∧
    (∃ e, (handleMessage P st m).2 = .error e) ∧
    (∀ rest v, us = u :: rest →
      applyOverlay P (handleDeletes st1 m.deletes).proxies u.value u.overlay = .ok v →
      handleMessage P st m = (handleDeletes st1 m.deletes, .error .typeError)) ∧
    (∀ ds, m.deletes = some ds → u.proxyId ∈ ds →
      getProp (handleDeletes st1 m.deletes).proxies u.proxyId = none) := by
  have hl : lookupProxy t id = .undefined := by simp only [lookupProxy, hid]
  refine ⟨?_, ?_, ?_, ?_, ?_⟩
  · intro v
    rw [applyOverlay_str P t v id hD he (Or.inr hproto), hl]
  · intro path v o out x h ho hx
    rw [applyOverlay_atPath P t id h0 hD he path v o out x h ho hx, hl]
  · obtain ⟨e, he⟩ := handleUpdateList_absent P us (handleDeletes st1 m.deletes) u hmem hno
    refine ⟨e, ?_⟩
    simp only [handleMessage, hc, hu, handleUpdates]
    revert he
    rcases handleUpdateList P (handleDeletes st1 m.deletes) us with ⟨st2, e2 | _⟩
    · intro he; exact he
    · intro he; cases he
  · intro rest v hus hv
    simp only [handleMessage, hc, hu, handleUpdates, hus, handleUpdateList,
      handleUpdate_absent P _ u v hno hup hv]
  · intro ds hds hmem2
    rw [hds]
    exact foldl_delProp_mem ds st1.proxies u.proxyId hmem2

/-- C16, witness: the id `p9` was never created; the update follows the
deletion of its proxy. -/
theorem C16_unknown_reference_witness :
    (∀ v, applyOverlay sampleProtocol [("p1", 0)] v (.str "p9") = .ok .undefined) ∧
    (∀ (path : List Step) (v : Value) (o : Overlay) (out x : Value),
      applyOverlay sampleProtocol [("p1", 0)] v o = .ok out →
      o.atPath path = some (.str "p9") →
      out.atPath path = some x → x = .undefined) ∧
    (∃ e, (handleMessage sampleProtocol (handleMessage sampleProtocol Client.init sampleCreate).1
      sampleDeleteUpdate).2 = .error e) ∧
    (∀ rest v,
      [({ proxyId := "p1", name := "flag", value := .bool true, overlay := .null } :
          UpdateRecord)] =
        { proxyId := "p1", name := "flag", value := .bool true, overlay := .null } :: rest →
      applyOverlay sampleProtocol
        (handleDeletes (handleMessage sampleProtocol Client.init sampleCreate).1
          sampleDeleteUpdate.deletes).proxies (.bool true) .null = .ok v →
      handleMessage sampleProtocol (handleMessage sampleProtocol Client.init sampleCreate).1
          sampleDeleteUpdate =
        (handleDeletes (handleMessage sampleProtocol Client.init sampleCreate).1
          sampleDeleteUpdate.deletes, .error .typeError)) ∧
    (∀ ds, sampleDeleteUpdate.deletes = some ds → "p1" ∈ ds →
      getProp (handleDeletes (handleMessage sampleProtocol Client.init sampleCreate).1
        sampleDeleteUpdate.deletes).proxies "p1" = none) :=
  C16_unknown_reference sampleProtocol [("p1", 0)] "p9"
    (handleMessage sampleProtocol Client.init sampleCreate).1
    (handleMessage sampleProtocol Client.init sampleCreate).1 sampleDeleteUpdate
    [{ proxyId := "p1", name := "flag", value := .bool true, overlay := .null }]
    { proxyId := "p1", name := "flag", value := .bool true, overlay := .null }
    (by decide) (by decide) (by decide) (by decide) (by decide) rfl rfl (by simp) (by decide)
    (by decide)

/-- C16, counterexample: whatever the constants of the protocol are, applying
the reference marker `p1` with an empty proxy table does not fail. -/
theorem C16_unknown_reference_counterexample :
    ¬ ∃ (P : Protocol) (e : Err), applyOverlay P [] .null (.str "p1") = .error e := by
  rintro ⟨P, e, h⟩
  obtain ⟨y, hy⟩ := applyOverlay_str_returns P [] "p1" (by decide) (by decide)
  rw [hy] at h
  cases h

theorem indexProps_keys (xs : List Value) :
    ∀ i, (indexProps i xs).map Prod.fst = (List.range' i xs.length).map toString := by
  induction xs with
  | nil => intro i; rfl
  | cons x rest ih =>
    intro i
    simp only [indexProps, List.map_cons, List.length_cons, List.range'_succ, ih]

theorem applyIdx_keys (P : Protocol) (t : List (String × Nat)) (ov : List (String × Overlay))
    (xs : List Value) :
    ∀ i out, applyIdx P t xs i ov = .ok out →
      out.map Prod.fst = (List.range' i xs.length).map toString := by
  induction xs with
  | nil =>
    intro i out h
    simp only [applyIdx, Except.ok.injEq] at h
    subst h
    rfl
  | cons x rest ih =>
    intro i out h
    simp only [applyIdx] at h
    split at h
    · cases h
    · split at h
      · cases h
      · rename_i ys hys
        simp only [Except.ok.injEq] at h
        subst h
        simp only [List.map_cons, List.length_cons, List.range'_succ, ih _ _ hys]

/-- C17 (as amended). Applying an array overlay throws a `TypeError` when the
raw value is `null` or `undefined`; on a boolean, a number or a plain object
without a `length` property it returns the empty array.  Applying an object
overlay to `null`, `undefined`, a boolean or a number returns the empty
object, and to an array of `n` elements it returns, when its elements are
reconstructed, an object whose keys are the indices `0, ..., n - 1`. -/
theorem C17_shape_mismatch (P : Protocol) (t : List (String × Nat)) :
    (∀ ov, applyOverlay P t .null (.arr ov) = .error .typeError) ∧
    (∀ ov, applyOverlay P t .undefined (.arr ov) = .error .typeError) ∧
    (∀ b ov, applyOverlay P t (.bool b) (.arr ov) = .ok (.arr [])) ∧
    (∀ n ov, applyOverlay P t (.num n) (.arr ov) = .ok (.arr [])) ∧
    (∀ fs ov, getProp fs "length" = none →
      applyOverlay P t (.obj fs) (.arr ov) = .ok (.arr [])) ∧
    (∀ ov, applyOverlay P t .null (.obj ov) = .ok (.obj [])) ∧
    (∀ ov, applyOverlay P t .undefined (.obj ov) = .ok (.obj [])) ∧
    (∀ b ov, applyOverlay P t (.bool b) (.obj ov) = .ok (.obj [])) ∧
    (∀ n ov, applyOverlay P t (.num n) (.obj ov) = .ok (.obj [])) ∧
    (∀ xs ov out, applyOverlay P t (.arr xs) (.obj ov) = .ok out →
      ∃ fs, out = .obj fs ∧ fs.map Prod.fst = (List.range xs.length).map toString) ∧
    (∀ xs, applyOverlay P t (.arr xs) (.obj []) = .ok (.obj (indexProps 0 xs))) := by
  refine ⟨?_, ?_, ?_, ?_, ?_, ?_, ?_, ?_, ?_, ?_, ?_⟩
  · intro ov; rw [applyOverlay]
  · intro ov; rw [applyOverlay]
  · intro b ov; rw [applyOverlay]
  · intro n ov; rw [applyOverlay]
  · intro fs ov h; rw [applyOverlay, h]; rfl
  · intro ov; rw [applyOverlay]
  · intro ov; rw [applyOverlay]
  · intro b ov; rw [applyOverlay]
  · intro n ov; rw [applyOverlay]
  · intro xs ov out h
    rw [applyOverlay] at h
    revert h
    rcases hq : applyIdx P t xs 0 ov with e | fs
    · intro h; cases h
    · intro h
      simp only [Except.ok.injEq] at h
      refine ⟨fs, h.symm, ?_⟩
      rw [applyIdx_keys P t ov xs 0 fs hq, List.range_eq_range']
  · intro xs
    have h : ∀ i, applyIdx P t xs i [] = .ok (indexProps i xs) := by
      induction xs with
      | nil => intro i; rfl
      | cons x rest ih =>
        intro i
        simp only [applyIdx, getProp, usable, ih, indexProps]
    rw [applyOverlay, h]

/-- C17, counterexample: whatever the constants of the protocol are, an array
overlay applied to the number `5`, and an object overlay applied to `null`, do
not fail. -/
theorem C17_shape_mismatch_counterexample :
    ¬ ∃ (P : Protocol) (e : Err),
      applyOverlay P [] (.num 5) (.arr [.str "p1"]) = .error e ∨
      applyOverlay P [] .null (.obj [("a", .str "p1")]) = .error e := by
  rintro ⟨P, e, h | h⟩
  · rw [applyOverlay] at h
    cases h
  · rw [applyOverlay] at h
    cases h

/-- C18 (as amended). When the undefined marker is a non-empty string other
than `'e'` and `DELETED_PROXY_ID` that names no member of `Object.prototype`,
and no proxy is stored under it, the client's `applyOverlay` answers the marker
with `undefined`, for every raw value; and whenever `applyOverlay` returns, the
result holds `undefined` at each of its positions whose overlay is the
marker. -/
theorem C18_undefined_marker (P : Protocol) (t : List (String × Nat))
    (h0 : P.OVERLAY_UNDEFINED ≠ "") (hD : P.OVERLAY_UNDEFINED ≠ P.DELETED_PROXY_ID)
    (he : P.OVERLAY_UNDEFINED ≠ "e") (hproto : inherits P.OVERLAY_UNDEFINED = false)
    (ht : getProp t P.OVERLAY_UNDEFINED = none) :
    (∀ v, applyOverlay P t v (.str P.OVERLAY_UNDEFINED) = .ok .undefined) ∧
    (∀ a raw, applyOverlay P t (.obj [(a, raw)]) (.obj [(a, .str P.OVERLAY_UNDEFINED)]) =
      .ok (.obj [(a, .undefined)])) ∧
    (∀ (path : List Step) (v : Value) (o : Overlay) (out x : Value),
      applyOverlay P t v o = .ok out → o.atPath path = some (.str P.OVERLAY_UNDEFINED) →
      out.atPath path = some x → x = .undefined) := by
  have hl : lookupProxy t P.OVERLAY_UNDEFINED = .undefined := by simp only [lookupProxy, ht]
  have h1 : ∀ v, applyOverlay P t v (.str P.OVERLAY_UNDEFINED) = .ok .undefined := by
    intro v
    rw [applyOverlay_str P t v _ hD he (Or.inr hproto), hl]
  refine ⟨h1, ?_, ?_⟩
  · intro a raw
    have hu : usable (some (Overlay.str P.OVERLAY_UNDEFINED)) =
        some (Overlay.str P.OVERLAY_UNDEFINED) := by
      simp [usable, Overlay.truthy, h0]
    rw [applyOverlay, applyObj]
    simp only [getProp, if_true, hu, h1, applyObj]
  · intro path v o out x h ho hx
    rw [applyOverlay_atPath P t _ h0 hD he path v o out x h ho hx, hl]

/-- C18, witness: the server value `{a: undefined}` arrives as `{a: null}`
with the marker under `a`. -/
theorem C18_undefined_marker_witness :
    (∀ v, applyOverlay sampleProtocol [("p1", 0)] v (.str sampleProtocol.OVERLAY_UNDEFINED) =
      .ok .undefined) ∧
    (∀ a raw, applyOverlay sampleProtocol [("p1", 0)] (.obj [(a, raw)])
      (.obj [(a, .str sampleProtocol.OVERLAY_UNDEFINED)]) = .ok (.obj [(a, .undefined)])) ∧
    (∀ (path : List Step) (v : Value) (o : Overlay) (out x : Value),
      applyOverlay sampleProtocol [("p1", 0)] v o = .ok out →
      o.atPath path = some (.str sampleProtocol.OVERLAY_UNDEFINED) →
      out.atPath path = some x → x = .undefined) :=
  C18_undefined_marker sampleProtocol [("p1", 0)] (by decide) (by decide) (by decide)
    (by decide) (by decide)

/-- C18, counterexample: whatever the constants of the protocol are, there is a
proxy table (one that stores a proxy under the marker) for which the marker is
not answered with `undefined`. -/
theorem C18_undefined_marker_counterexample :
    ¬ ∃ P : Protocol, ∀ (t : List (String × Nat)) (v : Value),
      applyOverlay P t v (.str P.OVERLAY_UNDEFINED) = .ok .undefined := by
  rintro ⟨P, h⟩
  have h1 := h [(P.OVERLAY_UNDEFINED, 0)] .null
  rw [applyOverlay] at h1
  by_cases hD : P.OVERLAY_UNDEFINED = P.DELETED_PROXY_ID
  · rw [if_pos hD] at h1
    cases h1
  · rw [if_neg hD] at h1
    by_cases he : P.OVERLAY_UNDEFINED = "e"
    · rw [if_pos he] at h1
      cases h1
    · rw [if_neg he] at h1
      simp [lookupProxy, getProp] at h1

theorem handleMessage_onlyCreates (P : Protocol) (st : Client) (m : Message) :
    handleMessage P st (onlyCreates m) = handleCreates P st m.creates := by
  simp only [handleMessage, onlyCreates]
  rcases handleCreates P st m.creates with ⟨st1, e | ⟨⟩⟩ <;> rfl

theorem handleMessage_onlyDeletes (P : Protocol) (st : Client) (m : Message) :
    handleMessage P st (onlyDeletes m) = (handleDeletes st m.deletes, .ok ()) := rfl

theorem handleMessage_onlyUpdates (P : Protocol) (st : Client) (m : Message) :
    handleMessage P st (onlyUpdates m) = handleUpdates P st m.updates := by
  simp only [handleMessage, onlyUpdates, handleCreates, handleDeletes]
  rcases handleUpdates P st m.updates with ⟨st1, e | ⟨⟩⟩ <;> rfl

theorem handleMessage_onlyReturn (P : Protocol) (st : Client) (m : Message) :
    handleMessage P st (onlyReturn m) = handleReturn P st m.ret := by
  simp only [handleMessage, onlyReturn, handleCreates, handleDeletes, handleUpdates]
  rcases handleReturn P st m.ret with ⟨st1, e | ⟨⟩⟩ <;> rfl

theorem handleMessage_onlyRoot (P : Protocol) (st : Client) (m : Message) :
    handleMessage P st (onlyRoot m) = handleRoot P st m.root := by
  simp only [handleMessage, onlyRoot, handleCreates, handleDeletes, handleUpdates, handleReturn]

/-- C19. Fixed group order: for every message `m` and every client state,
`handleMessage(m)` leaves the same state and the same outcome (returned, or the
error thrown) as handling in sequence the five messages that carry only the
creations, only the deletions, only the updates, only the return and only the
root of `m`, the sequence ending at the first message that throws; when
`handleMessage(m)` returns, its state is the one reached by delivering all
five messages. -/
theorem C19_fixed_group_order (P : Protocol) (st : Client) (m : Message) :
    handleMessage P st m =
      handleSeq P st [onlyCreates m, onlyDeletes m, onlyUpdates m, onlyReturn m, onlyRoot m] ∧
    ((handleMessage P st m).2 = .ok () →
      (handleMessage P st m).1 =
        run P st [.message (onlyCreates m), .message (onlyDeletes m),
          .message (onlyUpdates m), .message (onlyReturn m), .message (onlyRoot m)]) := by
  simp only [handleSeq, run, List.foldl_cons, List.foldl_nil, step, handleMessage_onlyCreates,
    handleMessage_onlyDeletes, handleMessage_onlyUpdates, handleMessage_onlyReturn,
    handleMessage_onlyRoot]
  simp only [handleMessage]
  rcases handleCreates P st m.creates with ⟨st1, e | ⟨⟩⟩
  · exact ⟨rfl, fun h => by cases h⟩
  · simp only
    rcases handleUpdates P (handleDeletes st1 m.deletes) m.updates with ⟨st2, e | ⟨⟩⟩
    · exact ⟨rfl, fun h => by cases h⟩
    · simp only
      rcases handleReturn P st2 m.ret with ⟨st3, e | ⟨⟩⟩
      · exact ⟨rfl, fun h => by cases h⟩
      · simp only
        rcases handleRoot P st3 m.root with ⟨st4, e | ⟨⟩⟩
        · exact ⟨rfl, fun h => by cases h⟩
        · exact ⟨rfl, fun _ => trivial⟩

theorem createProxies_root (creates : List CreateRecord) :
    ∀ st : Client, (createProxies st creates).root = st.root := by
  induction creates with
  | nil => intro st; rfl
  | cons r rest ih =>
    intro st
    simp only [createProxies]
    exact ih _

theorem assignProps_root (proxyId : String) (props : List (String × Value)) :
    ∀ st : Client, (assignProps st proxyId props).1.root = st.root := by
  induction props with
  | nil => intro st; rfl
  | cons p rest ih =>
    obtain ⟨name, v⟩ := p
    intro st
    simp only [assignProps]
    split
    · rfl
    · exact ih _

theorem fillProxies_root (P : Protocol) (creates : List CreateRecord) :
    ∀ st : Client, (fillProxies P st creates).1.root = st.root := by
  induction creates with
  | nil => intro st; rfl
  | cons r rest ih =>
    intro st
    simp only [fillProxies]
    split
    · rfl
    · split
      · rfl
      · rename_i props _
        have h := assignProps_root r.proxyId props st
        revert h
        rcases assignProps st r.proxyId props with ⟨st1, e | _⟩
        · exact fun h => h
        · exact fun h => (ih st1).trans h

theorem handleCreates_root (P : Protocol) (st : Client)
    (creates : Option (List CreateRecord)) :
    (handleCreates P st creates).1.root = st.root := by
  cases creates with
  | none => rfl
  | some cs => exact (fillProxies_root P cs _).trans (createProxies_root cs st)

theorem handleDeletes_root (st : Client) (deletes : Option (List String)) :
    (handleDeletes st deletes).root = st.root := by
  cases deletes <;> rfl

theorem makeMethod_root (st : Client) (proxyId method type : String)
    (params : List Value) :
    (makeMethod st proxyId method type params).1.root = st.root := by
  simp only [makeMethod]
  split <;> rfl

theorem proxyOn_root (st : Client) (a : Nat) (name callback : Value) :
    (proxyOn st a name callback).1.root = st.root := by
  cases name with
  | str s =>
    simp only [proxyOn]
    split <;> rfl
  | _ => rfl

theorem invoke_root (st : Client) (f : Value) (args : List Value) :
    (invoke st f args).1.root = st.root := by
  cases f with
  | func g =>
    rcases g with ⟨p, m, t⟩ | a | tag
    · exact makeMethod_root st p m t args
    · exact proxyOn_root st a _ _
    · rfl
  | _ => rfl

theorem handleUpdate_root (P : Protocol) (st : Client) (u : UpdateRecord) :
    (handleUpdate P st u).1.root = st.root := by
  simp only [handleUpdate]
  rcases applyOverlay P st.proxies u.value u.overlay with e | v
  · rfl
  · rcases getProp st.proxies u.proxyId with _ | a
    · simp only
      split <;> rfl
    · simp only
      split
      · rfl
      · split
        · rw [invoke_root]
        · rfl

theorem handleUpdateList_root (P : Protocol) (updates : List UpdateRecord) :
    ∀ st : Client, (handleUpdateList P st updates).1.root = st.root := by
  induction updates with
  | nil => intro st; rfl
  | cons u rest ih =>
    intro st
    have h1 := handleUpdate_root P st u
    simp only [handleUpdateList]
    revert h1
    rcases handleUpdate P st u with ⟨st1, e | _⟩
    · exact fun h1 => h1
    · exact fun h1 => (ih st1).trans h1

theorem handleUpdates_root (P : Protocol) (st : Client)
    (updates : Option (List UpdateRecord)) :
    (handleUpdates P st updates).1.root = st.root := by
  cases updates with
  | none => rfl
  | some us => exact handleUpdateList_root P us st

theorem handleReturn_root (P : Protocol) (st : Client) (ret : Option ReturnRecord) :
    (handleReturn P st ret).1.root = st.root := by
  cases ret with
  | none => rfl
  | some r =>
    simp only [handleReturn]
    rcases applyOverlay P st.proxies r.value r.overlay with e | v
    · rfl
    · rcases getProp st.pendingCalls r.callId with _ | id <;> rfl

/-- The root handle after the root group: resolved by the record when it was
unresolved and `applyOverlay` returned, and otherwise as before. -/
theorem handleRoot_root (P : Protocol) (st : Client) (root : Option RootRecord) :
    (handleRoot P st root).1.root =
      match st.root, root with
      | some old, _ => some old
      | none, none => none
      | none, some r =>
        match applyOverlay P st.proxies r.value r.overlay with
        | .ok v => some v
        | .error _ => none := by
  cases root with
  | none => rcases h : st.root with _ | old <;> simp [handleRoot, h]
  | some r =>
    simp only [handleRoot]
    rcases hq : applyOverlay P st.proxies r.value r.overlay with e | v
    · rcases h : st.root with _ | old <;> simp [h, hq]
    · rcases h : st.root with _ | old <;> simp [h, hq]

/-- Either `handleMessage` throws before its root group, with the root handle
as it was, or it ends with the root group, reached with the root handle as it
was. -/
theorem handleMessage_root (P : Protocol) (st : Client) (m : Message) :
    (∃ s e, handleMessage P st m = (s, .error e) ∧ s.root = st.root) ∨
    ∃ st3, st3.root = st.root ∧ handleMessage P st m = handleRoot P st3 m.root := by
  simp only [handleMessage]
  have h1 := handleCreates_root P st m.creates
  revert h1
  rcases handleCreates P st m.creates with ⟨st1, e | ⟨⟩⟩
  · exact fun h1 => Or.inl ⟨st1, e, rfl, h1⟩
  · intro h1
    simp only at h1 ⊢
    have h2 := handleUpdates_root P (handleDeletes st1 m.deletes) m.updates
    rw [handleDeletes_root, h1] at h2
    revert h2
    rcases handleUpdates P (handleDeletes st1 m.deletes) m.updates with ⟨st2, e | ⟨⟩⟩
    · exact fun h2 => Or.inl ⟨st2, e, rfl, h2⟩
    · intro h2
      simp only at h2 ⊢
      have h3 := handleReturn_root P st2 m.ret
      rw [h2] at h3
      revert h3
      rcases handleReturn P st2 m.ret with ⟨st3, e | ⟨⟩⟩
      · exact fun h3 => Or.inl ⟨st3, e, rfl, h3⟩
      · intro h3
        exact Or.inr ⟨st3, h3, rfl⟩

theorem step_root_some (P : Protocol) (st : Client) (op : Op) (v : Value)
    (h : st.root = some v) : (step P st op).root = some v := by
  cases op with
  | message m =>
    simp only [step]
    rcases handleMessage_root P st m with ⟨s, e, h1, h2⟩ | ⟨st3, h3, h4⟩
    · rw [h1, h2, h]
    · rw [h4, handleRoot_root, h3, h]
  | call p me t ps => simp only [step, makeMethod_root, h]
  | _ => simp only [step, proxyOn_root, h]

theorem step_root_none (P : Protocol) (st : Client) (op : Op)
    (h : st.root = none) (hop : ∀ m, op = .message m → m.root = none) :
    (step P st op).root = none := by
  cases op with
  | message m =>
    simp only [step]
    rcases handleMessage_root P st m with ⟨s, e, h1, h2⟩ | ⟨st3, h3, h4⟩
    · rw [h1, h2, h]
    · rw [h4, handleRoot_root, h3, h, hop m rfl]
  | call p me t ps => simp only [step, makeMethod_root, h]
  | _ => simp only [step, proxyOn_root, h]

/-- C15. Root resolved exactly once.  The root handle of a new client is
unresolved and stays so under messages without a root record, method calls and
`on` registrations; a message with a root record that is handled while the
handle is unresolved resolves it to `applyOverlay(value, overlay)` of that
record; once resolved, the value of the handle is the same after every further
sequence of messages (with or without root records), calls and
registrations. -/
theorem C15_root_once (P : Protocol) :
    Client.init.root = none ∧
    (∀ (st : Client) (ops : List Op), st.root = none →
      (∀ m, Op.message m ∈ ops → m.root = none) → (run P st ops).root = none) ∧
    (∀ (st st2 : Client) (m : Message) (r : RootRecord), st.root = none → m.root = some r →
      handleMessage P st m = (st2, .ok ()) →
      ∃ v, applyOverlay P st2.proxies r.value r.overlay = .ok v ∧ st2.root = some v) ∧
    (∀ (st : Client) (v : Value) (ops : List Op), st.root = some v →
      (run P st ops).root = some v) := by
  refine ⟨rfl, ?_, ?_, ?_⟩
  · intro st ops
    induction ops generalizing st with
    | nil => intro h _; exact h
    | cons op rest ih =>
      intro h hops
      simp only [run, List.foldl_cons]
      exact ih (step P st op)
        (step_root_none P st op h (fun m hm => hops m (by rw [hm]; exact List.mem_cons_self _ _)))
        (fun m hm => hops m (List.mem_cons_of_mem _ hm))
  · intro st st2 m r h hr hok
    rcases handleMessage_root P st m with ⟨s, e, h1, _⟩ | ⟨st3, h3, h4⟩
    · rw [hok] at h1
      cases h1
    · rw [hok, hr] at h4
      simp only [handleRoot] at h4
      revert h4
      rcases hq : applyOverlay P st3.proxies r.value r.overlay with e | v
      · intro h4; cases h4
      · intro h4
        simp only [Prod.mk.injEq, and_true] at h4
        subst h4
        refine ⟨v, hq, ?_⟩
        simp only [h3, h]
  · intro st v ops
    induction ops generalizing st with
    | nil => intro h; exact h
    | cons op rest ih =>
      intro h
      simp only [run, List.foldl_cons]
      exact ih (step P st op) (step_root_some P st op v h)

/-- C15, witness: the message `sampleCreate` resolves the root to the proxy
`p1`, and a later message with another root record leaves it so. -/
theorem C15_root_once_witness :
    (handleMessage sampleProtocol Client.init sampleCreate).1.root = some (.proxy 0) ∧
    (run sampleProtocol (handleMessage sampleProtocol Client.init sampleCreate).1
      [.message sampleRootAgain]).root = some (.proxy 0) :=
  ⟨rfl, (C15_root_once sampleProtocol).2.2.2
    (handleMessage sampleProtocol Client.init sampleCreate).1 (.proxy 0)
    [.message sampleRootAgain] rfl⟩

theorem getProp_strippedFields (fs : List (String × Value)) (k : String) :
    getProp (strippedFields fs) k = (getProp fs k).map stripped := by
  induction fs with
  | nil => rfl
  | cons f rest ih =>
    obtain ⟨k1, x⟩ := f
    simp only [strippedFields, getProp]
    split
    · rfl
    · exact ih

theorem strippedFields_keys (fs : List (String × Value)) :
    (strippedFields fs).map Prod.fst = fs.map Prod.fst := by
  induction fs with
  | nil => rfl
  | cons f rest ih =>
    obtain ⟨k1, x⟩ := f
    simp only [strippedFields, List.map_cons, ih]

theorem truthy_stripped (x : Value) (h : x.truthy = false) : (stripped x).truthy = false := by
  cases x <;> simp_all [stripped, Value.truthy]

/-- The stripped form of a value without `Error` is sent to `null` by the
overlay of the documentation. -/
theorem overlayOf_stripped (P : Protocol) (v : Value) :
    v.errorFree = true → overlayOf P (stripped v) = .null := by
  induction v using Value.induct with
  | error _ _ _ _ => intro h; simp [Value.errorFree] at h
  | arr xs ih =>
    intro h
    simp only [Value.errorFree] at h
    have hall : (overlayOfList P (strippedList xs)).all Overlay.isNull = true := by
      induction xs with
      | nil => rfl
      | cons x rest ihr =>
        simp only [Value.errorFreeList, Bool.and_eq_true] at h
        simp only [strippedList, overlayOfList, List.all_cons, Bool.and_eq_true]
        refine ⟨?_, ihr (fun y hy => ih y (List.mem_cons_of_mem _ hy)) h.2⟩
        rw [ih x (List.mem_cons_self _ _) h.1]
        rfl
    rw [stripped, overlayOf, if_pos hall]
  | obj fs ih =>
    intro h
    simp only [Value.errorFree] at h
    have hall : ((overlayOfFields P (strippedFields fs)).filter fun p => !p.2.isNull) = [] := by
      induction fs with
      | nil => rfl
      | cons f rest ihr =>
        obtain ⟨k, x⟩ := f
        simp only [Value.errorFreeFields, Bool.and_eq_true] at h
        have h1 := ih (k, x) (List.mem_cons_self _ _) h.1
        simp only at h1
        simp only [strippedFields, overlayOfFields, h1]
        rw [List.filter_cons_of_neg (by simp [Overlay.isNull])]
        exact ihr (fun y hy => ih y (List.mem_cons_of_mem _ hy)) h.2
    rw [stripped, overlayOf, hall]
    rfl
  | _ => intro _; simp [stripped, overlayOf]

theorem stripped_distinctKeys (v : Value) :
    v.distinctKeys = true → (stripped v).distinctKeys = true := by
  induction v using Value.induct with
  | arr xs ih =>
    intro h
    simp only [Value.distinctKeys] at h
    simp only [stripped, Value.distinctKeys]
    induction xs with
    | nil => rfl
    | cons x rest ihr =>
      simp only [Value.distinctKeysList, Bool.and_eq_true] at h
      simp only [strippedList, Value.distinctKeysList, Bool.and_eq_true]
      exact ⟨ih x (List.mem_cons_self _ _) h.1,
        ihr (fun y hy => ih y (List.mem_cons_of_mem _ hy)) h.2⟩
  | obj fs ih =>
    intro h
    simp only [Value.distinctKeys, Bool.and_eq_true] at h
    simp only [stripped, Value.distinctKeys, Bool.and_eq_true, strippedFields_keys]
    refine ⟨h.1, ?_⟩
    have h2 := h.2
    clear h
    induction fs with
    | nil => rfl
    | cons f rest ihr =>
      obtain ⟨k, x⟩ := f
      simp only [Value.distinctKeysFields, Bool.and_eq_true] at h2
      simp only [strippedFields, Value.distinctKeysFields, Bool.and_eq_true]
      exact ⟨ih (k, x) (List.mem_cons_self _ _) h2.1,
        ihr (fun y hy => ih y (List.mem_cons_of_mem _ hy)) h2.2⟩
  | _ => intro _; simp [stripped, Value.distinctKeys]

theorem forall₂_left {α β : Type} {R : α → β → Prop} {xs : List α} {os : List β}
    (h : List.Forall₂ R xs os) : ∀ x ∈ xs, ∃ o, R x o := by
  induction h with
  | nil => intro x hx; cases hx
  | cons hxo _ ih =>
    intro x hx
    rcases List.mem_cons.1 hx with rfl | hx
    · exact ⟨_, hxo⟩
    · exact ih x hx

theorem plainList_stripped (xs : List Value) (h : ∀ x ∈ xs, (stripped x).plain = true) :
    Value.plainList (strippedList xs) = true := by
  induction xs with
  | nil => rfl
  | cons x rest ih =>
    simp only [strippedList, Value.plainList, Bool.and_eq_true]
    exact ⟨h x (List.mem_cons_self _ _), ih (fun y hy => h y (List.mem_cons_of_mem _ hy))⟩

theorem plainFields_stripped (fs : List (String × Value))
    (h : ∀ p ∈ fs, (stripped p.2).plain = true) :
    Value.plainFields (strippedFields fs) = true := by
  induction fs with
  | nil => rfl
  | cons f rest ih =>
    obtain ⟨k, x⟩ := f
    simp only [strippedFields, Value.plainFields, Bool.and_eq_true]
    exact ⟨h (k, x) (List.mem_cons_self _ _), ih (fun y hy => h y (List.mem_cons_of_mem _ hy))⟩

theorem mem_of_errorFreeList {xs : List Value} (h : Value.errorFreeList xs = true) :
    ∀ x ∈ xs, x.errorFree = true := by
  induction xs with
  | nil => intro x hx; cases hx
  | cons y rest ih =>
    simp only [Value.errorFreeList, Bool.and_eq_true] at h
    intro x hx
    rcases List.mem_cons.1 hx with rfl | hx
    · exact h.1
    · exact ih h.2 x hx

theorem mem_of_errorFreeFields {fs : List (String × Value)}
    (h : Value.errorFreeFields fs = true) : ∀ p ∈ fs, p.2.errorFree = true := by
  induction fs with
  | nil => intro x hx; cases hx
  | cons f rest ih =>
    obtain ⟨k, y⟩ := f
    simp only [Value.errorFreeFields, Bool.and_eq_true] at h
    intro x hx
    rcases List.mem_cons.1 hx with rfl | hx
    · exact h.1
    · exact ih h.2 x hx

/-- When `makeOverlay` returns on a value without `Error`, the stripped form of
the value is built from booleans, numbers, strings, `null`, arrays and plain
objects. -/
theorem stripped_plain (P : Protocol) (v : Value) :
    v.errorFree = true → (∃ o, (makeOverlay P v).2 = .ok o) → (stripped v).plain = true := by
  induction v using Value.induct with
  | error _ _ _ _ => intro h; simp [Value.errorFree] at h
  | proxy _ => rintro _ ⟨o, ho⟩; simp [makeOverlay] at ho
  | func _ => rintro _ ⟨o, ho⟩; simp [makeOverlay] at ho
  | symbol => rintro _ ⟨o, ho⟩; simp [makeOverlay] at ho
  | arr xs ih =>
    rintro h ⟨o, ho⟩
    simp only [Value.errorFree] at h
    have hr : ∃ r, (makeOverlayArr P xs 0 none).2 = .ok r := by
      simp only [makeOverlay] at ho
      revert ho
      rcases makeOverlayArr P xs 0 none with ⟨log, e | r⟩
      · intro ho; cases ho
      · intro _; exact ⟨r, rfl⟩
    obtain ⟨r, hr⟩ := hr
    obtain ⟨os, hos, _⟩ := makeOverlayArr_elems P xs 0 none r hr
    simp only [stripped, Value.plain]
    exact plainList_stripped xs
      (fun x hx => ih x hx (mem_of_errorFreeList h x hx) (forall₂_left hos x hx))
  | obj fs ih =>
    rintro h ⟨o, ho⟩
    simp only [Value.errorFree] at h
    simp only [makeOverlay] at ho
    by_cases hk : ((getProp fs PROXY_OBJECT_KEY).getD .undefined).truthy = true
    · rw [if_pos hk] at ho
      cases ho
    · rw [if_neg hk] at ho
      have hr : ∃ r, (makeOverlayObj P fs none).2 = .ok r := by
        revert ho
        rcases makeOverlayObj P fs none with ⟨log, e | r⟩
        · intro ho; cases ho
        · intro _; exact ⟨r, rfl⟩
      obtain ⟨r, hr⟩ := hr
      obtain ⟨ofs, hofs, _⟩ := makeOverlayObj_elems P fs none r hr
      simp only [stripped, Value.plain, Bool.and_eq_true, Bool.not_eq_true']
      refine ⟨?_, ?_⟩
      · rw [getProp_strippedFields]
        simp only [Bool.not_eq_true] at hk
        rcases hg : getProp fs PROXY_OBJECT_KEY with _ | x
        · rfl
        · rw [hg] at hk
          exact truthy_stripped x hk
      · refine plainFields_stripped fs (fun p hp => ih p hp (mem_of_errorFreeFields h p hp) ?_)
        obtain ⟨g, hg⟩ := forall₂_left hofs p hp
        exact ⟨g.2, hg.2⟩
  | _ => intro _ _; simp [stripped, Value.plain]

/-- C20 (as amended). Stripping reaches a fixed point: for every value `v`
without `Error` whose plain objects have pairwise distinct keys that name no
member of `Object.prototype`, whose proxy ids are non-empty and differ from
the error marker, and which either contains no `undefined` or is encoded with
an undefined marker that is non-empty and differs from the error marker, if
`makeOverlay(v)` returns `o` then `stripValue(v, o)` returns a value `w` (`v`
with `null` for every `undefined` and bridgeable object), `makeOverlay(w)`
returns `null`, and `stripValue(w, null)` returns `w`. -/
theorem C20_strip_fixed_point (P : Protocol) (v : Value) (o : Overlay)
    (hkeys : v.distinctKeys = true) (hsafe : v.safeKeys = true)
    (herr : v.errorFree = true)
    (hundef : v.undefinedFree = true ∨ P.undefinedMarkerOk)
    (hids : ∀ id ∈ apiIds v, id ≠ "" ∧ id ≠ P.OVERLAY_ERROR)
    (ho : (makeOverlay P v).2 = .ok o) :
    ∃ w, stripValue P v o = .ok w ∧ w = stripped v ∧
      (makeOverlay P w).2 = .ok .null ∧ stripValue P w .null = .ok w := by
  have hov := makeOverlay_eq P v hkeys o ho
  have hs : stripValue P v o = .ok (stripped v) := by
    rw [hov]
    exact stripValue_overlayOf P v hkeys hsafe herr hundef
      (fun proxyId props hb => hids proxyId (mem_apiIds v proxyId props hb))
  obtain ⟨o2, ho2⟩ := makeOverlay_plain_returns P (stripped v) (stripped_plain P v herr ⟨o, ho⟩)
  have h2 := makeOverlay_eq P (stripped v) (stripped_distinctKeys v hkeys) o2 ho2
  rw [overlayOf_stripped P v herr] at h2
  subst h2
  refine ⟨stripped v, hs, rfl, ho2, ?_⟩
  rw [stripValue]

/-- C20, witness: an object with an `undefined` field and an array of two
bridgeable objects. -/
theorem C20_strip_fixed_point_witness :
    ∃ w, stripValue sampleProtocol
        (.obj [("a", .undefined), ("list", .arr [.api "p1" [], .num 2, .api "p2" []])])
        (.obj [("a", .str "u"), ("list", .arr [.str "p1", .null, .str "p2"])]) = .ok w ∧
      w = stripped (.obj [("a", .undefined), ("list", .arr [.api "p1" [], .num 2, .api "p2" []])]) ∧
      (makeOverlay sampleProtocol w).2 = .ok .null ∧
      stripValue sampleProtocol w .null = .ok w :=
  C20_strip_fixed_point sampleProtocol
    (.obj [("a", .undefined), ("list", .arr [.api "p1" [], .num 2, .api "p2" []])])
    (.obj [("a", .str "u"), ("list", .arr [.str "p1", .null, .str "p2"])])
    (by decide) (by decide) (by decide) (Or.inr ⟨by decide, by decide⟩) (by decide) rfl

/-- C20, counterexample: whatever the constants of the protocol are, the array
holding a bridgeable object whose proxy id is the empty string is stripped to
itself, and `makeOverlay` of the stripped value is not `null`. -/
theorem C20_strip_fixed_point_counterexample :
    (Value.arr [.api "" []]).errorFree = true ∧
    ¬ ∃ P : Protocol, ∃ o w, (makeOverlay P (.arr [.api "" []])).2 = .ok o ∧
      stripValue P (.arr [.api "" []]) o = .ok w ∧ (makeOverlay P w).2 = .ok .null := by
  refine ⟨rfl, ?_⟩
  rintro ⟨P, o, w, ho, hw, hn⟩
  have h1 : (makeOverlay P (.arr [.api "" []])).2 = .ok (.arr [.str ""]) := rfl
  rw [h1] at ho
  cases ho
  have h2 : stripValue P (.arr [.api "" []]) (.arr [.str ""]) = .ok (.arr [.api "" []]) := rfl
  rw [h2] at hw
  cases hw
  rw [h1] at hn
  cases hn

theorem capitalize_length (name c : String) (h : capitalize name = .ok c) :
    c.length = name.length := by
  simp only [capitalize] at h
  rcases hd : name.data with _ | ⟨ch, rest⟩
  · rw [hd] at h; cases h
  · rw [hd] at h
    simp only at h
    split at h
    · simp only [Except.ok.injEq] at h
      subst h
      simp only [String.length, hd, List.length_cons]
    · cases h

theorem capitalize_append (name c suffix : String) (h : capitalize name = .ok c) :
    capitalize (name ++ suffix) = .ok (c ++ suffix) := by
  simp only [capitalize] at h ⊢
  rcases hd : name.data with _ | ⟨ch, rest⟩
  · rw [hd] at h; cases h
  · rw [hd] at h
    simp only at h
    simp only [String.data_append, hd, List.cons_append]
    split at h
    · rename_i hlt
      simp only [Except.ok.injEq] at h
      subst h
      rw [if_pos hlt]
      congr 1
    · cases h

/-- The slot read for the callback is not the property being updated. -/
theorem slot_ne_name (name c : String) (h : capitalize name = .ok c) :
    "on" ++ c ++ "Changed" ≠ name := by
  intro he
  have hl := congrArg String.length he
  simp only [String.length_append, capitalize_length name c h] at hl
  have h2 : "on".length = 2 := rfl
  have h7 : "Changed".length = 7 := rfl
  omega

theorem heapGet_heapSet_self (heap : List (List (String × Value))) (a : Nat) (name : String)
    (v : Value) (o : List (String × Value)) (h : heap[a]? = some o) :
    heapGet (heapSet heap a name v) a name = v := by
  simp only [heapGet, heapSet_get_self heap a name v o h, getProp_setProp, if_true,
    Option.getD_some]

theorem heapGet_heapSet_other (heap : List (List (String × Value))) (a b : Nat)
    (name k : String) (v : Value) (h : b ≠ a ∨ k ≠ name) :
    heapGet (heapSet heap a name v) b k = heapGet heap b k := by
  by_cases hab : a = b
  · subst hab
    have hk : name ≠ k := fun e => by
      rcases h with h | h
      · exact h rfl
      · exact h e.symm
    simp only [heapGet]
    rcases ho : heap[a]? with _ | o
    · simp only [heapSet, ho]
    · simp only [heapSet_get_self heap a name v o ho, getProp_setProp, if_neg hk]
  · simp only [heapGet, heapSet_get_ne heap a b name v hab]

/-- One update of a property of an existing proxy: the assignment, then the
call of the slot `'on' + Name + 'Changed'` when it is truthy. -/
theorem handleUpdate_eq (P : Protocol) (st : Client) (u : UpdateRecord) (a : Nat)
    (o : List (String × Value)) (c : String) (v : Value)
    (hproxy : getProp st.proxies u.proxyId = some a) (hobj : st.heap[a]? = some o)
    (hval : applyOverlay P st.proxies u.value u.overlay = .ok v)
    (hcap : capitalize u.name = .ok c) :
    handleUpdate P st u =
      if (heapGet st.heap a ("on" ++ c ++ "Changed")).truthy then
        invoke { st with heap := heapSet st.heap a u.name v }
          (heapGet st.heap a ("on" ++ c ++ "Changed")) [v]
      else ({ st with heap := heapSet st.heap a u.name v }, .ok ()) := by
  simp only [handleUpdate, hval, hproxy, hcap]
  rw [heapGet_heapSet_other st.heap a a u.name _ v (Or.inr (slot_ne_name u.name c hcap)),
    heapGet_heapSet_self st.heap a u.name v o hobj]

theorem handleMessage_update (P : Protocol) (st : Client) (m : Message) (u : UpdateRecord)
    (hc : m.creates = none) (hd : m.deletes = none) (hu : m.updates = some [u])
    (hr : m.ret = none) (hroot : m.root = none) :
    handleMessage P st m = handleUpdate P st u := by
  simp only [handleMessage, hc, hd, hu, hr, hroot, handleCreates, handleDeletes, handleUpdates,
    handleUpdateList, handleReturn, handleRoot]
  rcases handleUpdate P st u with ⟨s, e | ⟨⟩⟩ <;> rfl

/-- C14 (as amended). Update and watch delivery: for a message that carries
one update record `{proxyId, name, value, overlay}` whose proxy exists, whose
`name` is not empty and on which `applyOverlay` returns `v`, `handleMessage`
sets the property `name` of that proxy to `v` and leaves the other properties
of that proxy and all other proxies unchanged.  The call `on(name + 'Changed',
cb)` stores `cb` in the proxy's property `'on' + Name + 'Changed'`; when that
property holds a callback of the application, the callback is invoked exactly
once, with `v`, and when it is absent or falsy nothing is invoked and no call
is sent. -/
theorem C14_update_and_watch (P : Protocol) (st : Client) (m : Message) (u : UpdateRecord)
    (a : Nat) (o : List (String × Value)) (c : String) (v : Value)
    (hc : m.creates = none) (hd : m.deletes = none) (hu : m.updates = some [u])
    (hr : m.ret = none) (hroot : m.root = none)
    (hproxy : getProp st.proxies u.proxyId = some a) (hobj : st.heap[a]? = some o)
    (hval : applyOverlay P st.proxies u.value u.overlay = .ok v)
    (hcap : capitalize u.name = .ok c) :
    (∀ cb, proxyOn st a (.str (u.name ++ "Changed")) cb =
      ({ st with heap := heapSet st.heap a ("on" ++ c ++ "Changed") cb }, .ok ())) ∧
    (∀ tag, handleMessage P
        (proxyOn st a (.str (u.name ++ "Changed")) (.func (.app tag))).1 m =
      ({ st with
          heap := heapSet (heapSet st.heap a ("on" ++ c ++ "Changed") (.func (.app tag)))
            a u.name v
          fired := st.fired ++ [(tag, [v])] }, .ok ())) ∧
    (∀ tag, heapGet st.heap a ("on" ++ c ++ "Changed") = .func (.app tag) →
      handleMessage P st m =
        ({ st with heap := heapSet st.heap a u.name v, fired := st.fired ++ [(tag, [v])] },
          .ok ())) ∧
    ((heapGet st.heap a ("on" ++ c ++ "Changed")).truthy = false →
      handleMessage P st m = ({ st with heap := heapSet st.heap a u.name v }, .ok ())) ∧
    heapGet (heapSet st.heap a u.name v) a u.name = v ∧
    (∀ b k, b ≠ a ∨ k ≠ u.name →
      heapGet (heapSet st.heap a u.name v) b k = heapGet st.heap b k) := by
  have hon : ∀ cb, proxyOn st a (.str (u.name ++ "Changed")) cb =
      ({ st with heap := heapSet st.heap a ("on" ++ c ++ "Changed") cb }, .ok ()) := by
    intro cb
    simp only [proxyOn, capitalize_append u.name c "Changed" hcap, String.append_assoc]
  have hfire : ∀ (s : Client) (o2 : List (String × Value)) tag,
      getProp s.proxies u.proxyId = some a → s.heap[a]? = some o2 →
      applyOverlay P s.proxies u.value u.overlay = .ok v →
      heapGet s.heap a ("on" ++ c ++ "Changed") = .func (.app tag) →
      handleMessage P s m =
        ({ s with heap := heapSet s.heap a u.name v, fired := s.fired ++ [(tag, [v])] },
          .ok ()) := by
    intro s o2 tag h1 h2 h3 h4
    rw [handleMessage_update P s m u hc hd hu hr hroot,
      handleUpdate_eq P s u a o2 c v h1 h2 h3 hcap, h4]
    rfl
  refine ⟨hon, ?_, ?_, ?_, heapGet_heapSet_self st.heap a u.name v o hobj,
    fun b k h => heapGet_heapSet_other st.heap a b u.name k v h⟩
  · intro tag
    rw [hon]
    exact hfire _ (setProp o ("on" ++ c ++ "Changed") (.func (.app tag))) tag hproxy
      (heapSet_get_self st.heap a _ _ o hobj) hval
      (heapGet_heapSet_self st.heap a _ _ o hobj)
  · intro tag h4
    exact hfire st o tag hproxy hobj hval h4
  · intro h4
    rw [handleMessage_update P st m u hc hd hu hr hroot,
      handleUpdate_eq P st u a o c v hproxy hobj hval hcap, h4]
    rfl

/-- C14, witness: on the proxy `p1` created by `sampleCreate`, the callback 7
is registered with `on('flagChanged', cb)` and `flag` is then updated to
`true`. -/
theorem C14_update_and_watch_witness :
    (handleMessage sampleProtocol
      (proxyOn (handleMessage sampleProtocol Client.init sampleCreate).1 0
        (.str "flagChanged") (.func (.app 7))).1 sampleFlagUpdate).1.fired =
      [(7, [.bool true])] ∧
    (handleMessage sampleProtocol (handleMessage sampleProtocol Client.init sampleCreate).1
      sampleFlagUpdate).1.fired = [] := by
  have h := C14_update_and_watch sampleProtocol
    (handleMessage sampleProtocol Client.init sampleCreate).1 sampleFlagUpdate
    { proxyId := "p1", name := "flag", value := .bool true, overlay := .null } 0
    [("simple", .func (.method "p1" "simple" "MethodApi")), ("on", .func (.on 0)),
      ("self", .proxy 0)]
    "Flag" (.bool true) rfl rfl rfl rfl rfl rfl rfl rfl rfl
  refine ⟨?_, ?_⟩
  · exact (congrArg (fun r : Client × Except Err Unit => r.1.fired) (h.2.1 7)).trans rfl
  · exact (congrArg (fun r : Client × Except Err Unit => r.1.fired) (h.2.2.2.1 rfl)).trans rfl

/-- C14, counterexample: whatever the constants of the protocol are, (1) on a
proxy that has a method named `onFlagChanged`, with no callback registered, an
update of `flag` calls that method, which sends a call message to the server;
(2) on a proxy whose property `onFlagChanged` holds the number 5, the update of
`flag` makes `handleMessage` throw. -/
theorem C14_update_and_watch_counterexample :
    (¬ ∃ P : Protocol,
      (run P Client.init [.message sampleCreateWatched, .message sampleFlagUpdate]).sent = []) ∧
    (¬ ∃ P : Protocol,
      (handleMessage P (run P Client.init [.message sampleCreateNumber]) sampleFlagUpdate).2 =
        .ok ()) := by
  refine ⟨?_, ?_⟩
  · rintro ⟨P, h⟩
    have h1 : (run P Client.init
        [.message sampleCreateWatched, .message sampleFlagUpdate]).sent =
        [{ proxyId := "p1", callId := 1, method := "onFlagChanged",
           params := [.bool true] }] := rfl
    rw [h1] at h
    cases h
  · rintro ⟨P, h⟩
    have h1 : (handleMessage P (run P Client.init [.message sampleCreateNumber])
        sampleFlagUpdate).2 = .error .typeError := rfl
    rw [h1] at h
    cases h

end Yaob
